import Mathlib

/-!
# ext::util::lru_cache

A shallow embedding of `include/ext/util/lru_cache.hpp`.

* `std::list<std::pair<Key, Value>>` is a list of nodes.  Every node carries an
  `id` standing for its address: a list iterator is such an address, it stays
  valid while the node is linked, and `splice` relinks a node without changing it.
* `std::unordered_map<Key, iterator>` is an association list from keys to node
  addresses (the container keeps its keys unique; its iteration order is never
  observed by the class).
* Using an iterator whose node is no longer linked, and `crbegin()` / `pop_back()`
  / `pop_front()` on an empty list, are undefined behaviour: the embedded
  operations return `none` there.
* `size_t` quantities are natural numbers: `_map.size() + 1` cannot wrap, since a
  map never holds `2^64 - 1` elements.
* The mutex is not modelled: every operation runs under the lock from entry to
  exit, so operations are embedded as atomic state transformers.
-/

namespace ext.util

/-- One node of `_list`: the pair `(first, second)` and the node's address `id`. -/
structure Node (Key Value : Type) where
  id : Nat
  first : Key
  second : Value
deriving DecidableEq, Repr

/-- The data members of `lru_cache<Key, Value>` (without the mutex). -/
structure lru_cache (Key Value : Type) where
  _list : List (Node Key Value)
  _map : List (Key × Nat)
  _max_size : Nat
deriving DecidableEq, Repr

section list_model

variable {Key Value : Type}

/-- Unlinks the node at iterator `it`; `none` when no linked node has that address. -/
def unlink : List (Node Key Value) → Nat → Option (Node Key Value × List (Node Key Value))
  | [], _ => none
  | n :: rest, it =>
    if n.id = it then some (n, rest)
    else match unlink rest it with
      | none => none
      | some (m, r) => some (m, n :: r)

/-- The call `_list.splice(_list.begin(), _list, it)`. -/
def splice_begin (l : List (Node Key Value)) (it : Nat) : Option (List (Node Key Value)) :=
  match unlink l it with
  | none => none
  | some (n, r) => some (n :: r)

/-- The call `_list.splice(_list.cend(), _list, it)`. -/
def splice_end (l : List (Node Key Value)) (it : Nat) : Option (List (Node Key Value)) :=
  match unlink l it with
  | none => none
  | some (n, r) => some (r ++ [n])

/-- The call `_list.pop_back()`. -/
def pop_back (l : List (Node Key Value)) : Option (List (Node Key Value)) :=
  match l with
  | [] => none
  | _ :: _ => some l.dropLast

/-- The call `_list.pop_front()`. -/
def pop_front (l : List (Node Key Value)) : Option (List (Node Key Value)) :=
  match l with
  | [] => none
  | _ :: rest => some rest

/-- Dereference of the list iterator `it`. -/
def deref (l : List (Node Key Value)) (it : Nat) : Option (Node Key Value) :=
  l.find? (fun n => decide (n.id = it))

/-- Assignment `it->second = v` through the list iterator `it`. -/
def assign_second : List (Node Key Value) → Nat → Value → Option (List (Node Key Value))
  | [], _, _ => none
  | n :: rest, it, v =>
    if n.id = it then some ({ n with second := v } :: rest)
    else match assign_second rest it v with
      | none => none
      | some r => some (n :: r)

/-- An address not used by any linked node nor held by the index: the address of
the node that `emplace_front` allocates. -/
def fresh_id (l : List (Node Key Value)) (m : List (Key × Nat)) : Nat :=
  ((l.map Node.id) ++ (m.map Prod.snd)).foldr max 0 + 1

/-- The call `_list.emplace_front(key, value)`; the second component is `_list.begin()`. -/
def emplace_front (l : List (Node Key Value)) (m : List (Key × Nat)) (key : Key) (value : Value) :
    List (Node Key Value) × Nat :=
  (⟨fresh_id l m, key, value⟩ :: l, fresh_id l m)

end list_model

section map_model

variable {Key : Type} [DecidableEq Key]

/-- The call `_map.find(key)`: `none` is `_map.end()`. -/
def map_find : List (Key × Nat) → Key → Option Nat
  | [], _ => none
  | (k, it) :: rest, key => if k = key then some it else map_find rest key

/-- The call `_map.erase(key)`. -/
def map_erase (m : List (Key × Nat)) (key : Key) : List (Key × Nat) :=
  m.filter (fun p => decide (p.1 ≠ key))

/-- The assignment `_map[key] = it`. -/
def map_assign (m : List (Key × Nat)) (key : Key) (it : Nat) : List (Key × Nat) :=
  (key, it) :: map_erase m key

end map_model

namespace lru_cache

variable {Key Value : Type} [DecidableEq Key] [Inhabited Value]

/-- The constructor `lru_cache(size_t max_size)`. -/
def new (max_size : Nat) : lru_cache Key Value :=
  { _list := [], _map := [], _max_size := max_size }

/-- The static member `default_update`. -/
def default_update : Value → Value := fun v => v

/-- The static member `default_remove`. -/
def default_remove : Value → Bool := fun _ => false

/-- The member `size()`. -/
def size (c : lru_cache Key Value) : Nat := c._map.length

/-- The member `put(key, value)`. -/
def put (c : lru_cache Key Value) (key : Key) (value : Value) : Option (lru_cache Key Value) :=
  match map_find c._map key with
  | none =>
    let evicted : Option (List (Node Key Value) × List (Key × Nat)) :=
      if c._map.length + 1 > c._max_size then
        match c._list.getLast? with
        | none => none
        | some last =>
          match pop_back c._list with
          | none => none
          | some l => some (l, map_erase c._map last.first)
      else some (c._list, c._map)
    match evicted with
    | none => none
    | some (l, m) =>
      let (l1, it) := emplace_front l m key value
      some { c with _list := l1, _map := map_assign m key it }
  | some found =>
    match assign_second c._list found value with
    | none => none
    | some l =>
      match splice_begin l found with
      | none => none
      | some l1 => some { c with _list := l1 }

/-- The lines shared by `get`, `exists` and `remove`: splice the found node to the
end of the list, erase the key from the map, pop the last list element. -/
def erase_found (c : lru_cache Key Value) (key : Key) (found : Nat) : Option (lru_cache Key Value) :=
  match splice_end c._list found with
  | none => none
  | some l =>
    let m := map_erase c._map key
    match pop_back l with
    | none => none
    | some l1 => some { c with _list := l1, _map := m }

/-- The member `get(key, update_pred, remove_pred)`: the returned pair and the state after the call. -/
def get (c : lru_cache Key Value) (key : Key) (update_pred : Value → Value)
    (remove_pred : Value → Bool) : Option ((Value × Bool) × lru_cache Key Value) :=
  match map_find c._map key with
  | none => some ((default, false), c)
  | some found =>
    match deref c._list found with
    | none => none
    | some n =>
      if remove_pred n.second then
        match erase_found c key found with
        | none => none
        | some c1 => some ((default, false), c1)
      else
        match assign_second c._list found (update_pred n.second) with
        | none => none
        | some l =>
          match splice_begin l found with
          | none => none
          | some l1 => some ((update_pred n.second, true), { c with _list := l1 })

/-- The member `exists(key) const`. -/
def exists_key (c : lru_cache Key Value) (key : Key) : Bool :=
  (map_find c._map key).isSome

/-- The member template `exists(key, update_pred, remove_pred)`: the returned flag and the state
after the call. -/
def exists_pred (c : lru_cache Key Value) (key : Key) (update_pred : Value → Value)
    (remove_pred : Value → Bool) : Option (Bool × lru_cache Key Value) :=
  match map_find c._map key with
  | some found =>
    match deref c._list found with
    | none => none
    | some n =>
      if remove_pred n.second then
        match erase_found c key found with
        | none => none
        | some c1 => some (false, c1)
      else
        match assign_second c._list found (update_pred n.second) with
        | none => none
        | some l => some (true, { c with _list := l })
  | none => some (false, c)

/-- The member `remove(key)`: the returned flag and the state after the call. -/
def remove (c : lru_cache Key Value) (key : Key) : Option (Bool × lru_cache Key Value) :=
  match map_find c._map key with
  | some found =>
    match erase_found c key found with
    | none => none
    | some c1 => some (true, c1)
  | none => some (false, c)

/-- The loop of the member template `remove(remove_pred)`.  The first argument is the
part of the list from the iterator `it` to the end: `it` is advanced before
`_list.pop_front()` runs, so the popped first element lies before `it` and the nodes
still to visit are not affected.  `conv` is the conversion from `Value` to the key type
that the call `_map.erase(value)` applies to its argument. -/
def remove_by_pred_loop (conv : Value → Key) (remove_pred : Value → Bool) :
    List (Node Key Value) → List (Node Key Value) → List (Key × Nat) → Nat →
    Option (List (Node Key Value) × List (Key × Nat) × Nat)
  | [], l, m, n => some (l, m, n)
  | node :: rest, l, m, n =>
    if remove_pred node.second then
      match pop_front l with
      | none => none
      | some l1 => remove_by_pred_loop conv remove_pred rest l1 (map_erase m (conv node.second)) (n + 1)
    else remove_by_pred_loop conv remove_pred rest l m n

/-- The member template `remove(remove_pred)`: the returned count and the state after the call. -/
def remove_by_pred (conv : Value → Key) (c : lru_cache Key Value) (remove_pred : Value → Bool) :
    Option (Nat × lru_cache Key Value) :=
  match remove_by_pred_loop conv remove_pred c._list c._list c._map 0 with
  | none => none
  | some (l, m, n) => some (n, { c with _list := l, _map := m })

/-- The index and the recency list agree: distinct nodes have distinct addresses and the
map has distinct keys (both hold of the containers themselves), both containers have the
same number of entries, no two list entries bear the same key, and every indexed key
refers to a linked node bearing that key. -/
def consistent (c : lru_cache Key Value) : Prop :=
  (c._list.map Node.id).Nodup ∧ (c._map.map Prod.fst).Nodup ∧
  c._map.length = c._list.length ∧
  (c._list.map Node.first).Nodup ∧
  ∀ p ∈ c._map, ∃ n ∈ c._list, n.id = p.2 ∧ n.first = p.1

instance (c : lru_cache Key Value) : Decidable (consistent c) := by
  unfold consistent; infer_instance

/-- The entries of the recency list from head to tail. -/
def entries (c : lru_cache Key Value) : List (Key × Value) :=
  c._list.map (fun n => (n.first, n.second))

/-- The keys of the recency list from head to tail. -/
def keys (c : lru_cache Key Value) : List Key :=
  c._list.map Node.first

/-- The keys held by the index. -/
def indexed (c : lru_cache Key Value) : List Key :=
  c._map.map Prod.fst

end lru_cache

/-- One call of a public member of `lru_cache`, with its arguments. -/
inductive Call (Key Value : Type) where
  | put (key : Key) (value : Value)
  | get (key : Key) (update_pred : Value → Value) (remove_pred : Value → Bool)
  | exists_key (key : Key)
  | exists_pred (key : Key) (update_pred : Value → Value) (remove_pred : Value → Bool)
  | remove (key : Key)

namespace lru_cache

variable {Key Value : Type} [DecidableEq Key] [Inhabited Value]

/-- The state after one call. -/
def step (c : lru_cache Key Value) : Call Key Value → Option (lru_cache Key Value)
  | .put key value => c.put key value
  | .get key u e => (c.get key u e).map Prod.snd
  | .exists_key _ => some c
  | .exists_pred key u e => (c.exists_pred key u e).map Prod.snd
  | .remove key => (c.remove key).map Prod.snd

/-- The state after a sequence of calls, made in order. -/
def run (c : lru_cache Key Value) : List (Call Key Value) → Option (lru_cache Key Value)
  | [] => some c
  | call :: calls =>
    match c.step call with
    | none => none
    | some c1 => run c1 calls

end lru_cache

/-- A call of `put`, or of `get` with the default callbacks. -/
inductive PlainCall (Key Value : Type) where
  | put (key : Key) (value : Value)
  | get (key : Key)

namespace lru_cache

variable {Key Value : Type} [DecidableEq Key] [Inhabited Value]

/-- The call that a plain call stands for. -/
def plain : PlainCall Key Value → Call Key Value
  | .put key value => .put key value
  | .get key => .get key default_update default_remove

/-- The key that a plain call made in state `c` touches: `put(k, _)` touches `k`, and
`get(k)` touches `k` when it returns `found = true`. -/
def touched (c : lru_cache Key Value) : PlainCall Key Value → Option Key
  | .put key _ => some key
  | .get key =>
    match c.get key default_update default_remove with
    | some ((_, true), _) => some key
    | _ => none

/-- The touches made by a sequence of plain calls started in state `c`, most recent
first, in front of the earlier touches `past`.  The log ends at a call that has no
defined result. -/
def touch_log (c : lru_cache Key Value) (past : List Key) : List (PlainCall Key Value) → List Key
  | [] => past
  | call :: calls =>
    match c.step (plain call) with
    | none => past
    | some c1 => touch_log c1 ((touched c call).toList ++ past) calls

/-- The distinct keys of a touch log (most recent touch first), each at the place of its
last touch: ordered from the most recently to the least recently touched key. -/
def by_last_touch : List Key → List Key
  | [] => []
  | k :: older => k :: (by_last_touch older).filter (fun a => decide (a ≠ k))

/-- The keys of the `put` calls of a sequence. -/
def put_keys : List (PlainCall Key Value) → List Key
  | [] => []
  | .put key _ :: calls => key :: put_keys calls
  | .get _ :: calls => put_keys calls

end lru_cache

/-- One application of a caller-supplied callback, with the value it is applied to. -/
inductive Applied (Value : Type) where
  | remove_pred (value : Value)
  | update_pred (value : Value)
deriving DecidableEq, Repr

section iterator_model

variable {Key Value : Type}

/-- The call `_list.begin()`: the address of the first node, `none` for `_list.end()`. -/
def list_begin (l : List (Node Key Value)) : Option Nat :=
  match l with
  | [] => none
  | n :: _ => some n.id

/-- The increment `++it` of an iterator to a linked node: the address of the next node,
or `some none` for `_list.end()`; `none` when no linked node has the address `it`. -/
def list_next : List (Node Key Value) → Nat → Option (Option Nat)
  | [], _ => none
  | n :: rest, it => if n.id = it then some (list_begin rest) else list_next rest it

end iterator_model

namespace lru_cache

variable {Key Value : Type} [DecidableEq Key] [Inhabited Value]

/-- The member `get(key, update_pred, remove_pred)` together with the callback
applications it makes, in order: the returned pair, the state after the call, and the
applications. -/
def get_traced (c : lru_cache Key Value) (key : Key) (update_pred : Value → Value)
    (remove_pred : Value → Bool) :
    Option ((Value × Bool) × lru_cache Key Value × List (Applied Value)) :=
  match map_find c._map key with
  | none => some ((default, false), c, [])
  | some found =>
    match deref c._list found with
    | none => none
    | some n =>
      if remove_pred n.second then
        match erase_found c key found with
        | none => none
        | some c1 => some ((default, false), c1, [.remove_pred n.second])
      else
        match assign_second c._list found (update_pred n.second) with
        | none => none
        | some l =>
          match splice_begin l found with
          | none => none
          | some l1 =>
            some ((update_pred n.second, true), { c with _list := l1 },
              [.remove_pred n.second, .update_pred n.second])

/-- The member template `exists(key, update_pred, remove_pred)` together with the
callback applications it makes, in order. -/
def exists_pred_traced (c : lru_cache Key Value) (key : Key) (update_pred : Value → Value)
    (remove_pred : Value → Bool) : Option (Bool × lru_cache Key Value × List (Applied Value)) :=
  match map_find c._map key with
  | some found =>
    match deref c._list found with
    | none => none
    | some n =>
      if remove_pred n.second then
        match erase_found c key found with
        | none => none
        | some c1 => some (false, c1, [.remove_pred n.second])
      else
        match assign_second c._list found (update_pred n.second) with
        | none => none
        | some l =>
          some (true, { c with _list := l }, [.remove_pred n.second, .update_pred n.second])
  | none => some (false, c, [])

/-- The loop of the member template `remove(remove_pred)`, statement by statement, with
the iterator `it` as a node address (`none` is `_list.end()`) and the applications of
`remove_pred` made so far.  The first argument bounds the number of iterations; `conv`
is the conversion from `Value` to the key type applied by `_map.erase(value)`. -/
def remove_by_pred_steps (conv : Value → Key) (remove_pred : Value → Bool) :
    Nat → Option Nat → List (Node Key Value) → List (Key × Nat) → Nat → List (Applied Value) →
    Option (List (Node Key Value) × List (Key × Nat) × Nat × List (Applied Value))
  | 0, _, _, _, _, _ => none
  | _ + 1, none, l, m, n, tr => some (l, m, n, tr)
  | fuel + 1, some it, l, m, n, tr =>
    match deref l it with
    | none => none
    | some node =>
      if remove_pred node.second then
        let m1 := map_erase m (conv node.second)
        match list_next l it with
        | none => none
        | some it1 =>
          match pop_front l with
          | none => none
          | some l1 =>
            remove_by_pred_steps conv remove_pred fuel it1 l1 m1 (n + 1)
              (tr ++ [.remove_pred node.second])
      else
        match list_next l it with
        | none => none
        | some it1 =>
          remove_by_pred_steps conv remove_pred fuel it1 l m n
            (tr ++ [.remove_pred node.second])

/-- The member template `remove(remove_pred)` run statement by statement: the returned
count, the state after the call and the applications of `remove_pred`, in order.  The
loop is given one iteration per list node and one more to meet `_list.end()`. -/
def remove_by_pred_traced (conv : Value → Key) (c : lru_cache Key Value)
    (remove_pred : Value → Bool) : Option (Nat × lru_cache Key Value × List (Applied Value)) :=
  match remove_by_pred_steps conv remove_pred (c._list.length + 1) (list_begin c._list)
      c._list c._map 0 [] with
  | none => none
  | some (l, m, n, tr) => some (n, { c with _list := l, _map := m }, tr)

end lru_cache

namespace lru_cache

variable {Key Value : Type} [DecidableEq Key] [Inhabited Value]

/-- The member `get(key, update_pred, remove_pred)` with callbacks that may throw.  A
callback receives `Value&`: it is given as the function from the stored value to the
value it leaves behind the reference and to its result or the exception it throws.  An
exception leaves `get` at once (the lock guard is released by unwinding) and reaches the
caller.  The result is the returned pair or the exception, with the state after the
call. -/
def get_throwing {X : Type} (c : lru_cache Key Value) (key : Key)
    (update_pred : Value → Value × Except X Unit)
    (remove_pred : Value → Value × Except X Bool) :
    Option (Except X (Value × Bool) × lru_cache Key Value) :=
  match map_find c._map key with
  | none => some (.ok (default, false), c)
  | some found =>
    match deref c._list found with
    | none => none
    | some n =>
      match assign_second c._list found (remove_pred n.second).1 with
      | none => none
      | some l0 =>
        match (remove_pred n.second).2 with
        | .error ex => some (.error ex, { c with _list := l0 })
        | .ok true =>
          match erase_found { c with _list := l0 } key found with
          | none => none
          | some c1 => some (.ok (default, false), c1)
        | .ok false =>
          match assign_second l0 found (update_pred (remove_pred n.second).1).1 with
          | none => none
          | some l =>
            match (update_pred (remove_pred n.second).1).2 with
            | .error ex => some (.error ex, { c with _list := l })
            | .ok _ =>
              match splice_begin l found with
              | none => none
              | some l1 =>
                some (.ok ((update_pred (remove_pred n.second).1).1, true),
                  { c with _list := l1 })

/-- The member template `exists(key, update_pred, remove_pred)` with callbacks that may
throw, in the same way as `get_throwing`. -/
def exists_pred_throwing {X : Type} (c : lru_cache Key Value) (key : Key)
    (update_pred : Value → Value × Except X Unit)
    (remove_pred : Value → Value × Except X Bool) :
    Option (Except X Bool × lru_cache Key Value) :=
  match map_find c._map key with
  | some found =>
    match deref c._list found with
    | none => none
    | some n =>
      match assign_second c._list found (remove_pred n.second).1 with
      | none => none
      | some l0 =>
        match (remove_pred n.second).2 with
        | .error ex => some (.error ex, { c with _list := l0 })
        | .ok true =>
          match erase_found { c with _list := l0 } key found with
          | none => none
          | some c1 => some (.ok false, c1)
        | .ok false =>
          match assign_second l0 found (update_pred (remove_pred n.second).1).1 with
          | none => none
          | some l =>
            match (update_pred (remove_pred n.second).1).2 with
            | .error ex => some (.error ex, { c with _list := l })
            | .ok _ => some (.ok true, { c with _list := l })
  | none => some (.ok false, c)

end lru_cache

end ext.util

/-! ### ext::algorithm

`include/ext/algorithm/basic.hpp`.  A map with unique keys (`std::map`) is the list of
its elements; the order of the list stands for the order of iteration, and the members
used here only look keys up and assign to them. -/

namespace ext.algorithm

variable {K V : Type} [DecidableEq K]

/-- The call `m.find(key)`: the mapped value, `none` for `m.end()`. -/
def find : List (K × V) → K → Option V
  | [], _ => none
  | (k, v) :: rest, key => if k = key then some v else find rest key

/-- The assignment `m[key] = value`. -/
def assign : List (K × V) → K → V → List (K × V)
  | [], key, value => [(key, value)]
  | (k, v) :: rest, key, value =>
    if k = key then (k, value) :: rest else (k, v) :: assign rest key value

/-- The function `merge_maps(result, in, predicate)` on maps: the map `result` after the
call. -/
def merge_maps (result : List (K × V)) (input : List (K × V)) (predicate : V → V → Bool) :
    List (K × V) :=
  match input with
  | [] => result
  | it :: rest =>
    match find result it.1 with
    | some found =>
      if predicate found it.2 then merge_maps (assign result it.1 it.2) rest predicate
      else merge_maps result rest predicate
    | none => merge_maps (assign result it.1 it.2) rest predicate

/-- An integral type for the template parameter `Int` of `count_occurrences`: its width
in bits and its signedness. -/
structure IntType where
  bits : Nat
  is_signed : Bool
deriving DecidableEq, Repr

/-- The greatest value of an integral type. -/
def IntType.max_value (t : IntType) : Nat :=
  if t.is_signed then 2 ^ (t.bits - 1) - 1 else 2 ^ t.bits - 1

/-- The type `std::size_t`, the default `Int` of the iterator overload (64 bits). -/
def size_t : IntType := { bits := 64, is_signed := false }

/-- The type `int`, the default `Int` of the container overload (32 bits). -/
def int : IntType := { bits := 32, is_signed := true }

/-- The increment `x++` of a counter of type `Int`.  A counter is given by its value, a
negative value `v` of a signed type by `2 ^ bits + v`.  An unsigned type wraps around.
For a signed type narrower than `int` the operand is promoted to `int` and the sum is
converted back to `Int`, which wraps around as well.  For `int` and wider signed types
overflow is undefined behaviour (`none`). -/
def IntType.increment (t : IntType) (x : Nat) : Option Nat :=
  if t.is_signed && decide (int.bits ≤ t.bits) then
    if x + 1 < 2 ^ (t.bits - 1) then some (x + 1) else none
  else some ((x + 1) % 2 ^ t.bits)

/-- The loop of `count_occurrences(begin, end)`: `result[*it]++` for every element, where
`result[*it]` is a counter of type `Int` that starts at 0 when the key is new. -/
def count_loop (t : IntType) : List K → List (K × Nat) → Option (List (K × Nat))
  | [], result => some result
  | x :: rest, result =>
    match t.increment ((find result x).getD 0) with
    | none => none
    | some v => count_loop t rest (assign result x v)

/-- The function template `count_occurrences<Iterator, Int>(begin, end)` on the sequence
from `begin` to `end`. -/
def count_occurrences (t : IntType) (xs : List K) : Option (List (K × Nat)) :=
  count_loop t xs []

/-- The overload `count_occurrences<Container, Int>(container)`, which passes its `Int`
on to the iterator overload. -/
def count_occurrences_container (t : IntType) (container : List K) : Option (List (K × Nat)) :=
  count_occurrences t container

/-- The function object `std::less<>` on a totally ordered type. -/
def std_less {T : Type} [LinearOrder T] (a b : T) : Bool := decide (a < b)

/-- The function object `std::greater<>` on a totally ordered type. -/
def std_greater {T : Type} [LinearOrder T] (a b : T) : Bool := decide (a > b)

/-- The call `std::min(a, b, comp)`: `b` when `comp(b, a)`, else `a`. -/
def std_min {T : Type} (a b : T) (comp : T → T → Bool) : T :=
  if comp b a then b else a

/-- The call `std::max(a, b, comp)`: `b` when `comp(a, b)`, else `a`. -/
def std_max {T : Type} (a b : T) (comp : T → T → Bool) : T :=
  if comp a b then b else a

/-- The function template `min(a, b, c, comp)`. -/
def min {T : Type} (a b c : T) (comp : T → T → Bool) : T :=
  std_min a (std_min b c comp) comp

/-- The function template `max(a, b, c, comp)`. -/
def max {T : Type} (a b c : T) (comp : T → T → Bool) : T :=
  std_max (std_max a b comp) c comp

/-- The call `min(a, b, c)`, with the default `Predicate = std::less<>`. -/
def min_default {T : Type} [LinearOrder T] (a b c : T) : T :=
  min a b c std_less

/-- The call `max(a, b, c)`, with the default `Predicate = std::greater<>`. -/
def max_default {T : Type} [LinearOrder T] (a b c : T) : T :=
  max a b c std_greater

end ext.algorithm

/-! ### obi::util::add_function_cache

`util/function_cache.hpp`.  A function of the wrapped type is a function from the tuple
of arguments `A` to the result `R`; a `std::map` is the list of its elements, as above. -/

namespace obi.util

open ext.algorithm

variable {A R : Type} [DecidableEq A]

/-- One call `wrapper(run_args...)` of a closure returned by `add_function_cache(fun)`.
The map `result_cache` is a `static` local of the call operator: it is one object for
every closure of the same closure type called with the same argument types, so it is
passed in and out as part of the state of the program and not of the closure.  The
result is the returned value, `result_cache` after the call, and the argument tuples
`fun` was evaluated on, in order. -/
def add_function_cache (fun_ : A → R) (result_cache : List (A × R)) (run_args : A) :
    R × List (A × R) × List A :=
  match find result_cache run_args with
  | none =>
    let rv := fun_ run_args
    (rv, assign result_cache run_args (fun_ run_args), [run_args, run_args])
  | some cached => (cached, result_cache, [])

/-- A sequence of calls of closures returned by `add_function_cache` for functions of
one type, each call given as the wrapped function and the arguments; all of them use
the one `result_cache`.  The result is the returned values, `result_cache` at the end,
and the argument tuples the wrapped functions were evaluated on. -/
def add_function_cache_calls :
    List ((A → R) × A) → List (A × R) → List R × List (A × R) × List A
  | [], result_cache => ([], result_cache, [])
  | (fun_, run_args) :: rest, result_cache =>
    let r := add_function_cache fun_ result_cache run_args
    let rs := add_function_cache_calls rest r.2.1
    (r.1 :: rs.1, rs.2.1, r.2.2 ++ rs.2.2)

/-- The closure that `add_function_cache_old(fun)` returns: it holds copies of `fun`
and of the local map `cache`. -/
structure function_cache_old (A R : Type) where
  fun_ : A → R
  cache : List (A × R)

/-- The function template `add_function_cache_old(fun)`: the closure with an empty
`cache`. -/
def add_function_cache_old (fun_ : A → R) : function_cache_old A R :=
  { fun_ := fun_, cache := [] }

/-- One call `wrapper(args...)` of the closure of `add_function_cache_old`: the returned
value, the closure after the call, and the argument tuples `fun` was evaluated on. -/
def function_cache_old.call (w : function_cache_old A R) (args : A) :
    R × function_cache_old A R × List A :=
  match find w.cache args with
  | none =>
    let rv := w.fun_ args
    (rv, { w with cache := assign w.cache args rv }, [args])
  | some cached => (cached, w, [])

/-- A sequence of calls of one closure of `add_function_cache_old`. -/
def function_cache_old.calls (w : function_cache_old A R) :
    List A → List R × function_cache_old A R × List A
  | [] => ([], w, [])
  | args :: rest =>
    let r := w.call args
    let rs := function_cache_old.calls r.2.1 rest
    (r.1 :: rs.1, rs.2.1, r.2.2 ++ rs.2.2)

end obi.util

/-! ### obi::concurrent::hierarchical_mutex

`include/obi/concurrent/hierarchical_mutex.hpp`.  The `thread_local` variable
`this_thread_hierarchy_value` of the calling thread is passed in and out of the members;
the `std::mutex internal_mutex` is the flag that says whether it is owned. -/

namespace obi.concurrent

/-- The value `std::numeric_limits<unsigned long>::max()`, for an `unsigned long` of
64 bits. -/
def unsigned_long_max : Nat := 2 ^ 64 - 1

/-- The state of a `hierarchical_mutex` object. -/
structure hierarchical_mutex where
  internal_mutex : Bool
  hierarchy_value : Nat
  previous_hierarchy_value : Nat
deriving DecidableEq, Repr

/-- How a call of a member ends: it returns, it throws `std::logic_error`, or it waits in
`internal_mutex.lock()` for a mutex that is owned. -/
inductive Outcome (R : Type) where
  | returned (r : R)
  | logic_error (what : String)
  | blocked
deriving DecidableEq, Repr

namespace hierarchical_mutex

/-- The constructor `hierarchical_mutex(unsigned long value)`; the argument is converted
to `unsigned long`. -/
def new (value : Nat) : hierarchical_mutex :=
  { internal_mutex := false
    hierarchy_value := value % 2 ^ 64
    previous_hierarchy_value := 0 }

/-- The member `check_for_hierarchy_violation()`: the exception it throws, if any. -/
def check_for_hierarchy_violation (this_thread_hierarchy_value : Nat)
    (m : hierarchical_mutex) : Except String Unit :=
  if this_thread_hierarchy_value ≤ m.hierarchy_value then
    .error "mutex hierarchy violated"
  else .ok ()

/-- The member `update_hierarchy_value()`: the thread's value and the mutex after it. -/
def update_hierarchy_value (this_thread_hierarchy_value : Nat) (m : hierarchical_mutex) :
    Nat × hierarchical_mutex :=
  (m.hierarchy_value, { m with previous_hierarchy_value := this_thread_hierarchy_value })

/-- The member `lock()`: how the call ends, and the thread's value and the mutex then. -/
def lock (this_thread_hierarchy_value : Nat) (m : hierarchical_mutex) :
    Outcome Unit × Nat × hierarchical_mutex :=
  match check_for_hierarchy_violation this_thread_hierarchy_value m with
  | .error what => (.logic_error what, this_thread_hierarchy_value, m)
  | .ok () =>
    if m.internal_mutex then (.blocked, this_thread_hierarchy_value, m)
    else
      let r := update_hierarchy_value this_thread_hierarchy_value
        { m with internal_mutex := true }
      (.returned (), r.1, r.2)

/-- The member `try_lock()`.  `spurious` says that `internal_mutex.try_lock()` fails
although the mutex is not owned, which `std::mutex::try_lock` is allowed to do. -/
def try_lock (this_thread_hierarchy_value : Nat) (m : hierarchical_mutex)
    (spurious : Bool) : Outcome Bool × Nat × hierarchical_mutex :=
  match check_for_hierarchy_violation this_thread_hierarchy_value m with
  | .error what => (.logic_error what, this_thread_hierarchy_value, m)
  | .ok () =>
    if m.internal_mutex || spurious then (.returned false, this_thread_hierarchy_value, m)
    else
      let r := update_hierarchy_value this_thread_hierarchy_value
        { m with internal_mutex := true }
      (.returned true, r.1, r.2)

/-- The member `unlock()`: the thread's value and the mutex after the call; `none` when
the calling thread does not own `internal_mutex` (undefined behaviour of
`std::mutex::unlock`). -/
def unlock (_this_thread_hierarchy_value : Nat) (m : hierarchical_mutex) :
    Option (Nat × hierarchical_mutex) :=
  if m.internal_mutex then
    some (m.previous_hierarchy_value, { m with internal_mutex := false })
  else none

end hierarchical_mutex

/-- The state of one thread that uses some `hierarchical_mutex` objects: its
`this_thread_hierarchy_value` and the objects, each known by its position. -/
structure Thread where
  this_thread_hierarchy_value : Nat
  mutexes : List hierarchical_mutex
deriving DecidableEq, Repr

/-- A call by the thread: `mutexes[i].lock()` or `mutexes[i].unlock()`. -/
inductive Call where
  | lock (i : Nat)
  | unlock (i : Nat)
deriving DecidableEq, Repr

/-- The thread at its start, with mutexes constructed from `values`. -/
def Thread.start (values : List Nat) : Thread :=
  { this_thread_hierarchy_value := unsigned_long_max
    mutexes := values.map hierarchical_mutex.new }

/-- One successful call: `none` when `lock()` does not return (it throws or waits), when
`unlock()` is undefined, or when there is no such object. -/
def Thread.step (s : Thread) : Call → Option Thread
  | .lock i =>
    match s.mutexes[i]? with
    | none => none
    | some m =>
      match hierarchical_mutex.lock s.this_thread_hierarchy_value m with
      | (.returned (), t, m1) =>
        some { this_thread_hierarchy_value := t, mutexes := s.mutexes.set i m1 }
      | _ => none
  | .unlock i =>
    match s.mutexes[i]? with
    | none => none
    | some m =>
      match hierarchical_mutex.unlock s.this_thread_hierarchy_value m with
      | some (t, m1) =>
        some { this_thread_hierarchy_value := t, mutexes := s.mutexes.set i m1 }
      | none => none

/-- A sequence of successful calls. -/
def Thread.run (s : Thread) : List Call → Option Thread
  | [] => some s
  | c :: rest =>
    match s.step c with
    | none => none
    | some s1 => Thread.run s1 rest

/-- The mutexes held after a properly nested sequence of calls, the one acquired last
first: `lock` adds its mutex, `unlock` must name the mutex acquired last and removes it;
`none` when the sequence is not properly nested. -/
def held : List Call → List Nat → Option (List Nat)
  | [], stack => some stack
  | .lock i :: rest, stack => held rest (i :: stack)
  | .unlock i :: rest, stack =>
    match stack with
    | [] => none
    | j :: below => if i = j then held rest below else none

/-- The hierarchy value of the mutex at position `i`. -/
def Thread.hierarchy_value_of (s : Thread) (i : Nat) : Nat :=
  match s.mutexes[i]? with
  | some m => m.hierarchy_value
  | none => 0

/-- The relation between the mutexes held, the one acquired last first, and the thread's
value `t`: `t` is the hierarchy value of the mutex acquired last, whose saved previous
value is greater and stands in the same relation to the mutexes below; with no mutex
held `t` is the greatest `unsigned long`. -/
def chained (ms : List hierarchical_mutex) : List Nat → Nat → Prop
  | [], t => t = unsigned_long_max
  | i :: below, t =>
    ∃ m, ms[i]? = some m ∧ t = m.hierarchy_value ∧
      m.hierarchy_value < m.previous_hierarchy_value ∧
      chained ms below m.previous_hierarchy_value

end obi.concurrent

/-! ## The list and the map -/

set_option linter.unusedSectionVars false

namespace ext.util

section list_lemmas

variable {Key Value : Type}

theorem unlink_of_mem {l : List (Node Key Value)} {n : Node Key Value}
    (hid : (l.map Node.id).Nodup) (hn : n ∈ l) :
    unlink l n.id = some (n, l.filter (fun m => decide (m.id ≠ n.id))) := by
  induction l with
  | nil => simp at hn
  | cons a rest ih =>
    rw [List.map_cons, List.nodup_cons] at hid
    by_cases ha : a.id = n.id
    · have hna : n = a := by
        rcases List.mem_cons.1 hn with h | h
        · exact h
        · exact absurd (ha ▸ List.mem_map_of_mem Node.id h) hid.1
      subst hna
      have hrest : rest.filter (fun m => decide (m.id ≠ n.id)) = rest := by
        rw [List.filter_eq_self]
        intro m hm
        have : m.id ≠ n.id := fun h => hid.1 (h ▸ List.mem_map_of_mem Node.id hm)
        simpa using this
      rw [List.filter_cons_of_neg (by simp), hrest]
      simp [unlink]
    · have hn1 : n ∈ rest := by
        rcases List.mem_cons.1 hn with h | h
        · exact absurd (h ▸ rfl) ha
        · exact h
      rw [List.filter_cons_of_pos (by simpa using ha)]
      simp [unlink, ha, ih hid.2 hn1]

theorem assign_second_of_mem {l : List (Node Key Value)} {n : Node Key Value} (v : Value)
    (hid : (l.map Node.id).Nodup) (hn : n ∈ l) :
    assign_second l n.id v
      = some (l.map (fun m => if m.id = n.id then { m with second := v } else m)) := by
  induction l with
  | nil => simp at hn
  | cons a rest ih =>
    rw [List.map_cons, List.nodup_cons] at hid
    by_cases ha : a.id = n.id
    · have hrest : rest.map (fun m => if m.id = n.id then { m with second := v } else m) = rest := by
        conv_rhs => rw [← List.map_id rest]
        apply List.map_congr_left
        intro m hm
        have : m.id ≠ n.id := fun h => hid.1 (ha ▸ h ▸ List.mem_map_of_mem Node.id hm)
        simp [this]
      simp [assign_second, ha, hrest]
    · have hn1 : n ∈ rest := by
        rcases List.mem_cons.1 hn with h | h
        · exact absurd (h ▸ rfl) ha
        · exact h
      simp [assign_second, ha, ih hid.2 hn1]

theorem deref_of_mem {l : List (Node Key Value)} {n : Node Key Value}
    (hid : (l.map Node.id).Nodup) (hn : n ∈ l) : deref l n.id = some n := by
  induction l with
  | nil => simp at hn
  | cons a rest ih =>
    rw [List.map_cons, List.nodup_cons] at hid
    by_cases ha : a.id = n.id
    · have hna : n = a := by
        rcases List.mem_cons.1 hn with h | h
        · exact h
        · exact absurd (ha ▸ List.mem_map_of_mem Node.id h) hid.1
      subst hna
      simp [deref]
    · have hn1 : n ∈ rest := by
        rcases List.mem_cons.1 hn with h | h
        · exact absurd (h ▸ rfl) ha
        · exact h
      have := ih hid.2 hn1
      simp only [deref] at this ⊢
      simp [List.find?_cons, ha, this]

theorem lt_fresh_id_of_mem {l : List (Node Key Value)} {m : List (Key × Nat)}
    {n : Node Key Value} (hn : n ∈ l) : n.id < fresh_id l m := by
  have key : ∀ (xs : List Nat) (x : Nat), x ∈ xs → x ≤ xs.foldr max 0 := by
    intro xs
    induction xs with
    | nil => intro x hx; simp at hx
    | cons y ys ih =>
      intro x hx
      rcases List.mem_cons.1 hx with h | h
      · subst h; simp
      · have := ih x h
        simp only [List.foldr_cons]
        omega
  have h1 : n.id ∈ (l.map Node.id) ++ (m.map Prod.snd) :=
    List.mem_append_left _ (List.mem_map_of_mem Node.id hn)
  have := key _ _ h1
  unfold fresh_id
  omega

end list_lemmas

section map_lemmas

variable {Key : Type} [DecidableEq Key]

theorem map_find_eq_none {m : List (Key × Nat)} {k : Key} :
    map_find m k = none ↔ k ∉ m.map Prod.fst := by
  induction m with
  | nil => simp [map_find]
  | cons p rest ih =>
    obtain ⟨a, it⟩ := p
    by_cases ha : a = k
    · simp [map_find, ha]
    · have : ¬ k = a := fun h => ha h.symm
      simp [map_find, ha, ih, this]

theorem mem_of_map_find {m : List (Key × Nat)} {k : Key} {it : Nat}
    (h : map_find m k = some it) : (k, it) ∈ m := by
  induction m with
  | nil => simp [map_find] at h
  | cons p rest ih =>
    obtain ⟨a, j⟩ := p
    by_cases ha : a = k
    · simp [map_find, ha] at h
      simp [ha, h]
    · simp [map_find, ha] at h
      exact List.mem_cons_of_mem _ (ih h)

theorem map_find_of_mem {m : List (Key × Nat)} {k : Key} {it : Nat}
    (hk : (m.map Prod.fst).Nodup) (h : (k, it) ∈ m) : map_find m k = some it := by
  induction m with
  | nil => simp at h
  | cons p rest ih =>
    obtain ⟨a, j⟩ := p
    rw [List.map_cons, List.nodup_cons] at hk
    rcases List.mem_cons.1 h with h1 | h1
    · cases h1
      simp [map_find]
    · have hne : a ≠ k := by
        intro hak
        subst hak
        exact hk.1 (List.mem_map.2 ⟨_, h1, rfl⟩)
      simp [map_find, hne, ih hk.2 h1]

theorem mem_map_erase {m : List (Key × Nat)} {k : Key} {p : Key × Nat} :
    p ∈ map_erase m k ↔ p ∈ m ∧ p.1 ≠ k := by
  simp [map_erase, List.mem_filter]

theorem map_erase_of_not_mem {m : List (Key × Nat)} {k : Key}
    (h : k ∉ m.map Prod.fst) : map_erase m k = m := by
  unfold map_erase
  rw [List.filter_eq_self]
  intro p hp
  have : p.1 ≠ k := fun e => h (e ▸ List.mem_map_of_mem Prod.fst hp)
  simpa using this

theorem map_erase_keys (m : List (Key × Nat)) (k : Key) :
    (map_erase m k).map Prod.fst = (m.map Prod.fst).filter (fun a => decide (a ≠ k)) := by
  unfold map_erase
  rw [List.filter_map]
  rfl

end map_lemmas

/-- The index and the list describe the same set of nodes: the form of `consistent`
that is stable under every operation. -/
structure linked {Key Value : Type} (l : List (Node Key Value)) (m : List (Key × Nat)) : Prop where
  ids : (l.map Node.id).Nodup
  firsts : (l.map Node.first).Nodup
  index_keys : (m.map Prod.fst).Nodup
  index_to_list : ∀ p ∈ m, ∃ n ∈ l, n.id = p.2 ∧ n.first = p.1
  list_to_index : ∀ n ∈ l, (n.first, n.id) ∈ m

section linked_lemmas

variable {Key Value : Type} [DecidableEq Key]

theorem linked.keys_perm {l : List (Node Key Value)} {m : List (Key × Nat)} (h : linked l m) :
    (m.map Prod.fst).Perm (l.map Node.first) := by
  rw [List.perm_ext_iff_of_nodup h.index_keys h.firsts]
  intro k
  constructor
  · intro hk
    obtain ⟨p, hp, rfl⟩ := List.mem_map.1 hk
    obtain ⟨n, hn, -, hf⟩ := h.index_to_list p hp
    exact hf ▸ List.mem_map_of_mem Node.first hn
  · intro hk
    obtain ⟨n, hn, rfl⟩ := List.mem_map.1 hk
    exact List.mem_map_of_mem Prod.fst (h.list_to_index n hn)

theorem linked.length_eq {l : List (Node Key Value)} {m : List (Key × Nat)} (h : linked l m) :
    m.length = l.length := by
  simpa using h.keys_perm.length_eq

theorem linked.same_node {l : List (Node Key Value)} {m : List (Key × Nat)} (h : linked l m)
    {a b : Node Key Value} (ha : a ∈ l) (hb : b ∈ l) : a.id = b.id ↔ a.first = b.first :=
  ⟨fun e => by rw [List.inj_on_of_nodup_map h.ids ha hb e],
   fun e => by rw [List.inj_on_of_nodup_map h.firsts ha hb e]⟩

theorem linked_of_consistent {c : lru_cache Key Value} (h : lru_cache.consistent c) :
    linked c._list c._map := by
  obtain ⟨hid, hmk, hlen, hlk, hml⟩ := h
  have hsub : c._map.map Prod.fst ⊆ c._list.map Node.first := by
    intro k hk
    obtain ⟨p, hp, rfl⟩ := List.mem_map.1 hk
    obtain ⟨n, hn, -, hf⟩ := hml p hp
    exact hf ▸ List.mem_map_of_mem Node.first hn
  have hperm : (c._map.map Prod.fst).Perm (c._list.map Node.first) :=
    (List.subperm_of_subset hmk hsub).perm_of_length_le (by simp [hlen])
  refine ⟨hid, hlk, hmk, hml, ?_⟩
  intro n hn
  have hk : n.first ∈ c._map.map Prod.fst :=
    hperm.symm.subset (List.mem_map_of_mem Node.first hn)
  obtain ⟨p, hp, hpk⟩ := List.mem_map.1 hk
  obtain ⟨n1, hn1, hi, hf⟩ := hml p hp
  have : n1 = n := List.inj_on_of_nodup_map hlk hn1 hn (hf.trans hpk)
  subst this
  have hpe : p = (n1.first, n1.id) := Prod.ext hpk hi.symm
  exact hpe ▸ hp

theorem consistent_of_linked {c : lru_cache Key Value} (h : linked c._list c._map) :
    lru_cache.consistent c :=
  ⟨h.ids, h.index_keys, h.length_eq, h.firsts, h.index_to_list⟩

theorem consistent_iff_linked {c : lru_cache Key Value} :
    lru_cache.consistent c ↔ linked c._list c._map :=
  ⟨linked_of_consistent, consistent_of_linked⟩

theorem linked.nil : linked ([] : List (Node Key Value)) ([] : List (Key × Nat)) :=
  ⟨by simp, by simp, by simp, by simp, by simp⟩

theorem linked.insert {l : List (Node Key Value)} {m : List (Key × Nat)} (h : linked l m)
    {k : Key} (hk : k ∉ l.map Node.first) (v : Value) {f : Nat} (hf : ∀ n ∈ l, n.id ≠ f) :
    linked (⟨f, k, v⟩ :: l) ((k, f) :: m) := by
  have hkm : k ∉ m.map Prod.fst := fun e => hk (h.keys_perm.subset e)
  refine ⟨?_, ?_, ?_, ?_, ?_⟩
  · rw [List.map_cons, List.nodup_cons]
    refine ⟨?_, h.ids⟩
    intro e
    obtain ⟨n, hn, hnf⟩ := List.mem_map.1 e
    exact hf n hn hnf
  · rw [List.map_cons, List.nodup_cons]
    exact ⟨hk, h.firsts⟩
  · rw [List.map_cons, List.nodup_cons]
    exact ⟨hkm, h.index_keys⟩
  · intro p hp
    rcases List.mem_cons.1 hp with e | e
    · subst e
      exact ⟨_, List.mem_cons_self _ _, rfl, rfl⟩
    · obtain ⟨n, hn, h1, h2⟩ := h.index_to_list p e
      exact ⟨n, List.mem_cons_of_mem _ hn, h1, h2⟩
  · intro n hn
    rcases List.mem_cons.1 hn with e | e
    · subst e
      exact List.mem_cons_self _ _
    · exact List.mem_cons_of_mem _ (h.list_to_index n e)

theorem linked.remove {l : List (Node Key Value)} {m : List (Key × Nat)} (h : linked l m)
    {n : Node Key Value} (hn : n ∈ l) :
    linked (l.filter (fun a => decide (a.id ≠ n.id))) (map_erase m n.first) := by
  refine ⟨?_, ?_, ?_, ?_, ?_⟩
  · exact h.ids.sublist ((List.filter_sublist l).map _)
  · exact h.firsts.sublist ((List.filter_sublist l).map _)
  · exact h.index_keys.sublist ((List.filter_sublist m).map _)
  · intro p hp
    obtain ⟨hpm, hpk⟩ := mem_map_erase.1 hp
    obtain ⟨a, ha, h1, h2⟩ := h.index_to_list p hpm
    refine ⟨a, ?_, h1, h2⟩
    rw [List.mem_filter]
    refine ⟨ha, ?_⟩
    have : a.id ≠ n.id := fun e => hpk (h2 ▸ (h.same_node ha hn).1 e)
    simpa using this
  · intro a ha
    rw [List.mem_filter] at ha
    have hne : a.id ≠ n.id := by simpa using ha.2
    refine mem_map_erase.2 ⟨h.list_to_index a ha.1, ?_⟩
    exact fun e => hne ((h.same_node ha.1 hn).2 e)

theorem linked.touch {l : List (Node Key Value)} {m : List (Key × Nat)} (h : linked l m)
    {n : Node Key Value} (hn : n ∈ l) (v : Value) :
    linked ({ n with second := v } :: l.filter (fun a => decide (a.id ≠ n.id))) m := by
  have hrem := h.remove hn
  refine ⟨?_, ?_, h.index_keys, ?_, ?_⟩
  · rw [List.map_cons, List.nodup_cons]
    refine ⟨?_, hrem.ids⟩
    intro e
    obtain ⟨a, ha, hae⟩ := List.mem_map.1 e
    rw [List.mem_filter] at ha
    have hne : a.id ≠ n.id := by simpa using ha.2
    exact hne hae
  · rw [List.map_cons, List.nodup_cons]
    refine ⟨?_, hrem.firsts⟩
    intro e
    obtain ⟨a, ha, hae⟩ := List.mem_map.1 e
    rw [List.mem_filter] at ha
    have hne : a.id ≠ n.id := by simpa using ha.2
    exact hne ((h.same_node ha.1 hn).2 hae)
  · intro p hp
    obtain ⟨a, ha, h1, h2⟩ := h.index_to_list p hp
    by_cases e : a.id = n.id
    · have : a = n := List.inj_on_of_nodup_map h.ids ha hn e
      subst this
      exact ⟨_, List.mem_cons_self _ _, h1, h2⟩
    · refine ⟨a, List.mem_cons_of_mem _ ?_, h1, h2⟩
      rw [List.mem_filter]
      exact ⟨ha, by simpa using e⟩
  · intro a ha
    rcases List.mem_cons.1 ha with e | e
    · subst e
      exact h.list_to_index n hn
    · exact h.list_to_index a (List.mem_filter.1 e).1

theorem linked.update {l : List (Node Key Value)} {m : List (Key × Nat)} (h : linked l m)
    (g : Node Key Value → Node Key Value) (hid : ∀ a, (g a).id = a.id)
    (hfirst : ∀ a, (g a).first = a.first) : linked (l.map g) m := by
  have e1 : (l.map g).map Node.id = l.map Node.id := by
    rw [List.map_map]; exact List.map_congr_left (fun a _ => hid a)
  have e2 : (l.map g).map Node.first = l.map Node.first := by
    rw [List.map_map]; exact List.map_congr_left (fun a _ => hfirst a)
  refine ⟨e1 ▸ h.ids, e2 ▸ h.firsts, h.index_keys, ?_, ?_⟩
  · intro p hp
    obtain ⟨a, ha, h1, h2⟩ := h.index_to_list p hp
    exact ⟨g a, List.mem_map_of_mem g ha, (hid a).trans h1, (hfirst a).trans h2⟩
  · intro b hb
    obtain ⟨a, ha, rfl⟩ := List.mem_map.1 hb
    rw [hid, hfirst]
    exact h.list_to_index a ha

/-- Below a loaded index the list is not empty, and unlinking its last node is
filtering that node out. -/
theorem linked.dropLast_eq {l : List (Node Key Value)} {m : List (Key × Nat)} (h : linked l m)
    {last : Node Key Value} (hlast : l.getLast? = some last) :
    last ∈ l ∧ l.dropLast = l.filter (fun a => decide (a.id ≠ last.id)) := by
  obtain ⟨init, rfl⟩ := List.getLast?_eq_some_iff.1 hlast
  refine ⟨by simp, ?_⟩
  have hid := h.ids
  rw [List.map_append, List.nodup_append] at hid
  have hinit : init.filter (fun a => decide (a.id ≠ last.id)) = init := by
    rw [List.filter_eq_self]
    intro a ha
    have : a.id ≠ last.id := by
      intro e
      exact hid.2.2 (List.mem_map_of_mem Node.id ha) (by simp [e])
    simpa using this
  rw [List.dropLast_concat, List.filter_append, hinit]
  simp

end linked_lemmas

/-! ## The members on a consistent cache -/

namespace lru_cache

variable {Key Value : Type} [DecidableEq Key] [Inhabited Value]

theorem pop_back_concat (r : List (Node Key Value)) (n : Node Key Value) :
    pop_back (r ++ [n]) = some r := by
  cases r with
  | nil => simp [pop_back]
  | cons a t =>
    have : (a :: t ++ [n]).dropLast = a :: t := List.dropLast_concat
    simp only [List.cons_append] at this
    simp [pop_back, this]

theorem touch_list {l : List (Node Key Value)} {m : List (Key × Nat)} (h : linked l m)
    {n : Node Key Value} (hn : n ∈ l) (v : Value) :
    ∃ l1, assign_second l n.id v = some l1 ∧
      splice_begin l1 n.id
        = some ({ n with second := v } :: l.filter (fun a => decide (a.id ≠ n.id))) := by
  let g : Node Key Value → Node Key Value :=
    fun a => if a.id = n.id then { a with second := v } else a
  have hgid : ∀ a, (g a).id = a.id := by
    intro a; simp only [g]; split <;> rfl
  have hgfirst : ∀ a, (g a).first = a.first := by
    intro a; simp only [g]; split <;> rfl
  have hl1 := h.update g hgid hgfirst
  refine ⟨l.map g, assign_second_of_mem v h.ids hn, ?_⟩
  have hgn : g n = { n with second := v } := by simp [g]
  have hmem : ({ n with second := v } : Node Key Value) ∈ l.map g :=
    hgn ▸ List.mem_map_of_mem g hn
  have hu := unlink_of_mem hl1.ids hmem
  have hfil : (l.map g).filter (fun a => decide (a.id ≠ n.id))
      = l.filter (fun a => decide (a.id ≠ n.id)) := by
    rw [List.filter_map]
    have hc : ((fun a => decide (a.id ≠ n.id)) ∘ g) = (fun a : Node Key Value => decide (a.id ≠ n.id)) := by
      funext a; simp [Function.comp, hgid]
    rw [hc]
    conv_rhs => rw [← List.map_id (l.filter (fun a => decide (a.id ≠ n.id)))]
    apply List.map_congr_left
    intro a ha
    have hne : a.id ≠ n.id := by simpa using (List.mem_filter.1 ha).2
    simp [g, hne]
  simp only [splice_begin]
  rw [hu]
  simp only [hfil]

theorem erase_found_of_mem {c : lru_cache Key Value} (h : linked c._list c._map)
    {n : Node Key Value} (hn : n ∈ c._list) (k : Key) :
    erase_found c k n.id
      = some { c with _list := c._list.filter (fun a => decide (a.id ≠ n.id)),
                      _map := map_erase c._map k } := by
  simp only [erase_found, splice_end, unlink_of_mem h.ids hn, pop_back_concat]

theorem entries_filter {l : List (Node Key Value)} {m : List (Key × Nat)} (h : linked l m)
    {n : Node Key Value} (hn : n ∈ l) :
    (l.filter (fun a => decide (a.id ≠ n.id))).map (fun a => (a.first, a.second))
      = (l.map (fun a => (a.first, a.second))).filter (fun e => decide (e.1 ≠ n.first)) := by
  rw [List.filter_map]
  congr 1
  apply List.filter_congr
  intro a ha
  simp only [Function.comp]
  have := h.same_node ha hn
  by_cases e : a.id = n.id
  · simp [e, this.1 e]
  · have e1 : a.first ≠ n.first := fun x => e (this.2 x)
    simp [e, e1]

theorem exists_key_iff {c : lru_cache Key Value} (h : consistent c) (k : Key) :
    c.exists_key k = true ↔ k ∈ c.keys := by
  have hl := linked_of_consistent h
  unfold exists_key keys
  rw [Option.isSome_iff_ne_none, Ne, map_find_eq_none, not_not]
  exact ⟨fun e => hl.keys_perm.subset e, fun e => hl.keys_perm.symm.subset e⟩

theorem size_eq_length {c : lru_cache Key Value} (h : consistent c) :
    c.size = c.entries.length := by
  simp [size, entries, h.2.2.1]

theorem keys_eq_entries (c : lru_cache Key Value) : c.keys = c.entries.map Prod.fst := by
  simp [keys, entries, List.map_map, Function.comp]

theorem map_find_node {c : lru_cache Key Value} (h : linked c._list c._map)
    {n : Node Key Value} (hn : n ∈ c._list) : map_find c._map n.first = some n.id :=
  map_find_of_mem h.index_keys (h.list_to_index n hn)

theorem mem_entries {c : lru_cache Key Value} {k : Key} {v : Value} :
    (k, v) ∈ c.entries ↔ ∃ n ∈ c._list, n.first = k ∧ n.second = v := by
  simp [entries, List.mem_map]

theorem put_present {c : lru_cache Key Value} (h : consistent c) {k : Key} {v0 : Value}
    (hk : (k, v0) ∈ c.entries) (v : Value) :
    ∃ c1, c.put k v = some c1 ∧ consistent c1 ∧ c1._max_size = c._max_size ∧
      c1.entries = (k, v) :: c.entries.filter (fun e => decide (e.1 ≠ k)) ∧
      c1._map = c._map := by
  have hl := linked_of_consistent h
  obtain ⟨n, hn, rfl, rfl⟩ := mem_entries.1 hk
  obtain ⟨l1, h1, h2⟩ := touch_list hl hn v
  refine ⟨{ c with _list := { n with second := v } ::
      c._list.filter (fun a => decide (a.id ≠ n.id)) }, ?_, ?_, rfl, ?_, rfl⟩
  · simp only [put, map_find_node hl hn, h1, h2]
  · exact consistent_of_linked (hl.touch hn v)
  · simp only [entries, List.map_cons]
    rw [entries_filter hl hn]

theorem put_absent_room {c : lru_cache Key Value} (h : consistent c) {k : Key}
    (hk : c.exists_key k = false) (hroom : c.size < c._max_size) (v : Value) :
    ∃ c1, c.put k v = some c1 ∧ consistent c1 ∧ c1._max_size = c._max_size ∧
      c1.entries = (k, v) :: c.entries ∧ c1.size = c.size + 1 := by
  have hl := linked_of_consistent h
  have hfind : map_find c._map k = none := by
    simpa [exists_key] using hk
  have hkm : k ∉ c._map.map Prod.fst := map_find_eq_none.1 hfind
  have hkl : k ∉ c._list.map Node.first := fun e => hkm (hl.keys_perm.symm.subset e)
  have hnot : ¬ (c._map.length + 1 > c._max_size) := by
    unfold size at hroom; omega
  refine ⟨{ c with _list := ⟨fresh_id c._list c._map, k, v⟩ :: c._list,
                   _map := (k, fresh_id c._list c._map) :: c._map }, ?_, ?_, rfl, ?_, ?_⟩
  · simp only [put, hfind, hnot, if_false, emplace_front, map_assign, map_erase_of_not_mem hkm]
  · exact consistent_of_linked
      (hl.insert hkl v (fun n hn => Nat.ne_of_lt (lt_fresh_id_of_mem hn)))
  · simp [entries]
  · simp [size]

theorem put_absent_full {c : lru_cache Key Value} (h : consistent c) {k : Key}
    (hk : c.exists_key k = false) (hfull : c._max_size ≤ c.size) (hcap : 1 ≤ c._max_size)
    (v : Value) :
    ∃ c1, c.put k v = some c1 ∧ consistent c1 ∧ c1._max_size = c._max_size ∧
      c1.entries = (k, v) :: c.entries.dropLast ∧ c1.size = c.size := by
  have hl := linked_of_consistent h
  have hfind : map_find c._map k = none := by
    simpa [exists_key] using hk
  have hkm : k ∉ c._map.map Prod.fst := map_find_eq_none.1 hfind
  have hkl : k ∉ c._list.map Node.first := fun e => hkm (hl.keys_perm.symm.subset e)
  have hover : c._map.length + 1 > c._max_size := by
    unfold size at hfull; omega
  have hne : c._list ≠ [] := by
    intro e
    have h0 : c._map.length = ([] : List (Node Key Value)).length := e ▸ hl.length_eq
    unfold size at hfull
    rw [List.length_nil] at h0
    omega
  obtain ⟨a, t, hat⟩ := List.exists_cons_of_ne_nil hne
  have hlast : c._list.getLast? = some (c._list.getLast hne) := List.getLast?_eq_getLast _ hne
  obtain ⟨hmem, hdrop⟩ := hl.dropLast_eq hlast
  have hrem := hl.remove hmem
  rw [← hdrop] at hrem
  have hkd : k ∉ c._list.dropLast.map Node.first :=
    fun e => hkl ((List.dropLast_sublist _).map _ |>.subset e)
  have hkm2 : k ∉ (map_erase c._map (c._list.getLast hne).first).map Prod.fst :=
    fun e => hkd (hrem.keys_perm.subset e)
  have hpop : pop_back c._list = some c._list.dropLast := by
    rw [hat]; rfl
  refine ⟨{ c with
      _list := ⟨fresh_id c._list.dropLast (map_erase c._map (c._list.getLast hne).first), k, v⟩
        :: c._list.dropLast,
      _map := (k, fresh_id c._list.dropLast (map_erase c._map (c._list.getLast hne).first))
        :: map_erase c._map (c._list.getLast hne).first }, ?_, ?_, rfl, ?_, ?_⟩
  · simp only [put, hfind, hover, if_true, hlast, hpop, emplace_front, map_assign,
      map_erase_of_not_mem hkm2]
  · exact consistent_of_linked
      (hrem.insert hkd v (fun n hn => Nat.ne_of_lt (lt_fresh_id_of_mem hn)))
  · simp [entries, List.map_dropLast]
  · have h1 := hrem.length_eq
    have h2 := hl.length_eq
    simp only [size, List.length_cons, h1, List.length_dropLast]
    have : 0 < c._list.length := List.length_pos.2 hne
    omega

theorem erase_found_spec {c : lru_cache Key Value} (h : consistent c)
    {n : Node Key Value} (hn : n ∈ c._list) :
    ∃ c1, erase_found c n.first n.id = some c1 ∧ consistent c1 ∧
      c1._max_size = c._max_size ∧
      c1.entries = c.entries.filter (fun e => decide (e.1 ≠ n.first)) ∧
      c1.size + 1 = c.size := by
  have hl := linked_of_consistent h
  refine ⟨_, erase_found_of_mem hl hn n.first, consistent_of_linked (hl.remove hn), rfl, ?_, ?_⟩
  · simp only [entries]
    rw [entries_filter hl hn]
  · have h1 := (hl.remove hn).length_eq
    have h2 := (hl.touch hn n.second).length_eq
    simp only [size, h1]
    simpa using h2.symm

theorem get_miss {c : lru_cache Key Value} {k : Key} (hk : c.exists_key k = false)
    (u : Value → Value) (e : Value → Bool) :
    c.get k u e = some ((default, false), c) := by
  have hfind : map_find c._map k = none := by
    simpa [exists_key] using hk
  simp only [get, hfind]

theorem get_hit {c : lru_cache Key Value} (h : consistent c) {k : Key} {v : Value}
    (hk : (k, v) ∈ c.entries) (u : Value → Value) {e : Value → Bool} (he : e v = false) :
    ∃ c1, c.get k u e = some ((u v, true), c1) ∧ consistent c1 ∧
      c1._max_size = c._max_size ∧
      c1.entries = (k, u v) :: c.entries.filter (fun x => decide (x.1 ≠ k)) ∧
      c1._map = c._map := by
  have hl := linked_of_consistent h
  obtain ⟨n, hn, rfl, rfl⟩ := mem_entries.1 hk
  obtain ⟨l1, h1, h2⟩ := touch_list hl hn (u n.second)
  refine ⟨{ c with _list := { n with second := u n.second } ::
      c._list.filter (fun a => decide (a.id ≠ n.id)) }, ?_, ?_, rfl, ?_, rfl⟩
  · simp [get, map_find_node hl hn, deref_of_mem hl.ids hn, he, h1, h2]
  · exact consistent_of_linked (hl.touch hn _)
  · simp only [entries, List.map_cons]
    rw [entries_filter hl hn]

theorem get_evict {c : lru_cache Key Value} (h : consistent c) {k : Key} {v : Value}
    (hk : (k, v) ∈ c.entries) (u : Value → Value) {e : Value → Bool} (he : e v = true) :
    ∃ c1, c.get k u e = some ((default, false), c1) ∧ consistent c1 ∧
      c1._max_size = c._max_size ∧
      c1.entries = c.entries.filter (fun x => decide (x.1 ≠ k)) ∧
      c1.size + 1 = c.size := by
  have hl := linked_of_consistent h
  obtain ⟨n, hn, rfl, rfl⟩ := mem_entries.1 hk
  obtain ⟨c1, h1, h2, h3, h4, h5⟩ := erase_found_spec h hn
  refine ⟨c1, ?_, h2, h3, h4, h5⟩
  simp [get, map_find_node hl hn, deref_of_mem hl.ids hn, he, h1]

theorem remove_absent {c : lru_cache Key Value} {k : Key} (hk : c.exists_key k = false) :
    c.remove k = some (false, c) := by
  have hfind : map_find c._map k = none := by
    simpa [exists_key] using hk
  simp only [remove, hfind]

theorem remove_present {c : lru_cache Key Value} (h : consistent c) {k : Key} {v : Value}
    (hk : (k, v) ∈ c.entries) :
    ∃ c1, c.remove k = some (true, c1) ∧ consistent c1 ∧
      c1._max_size = c._max_size ∧
      c1.entries = c.entries.filter (fun x => decide (x.1 ≠ k)) ∧
      c1.size + 1 = c.size := by
  have hl := linked_of_consistent h
  obtain ⟨n, hn, rfl, rfl⟩ := mem_entries.1 hk
  obtain ⟨c1, h1, h2, h3, h4, h5⟩ := erase_found_spec h hn
  refine ⟨c1, ?_, h2, h3, h4, h5⟩
  simp [remove, map_find_node hl hn, h1]

theorem exists_pred_miss {c : lru_cache Key Value} {k : Key} (hk : c.exists_key k = false)
    (u : Value → Value) (e : Value → Bool) :
    c.exists_pred k u e = some (false, c) := by
  have hfind : map_find c._map k = none := by
    simpa [exists_key] using hk
  simp only [exists_pred, hfind]

theorem exists_pred_evict {c : lru_cache Key Value} (h : consistent c) {k : Key} {v : Value}
    (hk : (k, v) ∈ c.entries) (u : Value → Value) {e : Value → Bool} (he : e v = true) :
    ∃ c1, c.exists_pred k u e = some (false, c1) ∧ consistent c1 ∧
      c1._max_size = c._max_size ∧
      c1.entries = c.entries.filter (fun x => decide (x.1 ≠ k)) ∧
      c1.size + 1 = c.size := by
  have hl := linked_of_consistent h
  obtain ⟨n, hn, rfl, rfl⟩ := mem_entries.1 hk
  obtain ⟨c1, h1, h2, h3, h4, h5⟩ := erase_found_spec h hn
  refine ⟨c1, ?_, h2, h3, h4, h5⟩
  simp [exists_pred, map_find_node hl hn, deref_of_mem hl.ids hn, he, h1]

theorem exists_pred_hit {c : lru_cache Key Value} (h : consistent c) {k : Key} {v : Value}
    (hk : (k, v) ∈ c.entries) (u : Value → Value) {e : Value → Bool} (he : e v = false) :
    ∃ c1, c.exists_pred k u e = some (true, c1) ∧ consistent c1 ∧
      c1._max_size = c._max_size ∧
      c1.entries = c.entries.map (fun x => if x.1 = k then (x.1, u v) else x) ∧
      c1._map = c._map := by
  have hl := linked_of_consistent h
  obtain ⟨n, hn, rfl, rfl⟩ := mem_entries.1 hk
  let g : Node Key Value → Node Key Value :=
    fun a => if a.id = n.id then { a with second := u n.second } else a
  have hgid : ∀ a, (g a).id = a.id := by
    intro a; simp only [g]; split <;> rfl
  have hgfirst : ∀ a, (g a).first = a.first := by
    intro a; simp only [g]; split <;> rfl
  refine ⟨{ c with _list := c._list.map g }, ?_, ?_, rfl, ?_, rfl⟩
  · simp [exists_pred, map_find_node hl hn, deref_of_mem hl.ids hn, he,
      assign_second_of_mem (u n.second) hl.ids hn, g]
  · exact consistent_of_linked (hl.update g hgid hgfirst)
  · simp only [entries, List.map_map]
    apply List.map_congr_left
    intro a ha
    have := hl.same_node ha hn
    by_cases e1 : a.id = n.id
    · simp [g, e1, this.1 e1]
    · have e2 : a.first ≠ n.first := fun x => e1 (this.2 x)
      simp [g, e1, e2]

theorem absent_or_present {c : lru_cache Key Value} (h : consistent c) (k : Key) :
    c.exists_key k = false ∨ ∃ v, (k, v) ∈ c.entries := by
  cases hk : c.exists_key k with
  | false => exact Or.inl rfl
  | true =>
    right
    have := (exists_key_iff h k).1 hk
    rw [keys_eq_entries] at this
    obtain ⟨p, hp, rfl⟩ := List.mem_map.1 this
    exact ⟨p.2, hp⟩

theorem consistent_new (cap : Nat) : consistent (new cap : lru_cache Key Value) :=
  consistent_of_linked linked.nil

/-- Every call on a consistent cache of positive capacity that holds at most `_max_size`
entries returns, and leaves such a cache. -/
theorem step_consistent {c : lru_cache Key Value} (h : consistent c)
    (hcap : 1 ≤ c._max_size) (hsz : c.size ≤ c._max_size) (call : Call Key Value) :
    ∃ c1, c.step call = some c1 ∧ consistent c1 ∧ c1._max_size = c._max_size ∧
      c1.size ≤ c1._max_size := by
  cases call with
  | put k v =>
    rcases absent_or_present h k with hk | ⟨v0, hk⟩
    · by_cases hroom : c.size < c._max_size
      · obtain ⟨c1, h1, h2, h3, -, h5⟩ := put_absent_room h hk hroom v
        exact ⟨c1, h1, h2, h3, by omega⟩
      · obtain ⟨c1, h1, h2, h3, -, h5⟩ := put_absent_full h hk (by omega) hcap v
        exact ⟨c1, h1, h2, h3, by omega⟩
    · obtain ⟨c1, h1, h2, h3, -, h5⟩ := put_present h hk v
      refine ⟨c1, h1, h2, h3, ?_⟩
      simp only [size, h5, h3]
      exact hsz
  | get k u e =>
    rcases absent_or_present h k with hk | ⟨v0, hk⟩
    · exact ⟨c, by simp [step, get_miss hk], h, rfl, hsz⟩
    · cases he : e v0 with
      | false =>
        obtain ⟨c1, h1, h2, h3, -, h5⟩ := get_hit h hk u he
        refine ⟨c1, by simp [step, h1], h2, h3, ?_⟩
        simp only [size, h5, h3]
        exact hsz
      | true =>
        obtain ⟨c1, h1, h2, h3, -, h5⟩ := get_evict h hk u he
        exact ⟨c1, by simp [step, h1], h2, h3, by omega⟩
  | exists_key k => exact ⟨c, rfl, h, rfl, hsz⟩
  | exists_pred k u e =>
    rcases absent_or_present h k with hk | ⟨v0, hk⟩
    · exact ⟨c, by simp [step, exists_pred_miss hk], h, rfl, hsz⟩
    · cases he : e v0 with
      | false =>
        obtain ⟨c1, h1, h2, h3, -, h5⟩ := exists_pred_hit h hk u he
        refine ⟨c1, by simp [step, h1], h2, h3, ?_⟩
        simp only [size, h5, h3]
        exact hsz
      | true =>
        obtain ⟨c1, h1, h2, h3, -, h5⟩ := exists_pred_evict h hk u he
        exact ⟨c1, by simp [step, h1], h2, h3, by omega⟩
  | remove k =>
    rcases absent_or_present h k with hk | ⟨v0, hk⟩
    · exact ⟨c, by simp [step, remove_absent hk], h, rfl, hsz⟩
    · obtain ⟨c1, h1, h2, h3, -, h5⟩ := remove_present h hk
      exact ⟨c1, by simp [step, h1], h2, h3, by omega⟩

theorem run_consistent {c : lru_cache Key Value} (h : consistent c)
    (hcap : 1 ≤ c._max_size) (hsz : c.size ≤ c._max_size) (calls : List (Call Key Value)) :
    ∃ c1, c.run calls = some c1 ∧ consistent c1 ∧ c1._max_size = c._max_size ∧
      c1.size ≤ c1._max_size := by
  induction calls generalizing c with
  | nil => exact ⟨c, rfl, h, rfl, hsz⟩
  | cons call calls ih =>
    obtain ⟨c1, h1, h2, h3, h4⟩ := step_consistent h hcap hsz call
    obtain ⟨c2, g1, g2, g3, g4⟩ := ih h2 (h3 ▸ hcap) h4
    exact ⟨c2, by simp [run, h1, g1], g2, g3.trans h3, g4⟩

/-- Claim C1. A cache constructed with capacity `cap >= 1` never holds more than `cap`
entries: every finite sequence of `put`, `get` (any callbacks), `exists` (plain or with
callbacks) and `remove(key)` calls runs to completion and `size() <= cap` holds in the
state it leaves.  As the sequence is arbitrary this covers the state after every call. -/
theorem size_le_capacity (cap : Nat) (hcap : 1 ≤ cap) (calls : List (Call Key Value)) :
    ∃ c, (new cap : lru_cache Key Value).run calls = some c ∧ c.size ≤ cap := by
  obtain ⟨c, h1, -, h3, h4⟩ :=
    run_consistent (consistent_new cap) (c := (new cap : lru_cache Key Value)) hcap
      (by simp [new, size]) calls
  exact ⟨c, h1, by simpa [h3, new] using h4⟩

theorem size_le_capacity_witness :
    1 ≤ 2 ∧ ∃ c, (new 2 : lru_cache Nat Nat).run
      [.put 1 10, .put 2 20, .get 1 (fun v => v + 1) (fun v => decide (v = 0)),
       .exists_key 2, .put 3 30, .exists_pred 3 (fun v => v) (fun _ => true), .remove 1,
       .put 4 40, .put 5 50] = some c ∧ c.size ≤ 2 :=
  ⟨by decide, size_le_capacity 2 (by decide) _⟩

/-- Claim C2. After every finite sequence of `put`, `get`, `exists` and `remove(key)` calls
on a cache constructed with capacity `cap >= 1`: `_map` and `_list` have the same number
of entries, no two list entries bear the same key, looking a key up in `_map` yields an
iterator to a linked node bearing that key, and `size()` is that common number. -/
theorem index_list_consistent (cap : Nat) (hcap : 1 ≤ cap) (calls : List (Call Key Value)) :
    ∃ c, (new cap : lru_cache Key Value).run calls = some c ∧
      c._map.length = c._list.length ∧
      (c._list.map Node.first).Nodup ∧
      (∀ k it, map_find c._map k = some it →
        ∃ n, n ∈ c._list ∧ deref c._list it = some n ∧ n.first = k) ∧
      c.size = c._list.length := by
  obtain ⟨c, h1, h2, -, -⟩ :=
    run_consistent (consistent_new cap) (c := (new cap : lru_cache Key Value)) hcap
      (by simp [new, size]) calls
  have hl := linked_of_consistent h2
  refine ⟨c, h1, hl.length_eq, hl.firsts, ?_, hl.length_eq⟩
  intro k it hfind
  obtain ⟨n, hn, hid, hfirst⟩ := hl.index_to_list _ (mem_of_map_find hfind)
  refine ⟨n, hn, ?_, hfirst⟩
  have := deref_of_mem hl.ids hn
  simpa [hid] using this

theorem index_list_consistent_witness :
    1 ≤ 2 ∧ ∃ c, (new 2 : lru_cache Nat Nat).run
      [.put 1 10, .put 2 20, .get 2 (fun v => v + 1) (fun _ => false), .put 3 30,
       .remove 2, .exists_pred 3 (fun v => 2 * v) (fun v => decide (v = 60))] = some c ∧
      c._map.length = c._list.length ∧
      (c._list.map Node.first).Nodup ∧
      (∀ k it, map_find c._map k = some it →
        ∃ n, n ∈ c._list ∧ deref c._list it = some n ∧ n.first = k) ∧
      c.size = c._list.length :=
  ⟨by decide, index_list_consistent 2 (by decide) _⟩

theorem exists_key_congr {c c1 : lru_cache Key Value} (h : c1._map = c._map) (k : Key) :
    c1.exists_key k = c.exists_key k := by
  simp [exists_key, h]

/-- Claim C6. On a consistent cache with `size() == capacity >= 1`, `put` of a key that is
not present returns and removes exactly the tail entry of the recency list, from the list
and from the index, puts `(key, value)` at the head, keeps every other entry in its
order, and leaves `size()` equal to the capacity. -/
theorem put_full_evicts_tail {c : lru_cache Key Value} (h : consistent c)
    (hcap : 1 ≤ c._max_size) (hfull : c.size = c._max_size) {k : Key}
    (hk : c.exists_key k = false) (v : Value) :
    ∃ c1 init last, c.put k v = some c1 ∧ c.entries = init ++ [last] ∧
      c1.entries = (k, v) :: init ∧
      c1.exists_key last.1 = false ∧ c1.exists_key k = true ∧
      (∀ e ∈ init, c1.exists_key e.1 = true) ∧
      c1.size = c._max_size ∧ c1._max_size = c._max_size ∧ consistent c1 := by
  obtain ⟨c1, h1, h2, h3, h4, h5⟩ := put_absent_full h hk (by omega) hcap v
  have hne : c.entries ≠ [] := by
    intro e
    have := size_eq_length h
    rw [e] at this
    simp at this
    omega
  have hsplit := List.dropLast_append_getLast hne
  have hkeys : c1.keys = k :: c.entries.dropLast.map Prod.fst := by
    rw [keys_eq_entries, h4]; rfl
  have hnd : (c.entries.map Prod.fst).Nodup := by
    rw [← keys_eq_entries]; exact h.2.2.2.1
  rw [← hsplit, List.map_append, List.nodup_append] at hnd
  have hlast_in : (c.entries.getLast hne).1 ∈ c.keys := by
    rw [keys_eq_entries]
    exact List.mem_map_of_mem Prod.fst (List.getLast_mem hne)
  refine ⟨c1, c.entries.dropLast, c.entries.getLast hne, h1, hsplit.symm, h4, ?_, ?_, ?_,
    by omega, h3, h2⟩
  · cases hx : c1.exists_key (c.entries.getLast hne).1 with
    | false => rfl
    | true =>
      exfalso
      have hmem := (exists_key_iff h2 _).1 hx
      rw [hkeys] at hmem
      rcases List.mem_cons.1 hmem with e | e
      · have : c.exists_key k = true := (exists_key_iff h k).2 (e ▸ hlast_in)
        rw [hk] at this
        exact Bool.false_ne_true this
      · exact hnd.2.2 e (by simp)
  · exact (exists_key_iff h2 k).2 (by rw [hkeys]; exact List.mem_cons_self _ _)
  · intro e he
    refine (exists_key_iff h2 e.1).2 ?_
    rw [hkeys]
    exact List.mem_cons_of_mem _ (List.mem_map_of_mem Prod.fst he)

theorem put_full_evicts_tail_witness :
    consistent (⟨[⟨2, 7, 70⟩, ⟨1, 5, 50⟩], [(7, 2), (5, 1)], 2⟩ : lru_cache Nat Nat) ∧
    ∃ c1 init last,
      (⟨[⟨2, 7, 70⟩, ⟨1, 5, 50⟩], [(7, 2), (5, 1)], 2⟩ : lru_cache Nat Nat).put 9 90 = some c1 ∧
      (⟨[⟨2, 7, 70⟩, ⟨1, 5, 50⟩], [(7, 2), (5, 1)], 2⟩ : lru_cache Nat Nat).entries
        = init ++ [last] ∧
      c1.entries = (9, 90) :: init ∧
      c1.exists_key last.1 = false ∧ c1.exists_key 9 = true ∧
      (∀ e ∈ init, c1.exists_key e.1 = true) ∧
      c1.size = 2 ∧ c1._max_size = 2 ∧ consistent c1 :=
  ⟨by decide, put_full_evicts_tail (by decide) (by decide) (by decide) (by decide) 90⟩

/-- Claim C7. On a consistent cache, full or not, `put` of a key that is present returns,
replaces the stored value, moves the entry to the head of the recency list, evicts
nothing, and leaves `size()`, the index and every other entry with their relative order
unchanged. -/
theorem put_present_moves_to_head {c : lru_cache Key Value} (h : consistent c) {k : Key}
    (hk : c.exists_key k = true) (v : Value) :
    ∃ c1, c.put k v = some c1 ∧
      c1.entries = (k, v) :: c.entries.filter (fun e => decide (e.1 ≠ k)) ∧
      c1.size = c.size ∧ (∀ k1, c1.exists_key k1 = c.exists_key k1) ∧
      c1._max_size = c._max_size ∧ consistent c1 := by
  rcases absent_or_present h k with hk0 | ⟨v0, hk0⟩
  · rw [hk] at hk0
    exact absurd hk0 (by decide)
  · obtain ⟨c1, h1, h2, h3, h4, h5⟩ := put_present h hk0 v
    exact ⟨c1, h1, h4, by simp [size, h5], exists_key_congr h5, h3, h2⟩

theorem put_present_moves_to_head_witness :
    consistent (⟨[⟨2, 7, 70⟩, ⟨1, 5, 50⟩], [(7, 2), (5, 1)], 2⟩ : lru_cache Nat Nat) ∧
    (⟨[⟨2, 7, 70⟩, ⟨1, 5, 50⟩], [(7, 2), (5, 1)], 2⟩ : lru_cache Nat Nat).exists_key 5 = true ∧
    ∃ c1, (⟨[⟨2, 7, 70⟩, ⟨1, 5, 50⟩], [(7, 2), (5, 1)], 2⟩ : lru_cache Nat Nat).put 5 51
        = some c1 ∧
      c1.entries = (5, 51) ::
        (⟨[⟨2, 7, 70⟩, ⟨1, 5, 50⟩], [(7, 2), (5, 1)], 2⟩ : lru_cache Nat Nat).entries.filter
          (fun e => decide (e.1 ≠ 5)) ∧
      c1.size = (⟨[⟨2, 7, 70⟩, ⟨1, 5, 50⟩], [(7, 2), (5, 1)], 2⟩ : lru_cache Nat Nat).size ∧
      (∀ k1, c1.exists_key k1
        = (⟨[⟨2, 7, 70⟩, ⟨1, 5, 50⟩], [(7, 2), (5, 1)], 2⟩ : lru_cache Nat Nat).exists_key k1) ∧
      c1._max_size = 2 ∧ consistent c1 :=
  ⟨by decide, by decide, put_present_moves_to_head (by decide) (by decide) 51⟩

/-- Claim C8. On a consistent cache with `size() < capacity`, `put` of a key that is not
present returns, puts `(key, value)` at the head of the recency list and indexes it,
increases `size()` by exactly one, and keeps every previous entry in its order. -/
theorem put_new_with_room {c : lru_cache Key Value} (h : consistent c)
    (hroom : c.size < c._max_size) {k : Key} (hk : c.exists_key k = false) (v : Value) :
    ∃ c1, c.put k v = some c1 ∧ c1.entries = (k, v) :: c.entries ∧
      c1.exists_key k = true ∧ c1.size = c.size + 1 ∧
      c1._max_size = c._max_size ∧ consistent c1 := by
  obtain ⟨c1, h1, h2, h3, h4, h5⟩ := put_absent_room h hk hroom v
  refine ⟨c1, h1, h4, ?_, h5, h3, h2⟩
  refine (exists_key_iff h2 k).2 ?_
  rw [keys_eq_entries, h4]
  exact List.mem_cons_self _ _

theorem put_new_with_room_witness :
    consistent (⟨[⟨2, 7, 70⟩, ⟨1, 5, 50⟩], [(7, 2), (5, 1)], 3⟩ : lru_cache Nat Nat) ∧
    ∃ c1, (⟨[⟨2, 7, 70⟩, ⟨1, 5, 50⟩], [(7, 2), (5, 1)], 3⟩ : lru_cache Nat Nat).put 9 90
        = some c1 ∧
      c1.entries = (9, 90) ::
        (⟨[⟨2, 7, 70⟩, ⟨1, 5, 50⟩], [(7, 2), (5, 1)], 3⟩ : lru_cache Nat Nat).entries ∧
      c1.exists_key 9 = true ∧
      c1.size = (⟨[⟨2, 7, 70⟩, ⟨1, 5, 50⟩], [(7, 2), (5, 1)], 3⟩ : lru_cache Nat Nat).size + 1 ∧
      c1._max_size = 3 ∧ consistent c1 :=
  ⟨by decide, put_new_with_room (by decide) (by decide) (by decide) 90⟩

/-- Claim C10. On a consistent cache holding key `k` with stored value `v`, and for
callbacks `u`, `e` with `e v = false`, `get(k, u, e)` returns `(u v, true)`; afterwards
`k` is stored with `u v` at the head of the recency list, and `size()`, the index and
all other entries with their relative order are unchanged. -/
theorem get_updates_and_touches {c : lru_cache Key Value} (h : consistent c) {k : Key}
    {v : Value} (hk : (k, v) ∈ c.entries) (u : Value → Value) (e : Value → Bool)
    (he : e v = false) :
    ∃ c1, c.get k u e = some ((u v, true), c1) ∧
      c1.entries = (k, u v) :: c.entries.filter (fun x => decide (x.1 ≠ k)) ∧
      c1.size = c.size ∧ (∀ k1, c1.exists_key k1 = c.exists_key k1) ∧
      c1._max_size = c._max_size ∧ consistent c1 := by
  obtain ⟨c1, h1, h2, h3, h4, h5⟩ := get_hit h hk u he
  exact ⟨c1, h1, h4, by simp [size, h5], exists_key_congr h5, h3, h2⟩

theorem get_updates_and_touches_witness :
    consistent (⟨[⟨2, 7, 70⟩, ⟨1, 5, 50⟩], [(7, 2), (5, 1)], 2⟩ : lru_cache Nat Nat) ∧
    (5, 50) ∈ (⟨[⟨2, 7, 70⟩, ⟨1, 5, 50⟩], [(7, 2), (5, 1)], 2⟩ : lru_cache Nat Nat).entries ∧
    ∃ c1, (⟨[⟨2, 7, 70⟩, ⟨1, 5, 50⟩], [(7, 2), (5, 1)], 2⟩ : lru_cache Nat Nat).get 5
        (fun x => x + 300) (fun x => decide (x = 350)) = some ((350, true), c1) ∧
      c1.entries = (5, 350) ::
        (⟨[⟨2, 7, 70⟩, ⟨1, 5, 50⟩], [(7, 2), (5, 1)], 2⟩ : lru_cache Nat Nat).entries.filter
          (fun x => decide (x.1 ≠ 5)) ∧
      c1.size = (⟨[⟨2, 7, 70⟩, ⟨1, 5, 50⟩], [(7, 2), (5, 1)], 2⟩ : lru_cache Nat Nat).size ∧
      (∀ k1, c1.exists_key k1
        = (⟨[⟨2, 7, 70⟩, ⟨1, 5, 50⟩], [(7, 2), (5, 1)], 2⟩ : lru_cache Nat Nat).exists_key k1) ∧
      c1._max_size = 2 ∧ consistent c1 :=
  ⟨by decide, by decide,
    get_updates_and_touches (by decide) (by decide) (fun x => x + 300)
      (fun x => decide (x = 350)) (by decide)⟩

/-! ## Recency order -/

theorem by_last_touch_nodup (log : List Key) : (by_last_touch log).Nodup := by
  induction log with
  | nil => simp [by_last_touch]
  | cons k older ih =>
    simp only [by_last_touch, List.nodup_cons]
    exact ⟨by simp [List.mem_filter], ih.filter _⟩

theorem mem_by_last_touch {log : List Key} {a : Key} : a ∈ by_last_touch log ↔ a ∈ log := by
  induction log with
  | nil => simp [by_last_touch]
  | cons k older ih =>
    simp only [by_last_touch, List.mem_cons, List.mem_filter, ih]
    by_cases e : a = k
    · simp [e]
    · simp [e]

/-- The order of `by_last_touch`: a key stands before another one exactly when its most
recent touch is the more recent one (has the smaller position in the log). -/
theorem by_last_touch_sorted (log : List Key) :
    (by_last_touch log).Pairwise (fun a b => log.indexOf a < log.indexOf b) := by
  induction log with
  | nil => simp [by_last_touch]
  | cons k older ih =>
    simp only [by_last_touch, List.pairwise_cons]
    constructor
    · intro b hb
      have hne : b ≠ k := by simpa using (List.mem_filter.1 hb).2
      rw [List.indexOf_cons_self, List.indexOf_cons_ne _ (Ne.symm hne)]
      omega
    · refine (ih.sublist (List.filter_sublist _)).imp_of_mem ?_
      intro a b ha hb hab
      have hna : a ≠ k := by simpa using (List.mem_filter.1 ha).2
      have hnb : b ≠ k := by simpa using (List.mem_filter.1 hb).2
      rw [List.indexOf_cons_ne _ (Ne.symm hna), List.indexOf_cons_ne _ (Ne.symm hnb)]
      omega

theorem take_filter_of_mem {M : List Key} (hM : M.Nodup) {k : Key} {n : Nat}
    (hk : k ∈ M.take (n + 1)) :
    (M.filter (fun a => decide (a ≠ k))).take n
      = (M.take (n + 1)).filter (fun a => decide (a ≠ k)) := by
  induction M generalizing n with
  | nil => simp at hk
  | cons a M1 ih =>
    rw [List.nodup_cons] at hM
    by_cases e : a = k
    · subst e
      have h1 : M1.filter (fun b => decide (b ≠ a)) = M1 := by
        rw [List.filter_eq_self]
        intro b hb
        have : b ≠ a := fun x => hM.1 (x ▸ hb)
        simpa using this
      have h2 : (M1.take n).filter (fun b => decide (b ≠ a)) = M1.take n := by
        rw [List.filter_eq_self]
        intro b hb
        have : b ≠ a := fun x => hM.1 (x ▸ List.mem_of_mem_take hb)
        simpa using this
      rw [List.filter_cons_of_neg (by simp), h1, List.take_succ_cons,
        List.filter_cons_of_neg (by simp), h2]
    · rw [List.take_succ_cons] at hk
      have hk1 : k ∈ M1.take n := by
        rcases List.mem_cons.1 hk with x | x
        · exact absurd x.symm e
        · exact x
      cases n with
      | zero => simp at hk1
      | succ n1 =>
        rw [List.filter_cons_of_pos (by simpa using e), List.take_succ_cons,
          List.take_succ_cons, List.filter_cons_of_pos (by simpa using e), ih hM.2 hk1]

theorem take_filter_of_not_mem {M : List Key} {k : Key} {n : Nat} (hk : k ∉ M.take n) :
    (M.filter (fun a => decide (a ≠ k))).take n = M.take n := by
  induction M generalizing n with
  | nil => simp
  | cons a M1 ih =>
    cases n with
    | zero => simp
    | succ n1 =>
      rw [List.take_succ_cons, List.mem_cons, not_or] at hk
      have e : a ≠ k := fun x => hk.1 x.symm
      rw [List.filter_cons_of_pos (by simpa using e), List.take_succ_cons,
        List.take_succ_cons, ih hk.2]

theorem keys_filter (es : List (Key × Value)) (k : Key) :
    (es.filter (fun e => decide (e.1 ≠ k))).map Prod.fst
      = (es.map Prod.fst).filter (fun a => decide (a ≠ k)) := by
  rw [List.filter_map]
  rfl

theorem keys_length {c : lru_cache Key Value} (h : consistent c) : c.keys.length = c.size := by
  simp [keys, size, h.2.2.1]

/-- One plain call on a cache whose recency list holds the `cap` most recently touched
keys in the order of their last touch: the call returns, and the cache again holds the
`cap` most recently touched keys in that order. -/
theorem plain_step {cap : Nat} (hcap : 1 ≤ cap) {c : lru_cache Key Value} {past : List Key}
    (h : consistent c) (hm : c._max_size = cap)
    (hkeys : c.keys = (by_last_touch past).take cap) (call : PlainCall Key Value) :
    ∃ c1, c.step (plain call) = some c1 ∧ consistent c1 ∧ c1._max_size = cap ∧
      c1.keys = (by_last_touch ((touched c call).toList ++ past)).take cap ∧
      (∀ a, a ∈ (touched c call).toList ++ past ↔ a ∈ put_keys [call] ∨ a ∈ past) := by
  obtain ⟨n, rfl⟩ : ∃ n, cap = n + 1 := ⟨cap - 1, by omega⟩
  have hnd := by_last_touch_nodup past
  have touch_case : ∀ (k : Key) (c1 : lru_cache Key Value), k ∈ c.keys →
      c1.keys = k :: c.keys.filter (fun a => decide (a ≠ k)) →
      c1.keys = (by_last_touch (k :: past)).take (n + 1) := by
    intro k c1 hk hc1
    rw [hc1, hkeys]
    rw [hkeys] at hk
    simp only [by_last_touch, List.take_succ_cons]
    rw [take_filter_of_mem hnd hk]
  cases call with
  | put k v =>
    simp only [touched, Option.toList, List.singleton_append, put_keys, List.mem_cons,
      List.not_mem_nil, or_false]
    rcases absent_or_present h k with hk | ⟨v0, hk⟩
    · have hkk : k ∉ c.keys := fun e => by
        have := (exists_key_iff h k).2 e
        rw [hk] at this
        exact Bool.false_ne_true this
      have hk2 : k ∉ (by_last_touch past).take n :=
        fun e => hkk (hkeys ▸ List.take_subset_take_left _ (Nat.le_succ n) e)
      have hlen := keys_length h
      rw [hkeys, List.length_take] at hlen
      by_cases hroom : c.size < c._max_size
      · obtain ⟨c1, h1, h2, h3, h4, -⟩ := put_absent_room h hk hroom v
        refine ⟨c1, h1, h2, h3.trans hm, ?_, fun _ => trivial⟩
        have hM : (by_last_touch past).length ≤ n := by omega
        rw [keys_eq_entries, h4, List.map_cons, ← keys_eq_entries, hkeys]
        simp only [by_last_touch, List.take_succ_cons]
        rw [take_filter_of_not_mem hk2, List.take_of_length_le hM,
          List.take_of_length_le (Nat.le_succ_of_le hM)]
      · obtain ⟨c1, h1, h2, h3, h4, -⟩ := put_absent_full h hk (by omega) (by omega) v
        refine ⟨c1, h1, h2, h3.trans hm, ?_, fun _ => trivial⟩
        have hM : n + 1 ≤ (by_last_touch past).length := by omega
        rw [keys_eq_entries, h4, List.map_cons, List.map_dropLast, ← keys_eq_entries, hkeys]
        simp only [by_last_touch, List.take_succ_cons]
        rw [take_filter_of_not_mem hk2, List.dropLast_eq_take, List.take_take,
          List.length_take]
        congr 2
        omega
    · obtain ⟨c1, h1, h2, h3, h4, -⟩ := put_present h hk v
      refine ⟨c1, h1, h2, h3.trans hm, ?_, fun _ => trivial⟩
      apply touch_case k c1
      · rw [keys_eq_entries]; exact List.mem_map_of_mem Prod.fst hk
      · rw [keys_eq_entries, h4, List.map_cons, keys_filter, ← keys_eq_entries]
  | get k =>
    rcases absent_or_present h k with hk | ⟨v0, hk⟩
    · have hget := get_miss hk (default_update : Value → Value) default_remove
      refine ⟨c, by simp [step, plain, hget], h, hm, ?_, ?_⟩
      · simp [touched, hget, hkeys]
      · simp [touched, hget, put_keys]
    · obtain ⟨c1, h1, h2, h3, h4, -⟩ :=
        get_hit h hk (default_update : Value → Value) (e := default_remove) rfl
      have hkk : k ∈ c.keys := by
        rw [keys_eq_entries]; exact List.mem_map_of_mem Prod.fst hk
      refine ⟨c1, by simp [step, plain, h1], h2, h3.trans hm, ?_, ?_⟩
      · simp only [touched, h1, Option.toList, List.singleton_append]
        apply touch_case k c1 hkk
        rw [keys_eq_entries, h4, List.map_cons, keys_filter, ← keys_eq_entries]
      · intro a
        simp only [touched, h1, Option.toList, List.singleton_append, put_keys,
          List.mem_cons, List.not_mem_nil, false_or]
        constructor
        · rintro (e | e)
          · subst e
            rw [hkeys] at hkk
            exact mem_by_last_touch.1 (List.mem_of_mem_take hkk)
          · exact e
        · exact Or.inr

theorem put_keys_cons (call : PlainCall Key Value) (calls : List (PlainCall Key Value))
    (a : Key) : a ∈ put_keys (call :: calls) ↔ a ∈ put_keys [call] ∨ a ∈ put_keys calls := by
  cases call <;> simp [put_keys]

theorem plain_run {cap : Nat} (hcap : 1 ≤ cap) (calls : List (PlainCall Key Value))
    {c : lru_cache Key Value} {past : List Key}
    (h : consistent c) (hm : c._max_size = cap)
    (hkeys : c.keys = (by_last_touch past).take cap) :
    ∃ c1, c.run (calls.map plain) = some c1 ∧ consistent c1 ∧ c1._max_size = cap ∧
      c1.keys = (by_last_touch (touch_log c past calls)).take cap ∧
      (∀ a, a ∈ touch_log c past calls ↔ a ∈ put_keys calls ∨ a ∈ past) := by
  induction calls generalizing c past with
  | nil => exact ⟨c, rfl, h, hm, hkeys, by simp [touch_log, put_keys]⟩
  | cons call calls ih =>
    obtain ⟨c1, h1, h2, h3, h4, h5⟩ := plain_step hcap h hm hkeys call
    obtain ⟨c2, g1, g2, g3, g4, g5⟩ := ih h2 h3 h4
    refine ⟨c2, by simp [run, h1, g1], g2, g3, by simp only [touch_log, h1, g4], ?_⟩
    intro a
    simp only [touch_log, h1, g5, h5, put_keys_cons call calls a]
    tauto

theorem new_keys (cap : Nat) :
    (new cap : lru_cache Key Value).keys = (by_last_touch ([] : List Key)).take cap := by
  simp [new, keys, by_last_touch]

theorem take_min_length (n : Nat) (M : List Key) : M.take (min n M.length) = M.take n := by
  rcases Nat.le_total n M.length with e | e
  · rw [Nat.min_eq_left e]
  · rw [Nat.min_eq_right e, List.take_length, List.take_of_length_le e]

/-- Claim C3. Exact LRU: after every finite sequence of `put` and default-callback `get`
calls on a cache constructed with capacity `cap >= 1`, the recency list holds, from head
to tail, the first `min(cap, d)` of the touched keys ordered by last touch (most recent
first), where a touch is a `put` or a `get` that returned `found = true` and `d` is the
number of distinct keys ever put; these are exactly the keys that `exists` reports, and
`size()` is `min(cap, d)`.  The last two conjuncts state what `by_last_touch` is: the
touched keys, each before every key whose last touch is older. -/
theorem exact_lru (cap : Nat) (hcap : 1 ≤ cap) (calls : List (PlainCall Key Value)) :
    ∃ c, (new cap : lru_cache Key Value).run (calls.map plain) = some c ∧
      c.keys = (by_last_touch (touch_log (new cap : lru_cache Key Value) [] calls)).take
        (min cap (put_keys calls).dedup.length) ∧
      (∀ k, c.exists_key k = true ↔
        k ∈ (by_last_touch (touch_log (new cap : lru_cache Key Value) [] calls)).take
          (min cap (put_keys calls).dedup.length)) ∧
      c.size = min cap (put_keys calls).dedup.length ∧
      (∀ k, k ∈ by_last_touch (touch_log (new cap : lru_cache Key Value) [] calls) ↔
        k ∈ touch_log (new cap : lru_cache Key Value) [] calls) ∧
      (by_last_touch (touch_log (new cap : lru_cache Key Value) [] calls)).Pairwise
        (fun a b => (touch_log (new cap : lru_cache Key Value) [] calls).indexOf a
          < (touch_log (new cap : lru_cache Key Value) [] calls).indexOf b) := by
  obtain ⟨c, h1, h2, -, h4, h5⟩ :=
    plain_run hcap calls (consistent_new cap) (c := (new cap : lru_cache Key Value)) rfl
      (new_keys cap)
  have hperm : (by_last_touch (touch_log (new cap : lru_cache Key Value) [] calls)).Perm
      (put_keys calls).dedup := by
    rw [List.perm_ext_iff_of_nodup (by_last_touch_nodup _) (List.nodup_dedup _)]
    intro a
    rw [mem_by_last_touch, h5, List.mem_dedup]
    simp
  have hlen := hperm.length_eq
  have hmin : min cap (put_keys calls).dedup.length
      = min cap (by_last_touch (touch_log (new cap : lru_cache Key Value) [] calls)).length := by
    rw [hlen]
  have hk : c.keys = (by_last_touch (touch_log (new cap : lru_cache Key Value) [] calls)).take
      (min cap (put_keys calls).dedup.length) := by
    rw [hmin, take_min_length, h4]
  refine ⟨c, h1, hk, ?_, ?_, fun k => mem_by_last_touch, by_last_touch_sorted _⟩
  · intro k
    rw [exists_key_iff h2, hk]
  · rw [← keys_length h2, h4, List.length_take, hlen]

theorem exact_lru_witness :
    1 ≤ 2 ∧ ∃ c, (new 2 : lru_cache Nat Nat).run
        (([.put 1 10, .put 2 20, .get 1, .put 3 30, .get 2, .put 1 11] :
          List (PlainCall Nat Nat)).map plain) = some c ∧
      c.keys = (by_last_touch (touch_log (new 2 : lru_cache Nat Nat) []
          [.put 1 10, .put 2 20, .get 1, .put 3 30, .get 2, .put 1 11])).take
        (min 2 (put_keys ([.put 1 10, .put 2 20, .get 1, .put 3 30, .get 2, .put 1 11] :
          List (PlainCall Nat Nat))).dedup.length) ∧
      (∀ k, c.exists_key k = true ↔
        k ∈ (by_last_touch (touch_log (new 2 : lru_cache Nat Nat) []
            [.put 1 10, .put 2 20, .get 1, .put 3 30, .get 2, .put 1 11])).take
          (min 2 (put_keys ([.put 1 10, .put 2 20, .get 1, .put 3 30, .get 2, .put 1 11] :
            List (PlainCall Nat Nat))).dedup.length)) ∧
      c.size = min 2 (put_keys ([.put 1 10, .put 2 20, .get 1, .put 3 30, .get 2, .put 1 11] :
          List (PlainCall Nat Nat))).dedup.length ∧
      (∀ k, k ∈ by_last_touch (touch_log (new 2 : lru_cache Nat Nat) []
            [.put 1 10, .put 2 20, .get 1, .put 3 30, .get 2, .put 1 11]) ↔
        k ∈ touch_log (new 2 : lru_cache Nat Nat) []
            [.put 1 10, .put 2 20, .get 1, .put 3 30, .get 2, .put 1 11]) ∧
      (by_last_touch (touch_log (new 2 : lru_cache Nat Nat) []
          [.put 1 10, .put 2 20, .get 1, .put 3 30, .get 2, .put 1 11])).Pairwise
        (fun a b => (touch_log (new 2 : lru_cache Nat Nat) []
            [.put 1 10, .put 2 20, .get 1, .put 3 30, .get 2, .put 1 11]).indexOf a
          < (touch_log (new 2 : lru_cache Nat Nat) []
            [.put 1 10, .put 2 20, .get 1, .put 3 30, .get 2, .put 1 11]).indexOf b) :=
  ⟨by decide, exact_lru 2 (by decide) _⟩

theorem by_last_touch_of_nodup {L : List Key} (h : L.Nodup) : by_last_touch L = L := by
  induction L with
  | nil => rfl
  | cons k L1 ih =>
    rw [List.nodup_cons] at h
    simp only [by_last_touch, ih h.2]
    congr 1
    rw [List.filter_eq_self]
    intro a ha
    have : a ≠ k := fun e => h.1 (e ▸ ha)
    simpa using this

theorem touch_log_puts {cap : Nat} (hcap : 1 ≤ cap) (kvs : List (Key × Value))
    {c : lru_cache Key Value} {past : List Key}
    (h : consistent c) (hm : c._max_size = cap)
    (hkeys : c.keys = (by_last_touch past).take cap) :
    touch_log c past (kvs.map (fun p => PlainCall.put p.1 p.2))
      = (kvs.map Prod.fst).reverse ++ past := by
  induction kvs generalizing c past with
  | nil => simp [touch_log]
  | cons p kvs ih =>
    obtain ⟨c1, h1, h2, h3, h4, -⟩ := plain_step hcap h hm hkeys (PlainCall.put p.1 p.2)
    simp only [List.map_cons, touch_log, h1]
    rw [ih h2 h3 h4]
    simp [touched]

theorem map_plain_puts (kvs : List (Key × Value)) :
    (kvs.map (fun p => (PlainCall.put p.1 p.2 : PlainCall Key Value))).map plain
      = kvs.map (fun p => Call.put p.1 p.2) := by
  simp [List.map_map, Function.comp, plain]

/-- Claim C4. With capacity `N >= 1`, after `N + 1` pairwise distinct keys are put in
order into a new cache and nothing else is called, `exists` is false for the first key
and true for each of the other `N` keys. -/
theorem lru_eviction_order (N : Nat) (hN : 1 ≤ N) (first : Key × Value)
    (others : List (Key × Value)) (hlen : others.length = N)
    (hnd : ((first :: others).map Prod.fst).Nodup) :
    ∃ c, (new N : lru_cache Key Value).run
        ((first :: others).map (fun p => Call.put p.1 p.2)) = some c ∧
      c.exists_key first.1 = false ∧ ∀ p ∈ others, c.exists_key p.1 = true := by
  obtain ⟨c, h1, h2, -, h4, -⟩ :=
    plain_run hN ((first :: others).map (fun p => PlainCall.put p.1 p.2))
      (consistent_new N) (c := (new N : lru_cache Key Value)) rfl (new_keys N)
  rw [map_plain_puts] at h1
  rw [touch_log_puts hN _ (consistent_new N) rfl (new_keys N), List.append_nil,
    by_last_touch_of_nodup (List.nodup_reverse.2 hnd), List.map_cons, List.reverse_cons,
    List.take_left' (by simp [hlen])] at h4
  rw [List.map_cons, List.nodup_cons] at hnd
  refine ⟨c, h1, ?_, ?_⟩
  · cases hx : c.exists_key first.1 with
    | false => rfl
    | true =>
      have := (exists_key_iff h2 _).1 hx
      rw [h4, List.mem_reverse] at this
      exact absurd this hnd.1
  · intro p hp
    refine (exists_key_iff h2 _).2 ?_
    rw [h4, List.mem_reverse]
    exact List.mem_map_of_mem Prod.fst hp

theorem lru_eviction_order_witness :
    1 ≤ 3 ∧ ([(2, 2), (3, 3), (4, 4)] : List (Nat × Nat)).length = 3 ∧
    ((((1, 1) : Nat × Nat) :: [(2, 2), (3, 3), (4, 4)]).map Prod.fst).Nodup ∧
    ∃ c, (new 3 : lru_cache Nat Nat).run
        ((((1, 1) : Nat × Nat) :: [(2, 2), (3, 3), (4, 4)]).map
          (fun p => Call.put p.1 p.2)) = some c ∧
      c.exists_key ((1, 1) : Nat × Nat).1 = false ∧
      ∀ p ∈ ([(2, 2), (3, 3), (4, 4)] : List (Nat × Nat)), c.exists_key p.1 = true :=
  ⟨by decide, by decide, by decide,
    lru_eviction_order 3 (by decide) (1, 1) [(2, 2), (3, 3), (4, 4)] (by decide) (by decide)⟩

theorem run_append (c : lru_cache Key Value) (xs ys : List (Call Key Value)) :
    c.run (xs ++ ys) = (c.run xs).bind (fun c1 => c1.run ys) := by
  induction xs generalizing c with
  | nil => simp [run]
  | cons x xs ih =>
    simp only [List.cons_append, run]
    cases c.step x with
    | none => simp
    | some c1 => simp [ih]

/-- Distinct absent keys put into a consistent cache that has room for all of them are
stacked on the recency list, the last one put at the head. -/
theorem run_puts_room (kvs : List (Key × Value)) {c : lru_cache Key Value}
    (h : consistent c) (hnd : (kvs.map Prod.fst).Nodup)
    (hnew : ∀ p ∈ kvs, c.exists_key p.1 = false)
    (hroom : c.size + kvs.length ≤ c._max_size) :
    ∃ c1, c.run (kvs.map (fun p => Call.put p.1 p.2)) = some c1 ∧ consistent c1 ∧
      c1._max_size = c._max_size ∧ c1.entries = kvs.reverse ++ c.entries := by
  induction kvs generalizing c with
  | nil => exact ⟨c, rfl, h, rfl, by simp⟩
  | cons p kvs ih =>
    rw [List.map_cons, List.nodup_cons] at hnd
    simp only [List.length_cons] at hroom
    obtain ⟨c1, h1, h2, h3, h4, h5⟩ :=
      put_absent_room h (hnew p (List.mem_cons_self _ _)) (by omega) p.2
    have hnew1 : ∀ q ∈ kvs, c1.exists_key q.1 = false := by
      intro q hq
      cases hx : c1.exists_key q.1 with
      | false => rfl
      | true =>
        exfalso
        have hmem := (exists_key_iff h2 _).1 hx
        rw [keys_eq_entries, h4, List.map_cons, ← keys_eq_entries] at hmem
        rcases List.mem_cons.1 hmem with e | e
        · exact hnd.1 (e ▸ List.mem_map_of_mem Prod.fst hq)
        · have := (exists_key_iff h _).2 e
          rw [hnew q (List.mem_cons_of_mem _ hq)] at this
          exact Bool.false_ne_true this
    obtain ⟨c2, g1, g2, g3, g4⟩ := ih h2 hnd.2 hnew1 (by omega)
    refine ⟨c2, ?_, g2, g3.trans h3, ?_⟩
    · simp [run, step, h1, g1]
    · rw [g4, h4]
      simp

/-- Claim C5. Touch by `get` resets recency: with capacity `N >= 2` (`N` is the number of
keys put, two plus the length of `rest`), after distinct keys `k1, k2, ...` are put in
that order into a new cache, `get(k1)` returns `(v1, true)`, and a following `put` of a
new key leaves `k1` present, `k2` absent and the new key present. -/
theorem get_resets_recency (N : Nat) (k1 k2 : Key) (v1 v2 : Value)
    (rest : List (Key × Value)) (hN : rest.length + 2 = N)
    (hnd : (((k1, v1) :: (k2, v2) :: rest).map Prod.fst).Nodup)
    (knew : Key) (vnew : Value)
    (hnew : knew ∉ ((k1, v1) :: (k2, v2) :: rest).map Prod.fst) :
    ∃ c1 c2 c3, (new N : lru_cache Key Value).run
        (((k1, v1) :: (k2, v2) :: rest).map (fun p => Call.put p.1 p.2)) = some c1 ∧
      c1.get k1 default_update default_remove = some ((v1, true), c2) ∧
      c2.put knew vnew = some c3 ∧
      c3.exists_key k1 = true ∧ c3.exists_key k2 = false ∧ c3.exists_key knew = true := by
  obtain ⟨c1, h1, h2, h3, h4⟩ :=
    run_puts_room ((k1, v1) :: (k2, v2) :: rest) (consistent_new N)
      (c := (new N : lru_cache Key Value)) hnd
      (fun p _ => by simp [exists_key, new, map_find])
      (by simp [size, new]; omega)
  have hE1 : c1.entries = (rest.reverse ++ [(k2, v2)]) ++ [(k1, v1)] := by
    rw [h4]; simp [entries, new]
  simp only [List.map_cons, List.nodup_cons, List.mem_cons, not_or] at hnd hnew
  obtain ⟨⟨hk12, hk1r⟩, hk2r, -⟩ := hnd
  obtain ⟨hn1, hn2, hnr⟩ := hnew
  have hmem : (k1, v1) ∈ c1.entries := by rw [hE1]; simp
  obtain ⟨c2, g1, g2, g3, g4, g5⟩ :=
    get_hit h2 hmem (default_update : Value → Value) (e := default_remove) rfl
  have hfil : c1.entries.filter (fun x => decide (x.1 ≠ k1)) = rest.reverse ++ [(k2, v2)] := by
    rw [hE1, List.filter_append, List.filter_cons_of_neg (by simp), List.filter_nil,
      List.append_nil, List.filter_eq_self]
    intro x hx
    rcases List.mem_append.1 hx with e | e
    · have : x.1 ≠ k1 := fun y => hk1r (y ▸ List.mem_map_of_mem Prod.fst (List.mem_reverse.1 e))
      simpa using this
    · have hx2 : x = (k2, v2) := by simpa using e
      have : x.1 ≠ k1 := by rw [hx2]; exact fun y => hk12 y.symm
      simpa using this
  have hE2 : c2.entries = ((k1, v1) :: rest.reverse) ++ [(k2, v2)] := by
    rw [g4, hfil]; rfl
  have hsz2 : c2.size = c2._max_size := by
    rw [size_eq_length g2, hE2, g3, h3]
    simp [new]; omega
  have habs : c2.exists_key knew = false := by
    cases hx : c2.exists_key knew with
    | false => rfl
    | true =>
      exfalso
      have hm := (exists_key_iff g2 _).1 hx
      rw [keys_eq_entries, hE2] at hm
      simp only [List.map_append, List.map_cons, List.map_nil, List.mem_append, List.mem_cons,
        List.map_reverse, List.mem_reverse, List.not_mem_nil, or_false] at hm
      rcases hm with (e | e) | e
      · exact hn1 e
      · exact hnr e
      · exact hn2 e
  obtain ⟨c3, f1, f2, -, f4, -⟩ :=
    put_absent_full g2 habs (by omega) (by rw [g3, h3]; simp [new]; omega) vnew
  have hK3 : c3.keys = knew :: k1 :: (rest.map Prod.fst).reverse := by
    rw [keys_eq_entries, f4, hE2, List.dropLast_concat]
    simp
  refine ⟨c1, c2, c3, h1, g1, f1, ?_, ?_, ?_⟩
  · exact (exists_key_iff f2 _).2 (by rw [hK3]; simp)
  · cases hx : c3.exists_key k2 with
    | false => rfl
    | true =>
      exfalso
      have hm := (exists_key_iff f2 _).1 hx
      rw [hK3] at hm
      simp only [List.mem_cons, List.mem_reverse] at hm
      rcases hm with e | e | e
      · exact hn2 e.symm
      · exact hk12 e.symm
      · exact hk2r e
  · exact (exists_key_iff f2 _).2 (by rw [hK3]; simp)

theorem get_resets_recency_witness :
    ([(3, 3)] : List (Nat × Nat)).length + 2 = 3 ∧
    ((((1, 1) : Nat × Nat) :: (2, 2) :: [(3, 3)]).map Prod.fst).Nodup ∧
    4 ∉ (((1, 1) : Nat × Nat) :: (2, 2) :: [(3, 3)]).map Prod.fst ∧
    ∃ c1 c2 c3, (new 3 : lru_cache Nat Nat).run
        ((((1, 1) : Nat × Nat) :: (2, 2) :: [(3, 3)]).map (fun p => Call.put p.1 p.2))
          = some c1 ∧
      c1.get 1 default_update default_remove = some ((1, true), c2) ∧
      c2.put 4 4 = some c3 ∧
      c3.exists_key 1 = true ∧ c3.exists_key 2 = false ∧ c3.exists_key 4 = true :=
  ⟨by decide, by decide, by decide,
    get_resets_recency 3 1 2 1 2 [(3, 3)] (by decide) (by decide) 4 4 (by decide)⟩

/-- On a consistent cache of positive capacity holding at most `_max_size` entries,
`get(k)` with the default callbacks right after `put(k, v)` returns `(v, true)`. -/
theorem put_get_consistent {c : lru_cache Key Value} (h : consistent c)
    (hcap : 1 ≤ c._max_size) (k : Key) (v : Value) :
    ∃ c1 c2, c.put k v = some c1 ∧
      c1.get k default_update default_remove = some ((v, true), c2) := by
  have key : ∃ c1, c.put k v = some c1 ∧ consistent c1 ∧ (k, v) ∈ c1.entries := by
    rcases absent_or_present h k with hk | ⟨v0, hk⟩
    · by_cases hroom : c.size < c._max_size
      · obtain ⟨c1, h1, h2, -, h4, -⟩ := put_absent_room h hk hroom v
        exact ⟨c1, h1, h2, by rw [h4]; exact List.mem_cons_self _ _⟩
      · obtain ⟨c1, h1, h2, -, h4, -⟩ := put_absent_full h hk (by omega) hcap v
        exact ⟨c1, h1, h2, by rw [h4]; exact List.mem_cons_self _ _⟩
    · obtain ⟨c1, h1, h2, -, h4, -⟩ := put_present h hk v
      exact ⟨c1, h1, h2, by rw [h4]; exact List.mem_cons_self _ _⟩
  obtain ⟨c1, h1, h2, hmem⟩ := key
  obtain ⟨c2, g1, -⟩ :=
    get_hit h2 hmem (default_update : Value → Value) (e := default_remove) rfl
  exact ⟨c1, c2, h1, g1⟩

/-- Claim C9, at a state the public members reach.  Capacity 3: after `put(1,1)`,
`put(2,2)`, `put(3,3)`, the call `remove(x == 2)` returns 1 and pops the front node
(key 3) while erasing key 2 from the index.  The index then still holds key 3 with an
iterator to the destroyed node, the list holds keys 2 and 1, and `put(3, 9)` goes through
that iterator: it has no defined result, so no `get(3)` returning `(9, true)` follows. -/
theorem put_after_remove_by_pred_undefined :
    ∃ c1 c2, (new 3 : lru_cache Nat Nat).run [.put 1 1, .put 2 2, .put 3 3] = some c1 ∧
      remove_by_pred id c1 (fun x => decide (x = 2)) = some (1, c2) ∧
      1 ≤ c2._max_size ∧ c2.exists_key 3 = true ∧ c2.keys = [2, 1] ∧
      c2.put 3 9 = none :=
  ⟨_, _, rfl, rfl, by decide, by decide, by decide, by decide⟩

/-! ## Callback applications -/

/-- Forgetting the callback applications of `get_traced` gives `get`. -/
theorem get_traced_forget (c : lru_cache Key Value) (k : Key) (u : Value → Value)
    (e : Value → Bool) :
    (c.get_traced k u e).map (fun r => (r.1, r.2.1)) = c.get k u e := by
  unfold get_traced get
  cases map_find c._map k with
  | none => rfl
  | some found =>
    simp only
    cases deref c._list found with
    | none => rfl
    | some n =>
      simp only
      by_cases he : e n.second = true
      · simp only [he, if_true]
        cases erase_found c k found <;> rfl
      · simp only [he, if_false]
        cases assign_second c._list found (u n.second) with
        | none => rfl
        | some l =>
          simp only
          cases splice_begin l found <;> rfl

/-- Forgetting the callback applications of `exists_pred_traced` gives `exists_pred`. -/
theorem exists_pred_traced_forget (c : lru_cache Key Value) (k : Key) (u : Value → Value)
    (e : Value → Bool) :
    (c.exists_pred_traced k u e).map (fun r => (r.1, r.2.1)) = c.exists_pred k u e := by
  unfold exists_pred_traced exists_pred
  cases map_find c._map k with
  | none => rfl
  | some found =>
    simp only
    cases deref c._list found with
    | none => rfl
    | some n =>
      simp only
      by_cases he : e n.second = true
      · simp only [he, if_true]
        cases erase_found c k found <;> rfl
      · simp only [he, if_false]
        cases assign_second c._list found (u n.second) <;> rfl

theorem get_traced_absent {c : lru_cache Key Value} {k : Key} (hk : c.exists_key k = false)
    (u : Value → Value) (e : Value → Bool) :
    c.get_traced k u e = some ((default, false), c, []) := by
  have hfind : map_find c._map k = none := by
    simpa [exists_key] using hk
  simp only [get_traced, hfind]

theorem exists_pred_traced_absent {c : lru_cache Key Value} {k : Key}
    (hk : c.exists_key k = false) (u : Value → Value) (e : Value → Bool) :
    c.exists_pred_traced k u e = some (false, c, []) := by
  have hfind : map_find c._map k = none := by
    simpa [exists_key] using hk
  simp only [exists_pred_traced, hfind]

/-- On a present key `get` applies `remove_pred` to the stored value, and then
`update_pred` to it when the predicate returned false. -/
theorem get_traced_present {c : lru_cache Key Value} (h : consistent c) {k : Key} {v : Value}
    (hk : (k, v) ∈ c.entries) (u : Value → Value) (e : Value → Bool) :
    c.get_traced k u e = (c.get k u e).map (fun r =>
      (r.1, r.2, if e v then [Applied.remove_pred v]
        else [Applied.remove_pred v, Applied.update_pred v])) := by
  have hl := linked_of_consistent h
  obtain ⟨n, hn, rfl, rfl⟩ := mem_entries.1 hk
  simp only [get_traced, get, map_find_node hl hn, deref_of_mem hl.ids hn]
  by_cases he : e n.second = true
  · simp only [he, if_true]
    cases erase_found c n.first n.id <;> rfl
  · simp only [he, if_false]
    cases assign_second c._list n.id (u n.second) with
    | none => rfl
    | some l =>
      simp only
      cases splice_begin l n.id <;> simp

theorem exists_pred_traced_present {c : lru_cache Key Value} (h : consistent c) {k : Key}
    {v : Value} (hk : (k, v) ∈ c.entries) (u : Value → Value) (e : Value → Bool) :
    c.exists_pred_traced k u e = (c.exists_pred k u e).map (fun r =>
      (r.1, r.2, if e v then [Applied.remove_pred v]
        else [Applied.remove_pred v, Applied.update_pred v])) := by
  have hl := linked_of_consistent h
  obtain ⟨n, hn, rfl, rfl⟩ := mem_entries.1 hk
  simp only [exists_pred_traced, exists_pred, map_find_node hl hn, deref_of_mem hl.ids hn]
  by_cases he : e n.second = true
  · simp only [he, if_true]
    cases erase_found c n.first n.id <;> rfl
  · simp only [he, if_false]
    cases assign_second c._list n.id (u n.second) <;> simp

theorem not_mem_keys_filter (es : List (Key × Value)) (k : Key) :
    k ∉ (es.filter (fun x => decide (x.1 ≠ k))).map Prod.fst := by
  intro hmem
  obtain ⟨p, hp, hpk⟩ := List.mem_map.1 hmem
  have : p.1 ≠ k := by simpa using (List.mem_filter.1 hp).2
  exact this hpk

theorem absent_of_entries_filter {c c1 : lru_cache Key Value} (h1 : consistent c1) {k : Key}
    (he : c1.entries = c.entries.filter (fun x => decide (x.1 ≠ k))) :
    k ∉ c1.keys ∧ c1.exists_key k = false := by
  have hk : k ∉ c1.keys := by
    rw [keys_eq_entries, he]
    exact not_mem_keys_filter _ _
  refine ⟨hk, ?_⟩
  cases hx : c1.exists_key k with
  | false => rfl
  | true => exact absurd ((exists_key_iff h1 k).1 hx) hk

/-- With an evict predicate that holds of the stored value, `get`, `exists` with
callbacks and `remove(key)` leave one and the same state. -/
theorem evict_same {c : lru_cache Key Value} (h : consistent c) {k : Key} {v : Value}
    (hk : (k, v) ∈ c.entries) (u : Value → Value) {e : Value → Bool} (he : e v = true) :
    ∃ c1, c.get k u e = some ((default, false), c1) ∧
      c.exists_pred k u e = some (false, c1) ∧ c.remove k = some (true, c1) ∧
      consistent c1 ∧ c1._max_size = c._max_size ∧
      c1.entries = c.entries.filter (fun x => decide (x.1 ≠ k)) ∧
      c1.size + 1 = c.size := by
  have hl := linked_of_consistent h
  obtain ⟨n, hn, rfl, rfl⟩ := mem_entries.1 hk
  obtain ⟨c1, h1, h2, h3, h4, h5⟩ := erase_found_spec h hn
  refine ⟨c1, ?_, ?_, ?_, h2, h3, h4, h5⟩
  · simp [get, map_find_node hl hn, deref_of_mem hl.ids hn, he, h1]
  · simp [exists_pred, map_find_node hl hn, deref_of_mem hl.ids hn, he, h1]
  · simp [remove, map_find_node hl hn, h1]

/-- Claim C11. Conditional eviction on read: on a consistent cache holding key `k` with
stored value `v`, and for an evict predicate with `e v = true`, `get(k, u, e)` returns
`(Value{}, false)` and leaves exactly the state that `remove(k)` leaves: `k`'s entry is
gone from the recency list and from the index, `size()` is one less, the other entries
keep their order, and `exists(k)` is false afterwards. -/
theorem get_evicts_on_read {c : lru_cache Key Value} (h : consistent c) {k : Key} {v : Value}
    (hk : (k, v) ∈ c.entries) (u : Value → Value) (e : Value → Bool) (he : e v = true) :
    ∃ c1, c.get k u e = some ((default, false), c1) ∧ c.remove k = some (true, c1) ∧
      c1.entries = c.entries.filter (fun x => decide (x.1 ≠ k)) ∧
      c1.size + 1 = c.size ∧ k ∉ c1.keys ∧ c1.exists_key k = false ∧
      c1._max_size = c._max_size ∧ consistent c1 := by
  obtain ⟨c1, h1, -, h2, h3, h4, h5, h6⟩ := evict_same h hk u he
  obtain ⟨g1, g2⟩ := absent_of_entries_filter h3 h5
  exact ⟨c1, h1, h2, h5, h6, g1, g2, h4, h3⟩

theorem get_evicts_on_read_witness :
    consistent (⟨[⟨4, 4, 4⟩, ⟨3, 3, 300⟩, ⟨2, 2, 2⟩], [(4, 4), (3, 3), (2, 2)], 3⟩ :
      lru_cache Nat Nat) ∧
    (3, 300) ∈ (⟨[⟨4, 4, 4⟩, ⟨3, 3, 300⟩, ⟨2, 2, 2⟩], [(4, 4), (3, 3), (2, 2)], 3⟩ :
      lru_cache Nat Nat).entries ∧
    ∃ c1, (⟨[⟨4, 4, 4⟩, ⟨3, 3, 300⟩, ⟨2, 2, 2⟩], [(4, 4), (3, 3), (2, 2)], 3⟩ :
        lru_cache Nat Nat).get 3 (fun x => x) (fun x => decide (x = 300))
        = some ((default, false), c1) ∧
      (⟨[⟨4, 4, 4⟩, ⟨3, 3, 300⟩, ⟨2, 2, 2⟩], [(4, 4), (3, 3), (2, 2)], 3⟩ :
        lru_cache Nat Nat).remove 3 = some (true, c1) ∧
      c1.entries = (⟨[⟨4, 4, 4⟩, ⟨3, 3, 300⟩, ⟨2, 2, 2⟩], [(4, 4), (3, 3), (2, 2)], 3⟩ :
        lru_cache Nat Nat).entries.filter (fun x => decide (x.1 ≠ 3)) ∧
      c1.size + 1 = (⟨[⟨4, 4, 4⟩, ⟨3, 3, 300⟩, ⟨2, 2, 2⟩], [(4, 4), (3, 3), (2, 2)], 3⟩ :
        lru_cache Nat Nat).size ∧
      3 ∉ c1.keys ∧ c1.exists_key 3 = false ∧ c1._max_size = 3 ∧ consistent c1 :=
  ⟨by decide, by decide,
    get_evicts_on_read (v := 300) (by decide) (by decide) (fun x => x)
      (fun x => decide (x = 300)) (by decide)⟩

/-- Claim C12. Eviction check precedes update, in `get` and in `exists` with callbacks:
on a consistent cache holding `k` with stored value `v`, the evict predicate is applied
to `v` first.  When `e v = true` it is the only callback application, the entry is
removed and `update_pred` is never applied.  When `e v = false` the update is applied to
`v` next and the entry is kept with value `u v`, whatever `e (u v)` is. -/
theorem eviction_check_precedes_update {c : lru_cache Key Value} (h : consistent c) {k : Key}
    {v : Value} (hk : (k, v) ∈ c.entries) (u : Value → Value) (e : Value → Bool) :
    (e v = true → ∃ c1,
      c.get_traced k u e = some ((default, false), c1, [Applied.remove_pred v]) ∧
      c.exists_pred_traced k u e = some (false, c1, [Applied.remove_pred v]) ∧
      c1.entries = c.entries.filter (fun x => decide (x.1 ≠ k)) ∧ c1.exists_key k = false) ∧
    (e v = false → ∃ c1 c2,
      c.get_traced k u e
        = some ((u v, true), c1, [Applied.remove_pred v, Applied.update_pred v]) ∧
      c.exists_pred_traced k u e
        = some (true, c2, [Applied.remove_pred v, Applied.update_pred v]) ∧
      (k, u v) ∈ c1.entries ∧ (k, u v) ∈ c2.entries ∧
      c1.exists_key k = true ∧ c2.exists_key k = true) := by
  have hpres : c.exists_key k = true := by
    refine (exists_key_iff h k).2 ?_
    rw [keys_eq_entries]
    exact List.mem_map_of_mem Prod.fst hk
  constructor
  · intro he
    obtain ⟨c1, h1, g1, -, h2, -, h4, -⟩ := evict_same h hk u he
    refine ⟨c1, ?_, ?_, h4, (absent_of_entries_filter h2 h4).2⟩
    · rw [get_traced_present h hk, h1]; simp [he]
    · rw [exists_pred_traced_present h hk, g1]; simp [he]
  · intro he
    obtain ⟨c1, h1, h2, -, h4, -⟩ := get_hit h hk u he
    obtain ⟨c2, g1, g2, -, g4, -⟩ := exists_pred_hit h hk u he
    refine ⟨c1, c2, ?_, ?_, ?_, ?_, ?_, ?_⟩
    · rw [get_traced_present h hk, h1]; simp [he]
    · rw [exists_pred_traced_present h hk, g1]; simp [he]
    · rw [h4]; exact List.mem_cons_self _ _
    · rw [g4]
      exact List.mem_map.2 ⟨(k, v), hk, by simp⟩
    · refine (exists_key_iff h2 k).2 ?_
      rw [keys_eq_entries, h4]
      exact List.mem_cons_self _ _
    · refine (exists_key_iff g2 k).2 ?_
      rw [keys_eq_entries, g4]
      exact List.mem_map.2 ⟨(k, u v), List.mem_map.2 ⟨(k, v), hk, by simp⟩, rfl⟩

/-- Claim C13. A `get` of a key that is not present returns `(Value{}, false)` for all
callbacks, applies neither callback and leaves the cache state unchanged, in every
state; it is a normal return, not a failure. -/
theorem get_absent_no_effect (c : lru_cache Key Value) {k : Key}
    (hk : c.exists_key k = false) (u : Value → Value) (e : Value → Bool) :
    c.get_traced k u e = some ((default, false), c, []) ∧
    c.get k u e = some ((default, false), c) :=
  ⟨get_traced_absent hk u e, get_miss hk u e⟩

theorem get_absent_no_effect_witness :
    (⟨[⟨2, 7, 70⟩, ⟨1, 5, 50⟩], [(7, 2), (5, 1)], 2⟩ : lru_cache Nat Nat).exists_key 4 = false ∧
    (⟨[⟨2, 7, 70⟩, ⟨1, 5, 50⟩], [(7, 2), (5, 1)], 2⟩ : lru_cache Nat Nat).get_traced 4
        (fun x => x + 1) (fun _ => true)
      = some ((default, false),
          (⟨[⟨2, 7, 70⟩, ⟨1, 5, 50⟩], [(7, 2), (5, 1)], 2⟩ : lru_cache Nat Nat), []) ∧
    (⟨[⟨2, 7, 70⟩, ⟨1, 5, 50⟩], [(7, 2), (5, 1)], 2⟩ : lru_cache Nat Nat).get 4
        (fun x => x + 1) (fun _ => true)
      = some ((default, false),
          (⟨[⟨2, 7, 70⟩, ⟨1, 5, 50⟩], [(7, 2), (5, 1)], 2⟩ : lru_cache Nat Nat)) :=
  ⟨by decide, get_absent_no_effect _ (by decide) (fun x => x + 1) (fun _ => true)⟩

theorem eviction_check_precedes_update_witness :
    consistent (⟨[⟨4, 4, 4⟩, ⟨3, 3, 300⟩, ⟨2, 2, 2⟩], [(4, 4), (3, 3), (2, 2)], 3⟩ :
      lru_cache Nat Nat) ∧
    ((3, 300) ∈ (⟨[⟨4, 4, 4⟩, ⟨3, 3, 300⟩, ⟨2, 2, 2⟩], [(4, 4), (3, 3), (2, 2)], 3⟩ :
      lru_cache Nat Nat).entries ∧
     ∃ c1, (⟨[⟨4, 4, 4⟩, ⟨3, 3, 300⟩, ⟨2, 2, 2⟩], [(4, 4), (3, 3), (2, 2)], 3⟩ :
          lru_cache Nat Nat).get_traced 3 (fun x => x + 1) (fun x => decide (x = 300))
        = some ((default, false), c1, [Applied.remove_pred 300]) ∧
      (⟨[⟨4, 4, 4⟩, ⟨3, 3, 300⟩, ⟨2, 2, 2⟩], [(4, 4), (3, 3), (2, 2)], 3⟩ :
          lru_cache Nat Nat).exists_pred_traced 3 (fun x => x + 1) (fun x => decide (x = 300))
        = some (false, c1, [Applied.remove_pred 300]) ∧
      c1.entries = (⟨[⟨4, 4, 4⟩, ⟨3, 3, 300⟩, ⟨2, 2, 2⟩], [(4, 4), (3, 3), (2, 2)], 3⟩ :
          lru_cache Nat Nat).entries.filter (fun x => decide (x.1 ≠ 3)) ∧
      c1.exists_key 3 = false) ∧
    ((2, 2) ∈ (⟨[⟨4, 4, 4⟩, ⟨3, 3, 300⟩, ⟨2, 2, 2⟩], [(4, 4), (3, 3), (2, 2)], 3⟩ :
      lru_cache Nat Nat).entries ∧
     (fun x : Nat => decide (x = 3)) ((fun x : Nat => x + 1) 2) = true ∧
     ∃ c1 c2, (⟨[⟨4, 4, 4⟩, ⟨3, 3, 300⟩, ⟨2, 2, 2⟩], [(4, 4), (3, 3), (2, 2)], 3⟩ :
          lru_cache Nat Nat).get_traced 2 (fun x => x + 1) (fun x => decide (x = 3))
        = some (((fun x : Nat => x + 1) 2, true), c1,
            [Applied.remove_pred 2, Applied.update_pred 2]) ∧
      (⟨[⟨4, 4, 4⟩, ⟨3, 3, 300⟩, ⟨2, 2, 2⟩], [(4, 4), (3, 3), (2, 2)], 3⟩ :
          lru_cache Nat Nat).exists_pred_traced 2 (fun x => x + 1) (fun x => decide (x = 3))
        = some (true, c2, [Applied.remove_pred 2, Applied.update_pred 2]) ∧
      (2, (fun x : Nat => x + 1) 2) ∈ c1.entries ∧ (2, (fun x : Nat => x + 1) 2) ∈ c2.entries ∧
      c1.exists_key 2 = true ∧ c2.exists_key 2 = true) :=
  ⟨by decide,
   ⟨by decide,
    (eviction_check_precedes_update (v := 300) (by decide) (by decide) (fun x => x + 1)
      (fun x => decide (x = 300))).1 (by decide)⟩,
   ⟨by decide, by decide,
    (eviction_check_precedes_update (v := 2) (by decide) (by decide) (fun x => x + 1)
      (fun x => decide (x = 3))).2 (by decide)⟩⟩

/-! ## exists with callbacks, and remove by key -/

theorem filter_map_update (es : List (Key × Value)) (k : Key) (w : Value) :
    (es.map (fun x => if x.1 = k then (x.1, w) else x)).filter (fun x => decide (x.1 ≠ k))
      = es.filter (fun x => decide (x.1 ≠ k)) := by
  induction es with
  | nil => rfl
  | cons a t ih =>
    by_cases ha : a.1 = k
    · rw [List.map_cons, if_pos ha, List.filter_cons_of_neg (by simp [ha]),
        List.filter_cons_of_neg (by simp [ha]), ih]
    · rw [List.map_cons, if_neg ha, List.filter_cons_of_pos (by simpa using ha), ih,
        List.filter_cons_of_pos (by simpa using ha)]

theorem keys_map_update (es : List (Key × Value)) (k : Key) (w : Value) :
    (es.map (fun x => if x.1 = k then (x.1, w) else x)).map Prod.fst = es.map Prod.fst := by
  rw [List.map_map]
  apply List.map_congr_left
  intro a _
  simp only [Function.comp]
  split <;> rfl

theorem map_update_perm {es : List (Key × Value)} (hnd : (es.map Prod.fst).Nodup) {k : Key}
    {v : Value} (hk : (k, v) ∈ es) (w : Value) :
    (es.map (fun x => if x.1 = k then (x.1, w) else x)).Perm
      ((k, w) :: es.filter (fun x => decide (x.1 ≠ k))) := by
  induction es with
  | nil => simp at hk
  | cons a t ih =>
    rw [List.map_cons, List.nodup_cons] at hnd
    by_cases ha : a.1 = k
    · have hnot : ∀ x ∈ t, x.1 ≠ k := by
        intro x hx e
        exact hnd.1 (ha ▸ e ▸ List.mem_map_of_mem Prod.fst hx)
      have h1 : t.map (fun x => if x.1 = k then (x.1, w) else x) = t := by
        conv_rhs => rw [← List.map_id t]
        apply List.map_congr_left
        intro x hx
        simp [hnot x hx]
      have h2 : t.filter (fun x => decide (x.1 ≠ k)) = t := by
        rw [List.filter_eq_self]
        intro x hx
        simpa using hnot x hx
      rw [List.map_cons, List.filter_cons_of_neg (by simpa using ha), h1, h2]
      simp [ha]
    · have hkt : (k, v) ∈ t := by
        rcases List.mem_cons.1 hk with e | e
        · exact absurd (by rw [← e]) ha
        · exact e
      rw [List.map_cons, List.filter_cons_of_pos (by simpa using ha)]
      simp only [ha, if_false]
      exact ((ih hnd.2 hkt).cons a).trans (List.Perm.swap _ _ _)

/-- Claim C14 fails on the code: `exists` with callbacks does not splice.  Capacity 2,
recency list 7:70, 5:50; `exists(5, u, e)` with `e` false leaves key 5 at the tail, so
its state differs from the state after `get(5, u, e)`, and a following `put(9, 90)` into
the full cache evicts key 5. -/
theorem exists_pred_does_not_touch :
    consistent (⟨[⟨2, 7, 70⟩, ⟨1, 5, 50⟩], [(7, 2), (5, 1)], 2⟩ : lru_cache Nat Nat) ∧
    (5, 50) ∈ (⟨[⟨2, 7, 70⟩, ⟨1, 5, 50⟩], [(7, 2), (5, 1)], 2⟩ : lru_cache Nat Nat).entries ∧
    ((⟨[⟨2, 7, 70⟩, ⟨1, 5, 50⟩], [(7, 2), (5, 1)], 2⟩ : lru_cache Nat Nat).exists_pred 5
        (fun x => x) (fun _ => false)).map Prod.snd
      ≠ ((⟨[⟨2, 7, 70⟩, ⟨1, 5, 50⟩], [(7, 2), (5, 1)], 2⟩ : lru_cache Nat Nat).get 5
        (fun x => x) (fun _ => false)).map Prod.snd ∧
    ((⟨[⟨2, 7, 70⟩, ⟨1, 5, 50⟩], [(7, 2), (5, 1)], 2⟩ : lru_cache Nat Nat).exists_pred 5
        (fun x => x) (fun _ => false)).map (fun r => (r.1, r.2.keys)) = some (true, [7, 5]) ∧
    (⟨[⟨2, 7, 70⟩, ⟨1, 5, 50⟩], [(7, 2), (5, 1)], 2⟩ : lru_cache Nat Nat).exists_key 9 = false ∧
    (((⟨[⟨2, 7, 70⟩, ⟨1, 5, 50⟩], [(7, 2), (5, 1)], 2⟩ : lru_cache Nat Nat).exists_pred 5
        (fun x => x) (fun _ => false)).bind (fun r => r.2.put 9 90)).map
          (fun c => (c.exists_key 5, c.keys)) = some (false, [9, 7]) := by
  refine ⟨by decide, by decide, by decide, by decide, by decide, by decide⟩

/-- Claim C14 as amended. On a consistent cache holding `k` with stored value `v`, and
for callbacks with `e v = false`, `exists(k, u, e)` returns true and stores `u v` in
place: the recency list keeps its order, index and `size()` are unchanged.  The state
after `get(k, u, e)` is this state with `k`'s entry moved to the head.  A following `put`
of a new key into the full cache keeps `k` exactly when `k`'s entry is not the tail. -/
theorem exists_pred_updates_in_place {c : lru_cache Key Value} (h : consistent c) {k : Key}
    {v : Value} (hk : (k, v) ∈ c.entries) (u : Value → Value) (e : Value → Bool)
    (he : e v = false) :
    ∃ c1 c2, c.exists_pred k u e = some (true, c1) ∧ c.get k u e = some ((u v, true), c2) ∧
      c1.entries = c.entries.map (fun x => if x.1 = k then (x.1, u v) else x) ∧
      c1.keys = c.keys ∧ c1._map = c._map ∧ c1.size = c.size ∧ consistent c1 ∧
      c2.entries = (k, u v) :: c1.entries.filter (fun x => decide (x.1 ≠ k)) ∧
      c2._map = c1._map ∧ c2._max_size = c1._max_size ∧
      (∀ knew vnew, c.exists_key knew = false → c.size = c._max_size → 1 ≤ c._max_size →
        ∃ c3 init last, c1.put knew vnew = some c3 ∧ c.entries = init ++ [last] ∧
          (c3.exists_key k = true ↔ last.1 ≠ k)) := by
  obtain ⟨c1, h1, h2, h3, h4, h5⟩ := exists_pred_hit h hk u he
  obtain ⟨c2, g1, -, g3, g4, g5⟩ := get_hit h hk u he
  have hkeys : c1.keys = c.keys := by
    rw [keys_eq_entries, h4, keys_map_update, ← keys_eq_entries]
  refine ⟨c1, c2, h1, g1, h4, hkeys, h5, by simp [size, h5], h2, ?_, g5.trans h5.symm,
    g3.trans h3.symm, ?_⟩
  · rw [g4, h4, filter_map_update]
  · intro knew vnew hnew hfull hcap
    have hnew1 : c1.exists_key knew = false := by rw [exists_key_congr h5]; exact hnew
    have hfull1 : c1._max_size ≤ c1.size := by simp [size, h5, h3, ← hfull]
    obtain ⟨c3, f1, f2, -, f4, -⟩ := put_absent_full h2 hnew1 hfull1 (h3 ▸ hcap) vnew
    have hne : c.entries ≠ [] := by
      intro e0
      rw [e0] at hk
      simp at hk
    have hsplit := List.dropLast_append_getLast hne
    refine ⟨c3, c.entries.dropLast, c.entries.getLast hne, f1, hsplit.symm, ?_⟩
    have hk3 : c3.keys = knew :: c.entries.dropLast.map Prod.fst := by
      rw [keys_eq_entries, f4, List.map_cons, List.map_dropLast, ← keys_eq_entries, hkeys,
        keys_eq_entries, List.map_dropLast]
    have hnd : (c.entries.map Prod.fst).Nodup := by
      rw [← keys_eq_entries]; exact h.2.2.2.1
    have hkin : k ∈ c.entries.map Prod.fst := List.mem_map_of_mem Prod.fst hk
    rw [← hsplit, List.map_append, List.nodup_append] at hnd
    rw [← hsplit, List.map_append, List.mem_append] at hkin
    have hkn : k ≠ knew := by
      intro e0
      have : c.exists_key k = true := by
        refine (exists_key_iff h k).2 ?_
        rw [keys_eq_entries]
        exact List.mem_map_of_mem Prod.fst hk
      rw [e0, hnew] at this
      exact Bool.false_ne_true this
    rw [exists_key_iff f2, hk3, List.mem_cons]
    constructor
    · rintro (e0 | e0)
      · exact absurd e0 hkn
      · intro e1
        exact hnd.2.2 e0 (by simp [e1])
    · intro hlast
      right
      rcases hkin with e0 | e0
      · exact e0
      · have e1 : k = (c.entries.getLast hne).1 := by simpa using e0
        exact absurd e1.symm hlast

theorem exists_pred_updates_in_place_witness :
    consistent (⟨[⟨2, 7, 70⟩, ⟨1, 5, 50⟩], [(7, 2), (5, 1)], 2⟩ : lru_cache Nat Nat) ∧
    (5, 50) ∈ (⟨[⟨2, 7, 70⟩, ⟨1, 5, 50⟩], [(7, 2), (5, 1)], 2⟩ : lru_cache Nat Nat).entries ∧
    ∃ c1 c2,
      (⟨[⟨2, 7, 70⟩, ⟨1, 5, 50⟩], [(7, 2), (5, 1)], 2⟩ : lru_cache Nat Nat).exists_pred 5
        (fun x => 2 * x) (fun _ => false) = some (true, c1) ∧
      (⟨[⟨2, 7, 70⟩, ⟨1, 5, 50⟩], [(7, 2), (5, 1)], 2⟩ : lru_cache Nat Nat).get 5
        (fun x => 2 * x) (fun _ => false) = some (((fun x : Nat => 2 * x) 50, true), c2) ∧
      c1.entries = (⟨[⟨2, 7, 70⟩, ⟨1, 5, 50⟩], [(7, 2), (5, 1)], 2⟩ :
          lru_cache Nat Nat).entries.map
        (fun x => if x.1 = 5 then (x.1, (fun x : Nat => 2 * x) 50) else x) ∧
      c1.keys = (⟨[⟨2, 7, 70⟩, ⟨1, 5, 50⟩], [(7, 2), (5, 1)], 2⟩ : lru_cache Nat Nat).keys ∧
      c1._map = (⟨[⟨2, 7, 70⟩, ⟨1, 5, 50⟩], [(7, 2), (5, 1)], 2⟩ : lru_cache Nat Nat)._map ∧
      c1.size = (⟨[⟨2, 7, 70⟩, ⟨1, 5, 50⟩], [(7, 2), (5, 1)], 2⟩ : lru_cache Nat Nat).size ∧
      consistent c1 ∧
      c2.entries = (5, (fun x : Nat => 2 * x) 50) ::
        c1.entries.filter (fun x => decide (x.1 ≠ 5)) ∧
      c2._map = c1._map ∧ c2._max_size = c1._max_size ∧
      (∀ knew vnew,
        (⟨[⟨2, 7, 70⟩, ⟨1, 5, 50⟩], [(7, 2), (5, 1)], 2⟩ : lru_cache Nat Nat).exists_key knew
          = false →
        (⟨[⟨2, 7, 70⟩, ⟨1, 5, 50⟩], [(7, 2), (5, 1)], 2⟩ : lru_cache Nat Nat).size
          = (⟨[⟨2, 7, 70⟩, ⟨1, 5, 50⟩], [(7, 2), (5, 1)], 2⟩ : lru_cache Nat Nat)._max_size →
        1 ≤ (⟨[⟨2, 7, 70⟩, ⟨1, 5, 50⟩], [(7, 2), (5, 1)], 2⟩ : lru_cache Nat Nat)._max_size →
        ∃ c3 init last, c1.put knew vnew = some c3 ∧
          (⟨[⟨2, 7, 70⟩, ⟨1, 5, 50⟩], [(7, 2), (5, 1)], 2⟩ : lru_cache Nat Nat).entries
            = init ++ [last] ∧
          (c3.exists_key 5 = true ↔ last.1 ≠ 5)) :=
  ⟨by decide, by decide,
    exists_pred_updates_in_place (v := 50) (by decide) (by decide) (fun x => 2 * x)
      (fun _ => false) rfl⟩

theorem present_of_mem_entries {c : lru_cache Key Value} (h : consistent c) {k : Key}
    {v : Value} (hk : (k, v) ∈ c.entries) : c.exists_key k = true := by
  refine (exists_key_iff h k).2 ?_
  rw [keys_eq_entries]
  exact List.mem_map_of_mem Prod.fst hk

theorem entries_value_unique {c : lru_cache Key Value} (h : consistent c) {k : Key}
    {v w : Value} (hv : (k, v) ∈ c.entries) (hw : (k, w) ∈ c.entries) : v = w := by
  have hnd : (c.entries.map Prod.fst).Nodup := by
    rw [← keys_eq_entries]; exact h.2.2.2.1
  have := List.inj_on_of_nodup_map hnd hv hw rfl
  exact (Prod.mk.inj this).2

/-- Claim C15. On a consistent cache, for every key and callbacks, `exists(k, u, e)`
returns the found flag that `get(k, u, e)` returns from the same state; the flag tells
whether `k` is present after the call; and both calls leave the same entries up to their
order in the recency list, with the same index: `k` is stored with `u v` when it is
kept, and is removed when `e v` is true. -/
theorem exists_pred_agrees_with_get {c : lru_cache Key Value} (h : consistent c) (k : Key)
    (u : Value → Value) (e : Value → Bool) :
    ∃ b r c1 c2, c.exists_pred k u e = some (b, c1) ∧ c.get k u e = some ((r, b), c2) ∧
      b = c1.exists_key k ∧ b = c2.exists_key k ∧
      c1.entries.Perm c2.entries ∧ c1._map = c2._map ∧ consistent c1 ∧ consistent c2 ∧
      (∀ v, (k, v) ∈ c.entries → e v = false →
        b = true ∧ (k, u v) ∈ c1.entries ∧ (k, u v) ∈ c2.entries) ∧
      (∀ v, (k, v) ∈ c.entries → e v = true →
        b = false ∧ k ∉ c1.keys ∧ k ∉ c2.keys) := by
  rcases absent_or_present h k with hk | ⟨v, hk⟩
  · refine ⟨false, default, c, c, exists_pred_miss hk u e, get_miss hk u e, hk.symm, hk.symm,
      List.Perm.refl _, rfl, h, h, ?_, ?_⟩
    · intro w hw _
      have := present_of_mem_entries h hw
      rw [hk] at this
      exact absurd this (by decide)
    · intro w hw _
      have := present_of_mem_entries h hw
      rw [hk] at this
      exact absurd this (by decide)
  · cases he : e v with
    | true =>
      obtain ⟨c1, h1, g1, -, h2, -, h4, -⟩ := evict_same h hk u he
      obtain ⟨a1, a2⟩ := absent_of_entries_filter h2 h4
      refine ⟨false, default, c1, c1, g1, h1, a2.symm, a2.symm, List.Perm.refl _, rfl, h2, h2,
        ?_, ?_⟩
      · intro w hw hew
        rw [← entries_value_unique h hk hw, he] at hew
        exact absurd hew (by decide)
      · intro w _ _
        exact ⟨rfl, a1, a1⟩
    | false =>
      obtain ⟨c1, h1, h2, -, h4, h5⟩ := exists_pred_hit h hk u he
      obtain ⟨c2, g1, g2, -, g4, g5⟩ := get_hit h hk u he
      have hnd : (c.entries.map Prod.fst).Nodup := by
        rw [← keys_eq_entries]; exact h.2.2.2.1
      have m1 : (k, u v) ∈ c1.entries := by
        rw [h4]
        exact List.mem_map.2 ⟨(k, v), hk, by simp⟩
      have m2 : (k, u v) ∈ c2.entries := by
        rw [g4]; exact List.mem_cons_self _ _
      refine ⟨true, u v, c1, c2, h1, g1, (present_of_mem_entries h2 m1).symm,
        (present_of_mem_entries g2 m2).symm, ?_, h5.trans g5.symm, h2, g2, ?_, ?_⟩
      · rw [h4, g4]
        exact map_update_perm hnd hk (u v)
      · intro w hw _
        rw [← entries_value_unique h hk hw]
        exact ⟨rfl, m1, m2⟩
      · intro w hw hew
        rw [← entries_value_unique h hk hw, he] at hew
        exact absurd hew (by decide)

theorem exists_pred_agrees_with_get_witness :
    consistent (⟨[⟨3, 3, 6⟩, ⟨2, 2, 4⟩, ⟨1, 1, 2⟩], [(3, 3), (2, 2), (1, 1)], 3⟩ :
      lru_cache Nat Nat) ∧
    ∃ b r c1 c2,
      (⟨[⟨3, 3, 6⟩, ⟨2, 2, 4⟩, ⟨1, 1, 2⟩], [(3, 3), (2, 2), (1, 1)], 3⟩ :
        lru_cache Nat Nat).exists_pred 2 (fun x => 2 * x) (fun _ => true) = some (b, c1) ∧
      (⟨[⟨3, 3, 6⟩, ⟨2, 2, 4⟩, ⟨1, 1, 2⟩], [(3, 3), (2, 2), (1, 1)], 3⟩ :
        lru_cache Nat Nat).get 2 (fun x => 2 * x) (fun _ => true) = some ((r, b), c2) ∧
      b = c1.exists_key 2 ∧ b = c2.exists_key 2 ∧
      c1.entries.Perm c2.entries ∧ c1._map = c2._map ∧ consistent c1 ∧ consistent c2 ∧
      (∀ v, (2, v) ∈ (⟨[⟨3, 3, 6⟩, ⟨2, 2, 4⟩, ⟨1, 1, 2⟩], [(3, 3), (2, 2), (1, 1)], 3⟩ :
          lru_cache Nat Nat).entries → (fun _ : Nat => true) v = false →
        b = true ∧ (2, (fun x : Nat => 2 * x) v) ∈ c1.entries ∧
          (2, (fun x : Nat => 2 * x) v) ∈ c2.entries) ∧
      (∀ v, (2, v) ∈ (⟨[⟨3, 3, 6⟩, ⟨2, 2, 4⟩, ⟨1, 1, 2⟩], [(3, 3), (2, 2), (1, 1)], 3⟩ :
          lru_cache Nat Nat).entries → (fun _ : Nat => true) v = true →
        b = false ∧ 2 ∉ c1.keys ∧ 2 ∉ c2.keys) :=
  ⟨by decide, exists_pred_agrees_with_get (by decide) 2 (fun x => 2 * x) (fun _ => true)⟩

theorem exists_key_iff_indexed (c : lru_cache Key Value) (k : Key) :
    c.exists_key k = true ↔ k ∈ c.indexed := by
  unfold exists_key indexed
  rw [Option.isSome_iff_ne_none, Ne, map_find_eq_none, not_not]

theorem exists_pred_default {c : lru_cache Key Value} (h : consistent c) (k : Key) :
    c.exists_pred k default_update default_remove = some (c.exists_key k, c) := by
  rcases absent_or_present h k with hk | ⟨v, hk⟩
  · rw [exists_pred_miss hk, hk]
  · have hl := linked_of_consistent h
    obtain ⟨n, hn, hnk, -⟩ := mem_entries.1 hk
    subst hnk
    have hmap : c._list.map
        (fun m => if m.id = n.id then { m with second := default_update n.second } else m)
          = c._list := by
      conv_rhs => rw [← List.map_id c._list]
      apply List.map_congr_left
      intro a ha
      by_cases e1 : a.id = n.id
      · have : a = n := List.inj_on_of_nodup_map hl.ids ha hn e1
        subst this
        simp [default_update]
      · simp [e1]
    rw [present_of_mem_entries h hk]
    simp [exists_pred, map_find_node hl hn, deref_of_mem hl.ids hn, default_remove,
      assign_second_of_mem (default_update n.second) hl.ids hn, hmap]

/-- Claim C16. Plain `exists(k)` returns true exactly when `k` is in the index and leaves
the state unchanged, recency order included, in every state: a later `put` has the same
result, and so evicts the same key, whether or not `exists(k)` came first.  On a
consistent cache the indexed keys are the keys of the recency list, and the overload with
defaulted callbacks returns the same flag and leaves the state unchanged as well. -/
theorem exists_plain_no_effect (c : lru_cache Key Value) (k : Key) :
    (c.exists_key k = true ↔ k ∈ c.indexed) ∧
    c.step (Call.exists_key k) = some c ∧
    (∀ knew vnew, (c.step (Call.exists_key k)).bind (fun c1 => c1.put knew vnew)
      = c.put knew vnew) ∧
    (consistent c →
      (c.exists_key k = true ↔ k ∈ c.keys) ∧
      c.exists_pred k default_update default_remove = some (c.exists_key k, c) ∧
      (∀ knew vnew, (c.exists_pred k default_update default_remove).bind
        (fun r => r.2.put knew vnew) = c.put knew vnew)) := by
  refine ⟨exists_key_iff_indexed c k, rfl, fun _ _ => rfl, fun h => ?_⟩
  refine ⟨exists_key_iff h k, exists_pred_default h k, ?_⟩
  intro knew vnew
  rw [exists_pred_default h k]
  rfl

theorem exists_plain_no_effect_witness :
    consistent (⟨[⟨2, 7, 70⟩, ⟨1, 5, 50⟩], [(7, 2), (5, 1)], 2⟩ : lru_cache Nat Nat) ∧
    ((⟨[⟨2, 7, 70⟩, ⟨1, 5, 50⟩], [(7, 2), (5, 1)], 2⟩ : lru_cache Nat Nat).exists_key 5 = true ↔
      5 ∈ (⟨[⟨2, 7, 70⟩, ⟨1, 5, 50⟩], [(7, 2), (5, 1)], 2⟩ : lru_cache Nat Nat).keys) ∧
    (⟨[⟨2, 7, 70⟩, ⟨1, 5, 50⟩], [(7, 2), (5, 1)], 2⟩ : lru_cache Nat Nat).exists_pred 5
        default_update default_remove
      = some ((⟨[⟨2, 7, 70⟩, ⟨1, 5, 50⟩], [(7, 2), (5, 1)], 2⟩ : lru_cache Nat Nat).exists_key 5,
          (⟨[⟨2, 7, 70⟩, ⟨1, 5, 50⟩], [(7, 2), (5, 1)], 2⟩ : lru_cache Nat Nat)) ∧
    (∀ knew vnew,
      ((⟨[⟨2, 7, 70⟩, ⟨1, 5, 50⟩], [(7, 2), (5, 1)], 2⟩ : lru_cache Nat Nat).exists_pred 5
          default_update default_remove).bind (fun r => r.2.put knew vnew)
        = (⟨[⟨2, 7, 70⟩, ⟨1, 5, 50⟩], [(7, 2), (5, 1)], 2⟩ : lru_cache Nat Nat).put knew vnew) :=
  ⟨by decide,
    (exists_plain_no_effect
      (⟨[⟨2, 7, 70⟩, ⟨1, 5, 50⟩], [(7, 2), (5, 1)], 2⟩ : lru_cache Nat Nat) 5).2.2.2
      (by decide)⟩

theorem filter_absent_key {c : lru_cache Key Value} (h : consistent c) {k : Key}
    (hk : c.exists_key k = false) :
    c.entries.filter (fun x => decide (x.1 ≠ k)) = c.entries := by
  rw [List.filter_eq_self]
  intro x hx
  have hne : x.1 ≠ k := by
    intro e1
    have := present_of_mem_entries h (k := x.1) (v := x.2) hx
    rw [e1, hk] at this
    exact absurd this (by decide)
  simpa using hne

theorem not_mem_keys_of_absent {c : lru_cache Key Value} (h : consistent c) {k : Key}
    (hk : c.exists_key k = false) : k ∉ c.keys := by
  intro hmem
  have := (exists_key_iff h k).2 hmem
  rw [hk] at this
  exact absurd this (by decide)

/-- Claim C17. On a consistent cache `remove(k)` returns true exactly when `k` was
present; afterwards `k` is in neither the recency list nor the index, `size()` is one
less when true was returned and unchanged otherwise, and all other entries keep their
keys, values and order. -/
theorem remove_key_spec {c : lru_cache Key Value} (h : consistent c) (k : Key) :
    ∃ c1, c.remove k = some (c.exists_key k, c1) ∧
      k ∉ c1.keys ∧ c1.exists_key k = false ∧
      c1.entries = c.entries.filter (fun x => decide (x.1 ≠ k)) ∧
      (c.exists_key k = true → c1.size + 1 = c.size) ∧
      (c.exists_key k = false → c1.size = c.size) ∧
      c1._max_size = c._max_size ∧ consistent c1 := by
  rcases absent_or_present h k with hk | ⟨v, hk⟩
  · refine ⟨c, by rw [remove_absent hk, hk], not_mem_keys_of_absent h hk, hk,
      (filter_absent_key h hk).symm, ?_, fun _ => rfl, rfl, h⟩
    intro e1
    rw [hk] at e1
    exact absurd e1 (by decide)
  · obtain ⟨c1, h1, h2, h3, h4, h5⟩ := remove_present h hk
    obtain ⟨a1, a2⟩ := absent_of_entries_filter h2 h4
    have hp := present_of_mem_entries h hk
    refine ⟨c1, by rw [h1, hp], a1, a2, h4, fun _ => h5, ?_, h3, h2⟩
    intro e1
    rw [hp] at e1
    exact absurd e1 (by decide)

theorem remove_key_spec_witness :
    consistent (⟨[⟨3, 3, 3⟩, ⟨2, 2, 2⟩, ⟨1, 1, 1⟩], [(3, 3), (2, 2), (1, 1)], 3⟩ :
      lru_cache Nat Nat) ∧
    ∃ c1, (⟨[⟨3, 3, 3⟩, ⟨2, 2, 2⟩, ⟨1, 1, 1⟩], [(3, 3), (2, 2), (1, 1)], 3⟩ :
        lru_cache Nat Nat).remove 2
        = some ((⟨[⟨3, 3, 3⟩, ⟨2, 2, 2⟩, ⟨1, 1, 1⟩], [(3, 3), (2, 2), (1, 1)], 3⟩ :
          lru_cache Nat Nat).exists_key 2, c1) ∧
      2 ∉ c1.keys ∧ c1.exists_key 2 = false ∧
      c1.entries = (⟨[⟨3, 3, 3⟩, ⟨2, 2, 2⟩, ⟨1, 1, 1⟩], [(3, 3), (2, 2), (1, 1)], 3⟩ :
        lru_cache Nat Nat).entries.filter (fun x => decide (x.1 ≠ 2)) ∧
      ((⟨[⟨3, 3, 3⟩, ⟨2, 2, 2⟩, ⟨1, 1, 1⟩], [(3, 3), (2, 2), (1, 1)], 3⟩ :
        lru_cache Nat Nat).exists_key 2 = true →
        c1.size + 1 = (⟨[⟨3, 3, 3⟩, ⟨2, 2, 2⟩, ⟨1, 1, 1⟩], [(3, 3), (2, 2), (1, 1)], 3⟩ :
          lru_cache Nat Nat).size) ∧
      ((⟨[⟨3, 3, 3⟩, ⟨2, 2, 2⟩, ⟨1, 1, 1⟩], [(3, 3), (2, 2), (1, 1)], 3⟩ :
        lru_cache Nat Nat).exists_key 2 = false →
        c1.size = (⟨[⟨3, 3, 3⟩, ⟨2, 2, 2⟩, ⟨1, 1, 1⟩], [(3, 3), (2, 2), (1, 1)], 3⟩ :
          lru_cache Nat Nat).size) ∧
      c1._max_size = 3 ∧ consistent c1 :=
  ⟨by decide, remove_key_spec (by decide) 2⟩

/-- Claim C18. Idempotence of remove by key: on a consistent cache, after `remove(k)` a
second `remove(k)` returns false and leaves the state of the first call. -/
theorem remove_key_idempotent {c : lru_cache Key Value} (h : consistent c) (k : Key) :
    ∃ b c1, c.remove k = some (b, c1) ∧ c1.remove k = some (false, c1) := by
  rcases absent_or_present h k with hk | ⟨v, hk⟩
  · exact ⟨false, c, remove_absent hk, remove_absent hk⟩
  · obtain ⟨c1, h1, h2, -, h4, -⟩ := remove_present h hk
    exact ⟨true, c1, h1, remove_absent (absent_of_entries_filter h2 h4).2⟩

theorem remove_key_idempotent_witness :
    consistent (⟨[⟨3, 3, 3⟩, ⟨2, 2, 2⟩, ⟨1, 1, 1⟩], [(3, 3), (2, 2), (1, 1)], 3⟩ :
      lru_cache Nat Nat) ∧
    ∃ b c1, (⟨[⟨3, 3, 3⟩, ⟨2, 2, 2⟩, ⟨1, 1, 1⟩], [(3, 3), (2, 2), (1, 1)], 3⟩ :
        lru_cache Nat Nat).remove 2 = some (b, c1) ∧ c1.remove 2 = some (false, c1) :=
  ⟨by decide, remove_key_idempotent (by decide) 2⟩

/-! ## remove by predicate -/

theorem list_next_append (pre suf : List (Node Key Value)) (x : Node Key Value)
    (hx : x.id ∉ pre.map Node.id) :
    list_next (pre ++ x :: suf) x.id = some (list_begin suf) := by
  induction pre with
  | nil => simp [list_next]
  | cons a t ih =>
    rw [List.map_cons, List.mem_cons, not_or] at hx
    have ha : a.id ≠ x.id := fun e => hx.1 e.symm
    simp [list_next, ha, ih hx.2]

theorem pop_front_append (pre suf : List (Node Key Value)) (x : Node Key Value) :
    pop_front (pre ++ x :: suf) = some ((pre ++ [x]).tail ++ suf) := by
  cases pre with
  | nil => simp [pop_front]
  | cons a t => simp [pop_front]

theorem nodup_ids_pop (pre suf : List (Node Key Value)) (x : Node Key Value)
    (h : ((pre ++ x :: suf).map Node.id).Nodup) :
    ((((pre ++ [x]).tail) ++ suf).map Node.id).Nodup := by
  have e : pre ++ x :: suf = (pre ++ [x]) ++ suf := by simp
  rw [e] at h
  exact h.sublist (((List.tail_sublist _).append_right suf).map _)

theorem list_begin_cons (x : Node Key Value) (l : List (Node Key Value)) :
    list_begin (x :: l) = some x.id := rfl

/-- The loop with the iterator as an address visits the nodes from `it` to the end one
after the other, and agrees with the loop over that part of the list. -/
theorem remove_by_pred_steps_eq (conv : Value → Key) (p : Value → Bool)
    (suf pre : List (Node Key Value)) (m : List (Key × Nat)) (n : Nat)
    (tr : List (Applied Value)) (fuel : Nat)
    (hid : ((pre ++ suf).map Node.id).Nodup) (hfuel : suf.length < fuel) :
    remove_by_pred_steps conv p fuel (list_begin suf) (pre ++ suf) m n tr
      = (remove_by_pred_loop conv p suf (pre ++ suf) m n).map
          (fun r => (r.1, r.2.1, r.2.2,
            tr ++ suf.map (fun x => Applied.remove_pred x.second))) := by
  induction suf generalizing pre m n tr fuel with
  | nil =>
    obtain ⟨f, rfl⟩ : ∃ f, fuel = f + 1 := ⟨fuel - 1, by omega⟩
    simp [remove_by_pred_steps, remove_by_pred_loop, list_begin]
  | cons x suf1 ih =>
    obtain ⟨f, rfl⟩ : ∃ f, fuel = f + 1 := ⟨fuel - 1, by omega⟩
    have hf : suf1.length < f := by simp only [List.length_cons] at hfuel; omega
    have hxpre : x.id ∉ pre.map Node.id := by
      intro hmem
      rw [List.map_append, List.nodup_append] at hid
      exact hid.2.2 hmem (by simp)
    have hderef : deref (pre ++ x :: suf1) x.id = some x :=
      deref_of_mem hid (by simp)
    have e1 : pre ++ x :: suf1 = (pre ++ [x]) ++ suf1 := by simp
    have etr : ∀ t : List (Applied Value),
        t ++ [Applied.remove_pred x.second] ++ suf1.map (fun y => Applied.remove_pred y.second)
          = t ++ (x :: suf1).map (fun y => Applied.remove_pred y.second) := by
      intro t; simp
    cases hp : p x.second with
    | true =>
      have h1 := ih ((pre ++ [x]).tail) (map_erase m (conv x.second)) (n + 1)
        (tr ++ [Applied.remove_pred x.second]) f (nodup_ids_pop pre suf1 x hid) hf
      rw [etr] at h1
      simp only [remove_by_pred_steps, remove_by_pred_loop, list_begin_cons, hderef, hp,
        if_true, list_next_append pre suf1 x hxpre, pop_front_append]
      exact h1
    | false =>
      have hid2 : (((pre ++ [x]) ++ suf1).map Node.id).Nodup := e1 ▸ hid
      have h1 := ih (pre ++ [x]) m n (tr ++ [Applied.remove_pred x.second]) f hid2 hf
      rw [etr, ← e1] at h1
      simp only [remove_by_pred_steps, remove_by_pred_loop, list_begin_cons, hderef, hp,
        list_next_append pre suf1 x hxpre, Bool.false_eq_true, if_false]
      exact h1

/-- The loop returns, and counts the visited entries whose value satisfies the
predicate. -/
theorem remove_by_pred_loop_count (conv : Value → Key) (p : Value → Bool)
    (suf pre : List (Node Key Value)) (m : List (Key × Nat)) (n : Nat) :
    ∃ l1 m1, remove_by_pred_loop conv p suf (pre ++ suf) m n
      = some (l1, m1, n + (suf.filter (fun x => p x.second)).length) := by
  induction suf generalizing pre m n with
  | nil => exact ⟨pre ++ [], m, by simp [remove_by_pred_loop]⟩
  | cons x suf1 ih =>
    have e1 : pre ++ x :: suf1 = (pre ++ [x]) ++ suf1 := by simp
    cases hp : p x.second with
    | true =>
      obtain ⟨l1, m1, h1⟩ := ih ((pre ++ [x]).tail) (map_erase m (conv x.second)) (n + 1)
      refine ⟨l1, m1, ?_⟩
      have hlen : (List.filter (fun y => p y.second) (x :: suf1)).length
          = (List.filter (fun y => p y.second) suf1).length + 1 := by
        simp [List.filter_cons, hp]
      simp only [remove_by_pred_loop, hp, if_true, pop_front_append, h1, hlen]
      congr 3
      omega
    | false =>
      obtain ⟨l1, m1, h1⟩ := ih (pre ++ [x]) m n
      refine ⟨l1, m1, ?_⟩
      have hlen : (List.filter (fun y => p y.second) (x :: suf1)).length
          = (List.filter (fun y => p y.second) suf1).length := by
        simp [List.filter_cons, hp]
      rw [← e1] at h1
      simp only [remove_by_pred_loop, hp, Bool.false_eq_true, if_false, h1, hlen]

/-- Forgetting the applications of `remove_by_pred_traced` gives `remove_by_pred`. -/
theorem remove_by_pred_traced_forget (conv : Value → Key) {c : lru_cache Key Value}
    (hid : (c._list.map Node.id).Nodup) (p : Value → Bool) :
    (remove_by_pred_traced conv c p).map (fun r => (r.1, r.2.1)) = remove_by_pred conv c p := by
  have h := remove_by_pred_steps_eq conv p c._list [] c._map 0 [] (c._list.length + 1)
    (by simpa using hid) (Nat.lt_succ_self _)
  simp only [List.nil_append] at h
  unfold remove_by_pred_traced remove_by_pred
  rw [h]
  cases remove_by_pred_loop conv p c._list c._list c._map 0 with
  | none => rfl
  | some r => rfl

/-- Claim C19, at two states of a capacity-3 cache.  With entries 3:30, 2:20, 1:10 (head
first), `remove(x == 20)` returns 1 but erases index key 20, which is no key, and pops
the front node 3:30: afterwards key 2 is still present with value 20 although its value
satisfies the predicate, the recency list has lost 3:30, whose value does not satisfy
it, and key 3 is indexed by an iterator to the destroyed node, so `get(3)` has no
defined result.  With entries 3:3, 2:2, 1:1 and `remove(x == 2)` the index loses key 2,
but the list again loses the front node 3:3 and keeps 2:2. -/
theorem remove_by_pred_removes_wrong_entries :
    (∃ c1 c2 tr, (new 3 : lru_cache Nat Nat).run [.put 1 10, .put 2 20, .put 3 30] = some c1 ∧
      consistent c1 ∧ c1.entries = [(3, 30), (2, 20), (1, 10)] ∧
      remove_by_pred_traced id c1 (fun x => decide (x = 20)) = some (1, c2, tr) ∧
      c2.exists_key 2 = true ∧
      (c2.get 2 default_update default_remove).map Prod.fst = some (20, true) ∧
      c2.entries = [(2, 20), (1, 10)] ∧ c2.size = 3 ∧
      c2.exists_key 3 = true ∧ c2.get 3 default_update default_remove = none) ∧
    (∃ c1 c2 tr, (new 3 : lru_cache Nat Nat).run [.put 1 1, .put 2 2, .put 3 3] = some c1 ∧
      consistent c1 ∧ c1.entries = [(3, 3), (2, 2), (1, 1)] ∧
      remove_by_pred_traced id c1 (fun x => decide (x = 2)) = some (1, c2, tr) ∧
      c2.exists_key 2 = false ∧ c2.entries = [(2, 2), (1, 1)] ∧ c2.size = 2 ∧
      c2.exists_key 3 = true ∧ c2.get 3 default_update default_remove = none) :=
  ⟨⟨_, _, _, rfl, by decide, by decide, rfl, by decide, by decide, by decide, by decide,
      by decide, by decide⟩,
   ⟨_, _, _, rfl, by decide, by decide, rfl, by decide, by decide, by decide, by decide,
      by decide⟩⟩

theorem entries_filter_length (c : lru_cache Key Value) (p : Value → Bool) :
    (c._list.filter (fun x => p x.second)).length
      = (c.entries.filter (fun x => p x.2)).length := by
  unfold entries
  rw [List.filter_map, List.length_map]
  rfl

/-- Claim C20. On a consistent cache `remove(p)` returns; it applies `p` exactly once to
the stored value of each entry, going through the recency list from head to tail, and
it returns the number of entries whose stored value satisfies `p`. -/
theorem remove_by_pred_evaluates_once (conv : Value → Key) {c : lru_cache Key Value}
    (h : consistent c) (p : Value → Bool) :
    ∃ c1, remove_by_pred_traced conv c p
      = some ((c.entries.filter (fun x => p x.2)).length, c1,
          c.entries.map (fun x => Applied.remove_pred x.2)) := by
  have hs := remove_by_pred_steps_eq conv p c._list [] c._map 0 [] (c._list.length + 1)
    (by simpa using h.1) (Nat.lt_succ_self _)
  obtain ⟨l1, m1, hc⟩ := remove_by_pred_loop_count conv p c._list [] c._map 0
  simp only [List.nil_append] at hs hc
  refine ⟨{ c with _list := l1, _map := m1 }, ?_⟩
  unfold remove_by_pred_traced
  rw [hs, hc]
  simp [entries, entries_filter_length, List.map_map, Function.comp]

theorem remove_by_pred_evaluates_once_witness :
    consistent (⟨[⟨3, 3, 30⟩, ⟨2, 2, 20⟩, ⟨1, 1, 10⟩], [(3, 3), (2, 2), (1, 1)], 3⟩ :
      lru_cache Nat Nat) ∧
    ∃ c1, remove_by_pred_traced id
        (⟨[⟨3, 3, 30⟩, ⟨2, 2, 20⟩, ⟨1, 1, 10⟩], [(3, 3), (2, 2), (1, 1)], 3⟩ :
          lru_cache Nat Nat) (fun x => decide (15 < x))
      = some (((⟨[⟨3, 3, 30⟩, ⟨2, 2, 20⟩, ⟨1, 1, 10⟩], [(3, 3), (2, 2), (1, 1)], 3⟩ :
            lru_cache Nat Nat).entries.filter (fun x => decide (15 < x.2))).length, c1,
          (⟨[⟨3, 3, 30⟩, ⟨2, 2, 20⟩, ⟨1, 1, 10⟩], [(3, 3), (2, 2), (1, 1)], 3⟩ :
            lru_cache Nat Nat).entries.map (fun x => Applied.remove_pred x.2)) :=
  ⟨by decide, remove_by_pred_evaluates_once id (by decide) (fun x => decide (15 < x))⟩

/-- Claim C21, at a capacity-3 cache with entries 3:30, 2:20, 1:10 (keys and values of
one type, not equal to each other).  `remove(x == 20)` returns 1 and `remove` of a
predicate that every value satisfies returns 3, but `_map.erase(value)` erases the keys
20, respectively 30, 20 and 10, which are no keys: `size()` is 3 after either call, not
3 - 1 and not 0.  With the entries 3:3, 2:2, 1:1 of the test, where each value is its
key, `remove(x < 300)` returns 3 and leaves `size() == 0`. -/
theorem remove_by_pred_size_not_reduced :
    (∃ c1 c2 c3 tr2 tr3,
      (new 3 : lru_cache Nat Nat).run [.put 1 10, .put 2 20, .put 3 30] = some c1 ∧
      consistent c1 ∧ c1.size = 3 ∧
      remove_by_pred_traced id c1 (fun x => decide (x = 20)) = some (1, c2, tr2) ∧
      c2.size = 3 ∧
      remove_by_pred_traced id c1 (fun _ => true) = some (3, c3, tr3) ∧
      c3.size = 3 ∧ c3.entries = []) ∧
    (∃ c1 c2 tr2, (new 3 : lru_cache Nat Nat).run [.put 1 1, .put 2 2, .put 3 3] = some c1 ∧
      remove_by_pred_traced id c1 (fun x => decide (x < 300)) = some (3, c2, tr2) ∧
      c2.size = 0) :=
  ⟨⟨_, _, _, _, _, rfl, by decide, by decide, rfl, by decide, rfl, by decide, by decide⟩,
   ⟨_, _, _, rfl, rfl, by decide⟩⟩

/-- Claim C22, at two consistent capacity-3 caches.  With entries 3:3, 2:2, 1:1,
`remove(x == 2)` leaves index and list of equal size 2, but the index holds keys 3 and
1 while the list holds 2:2 and 1:1: key 3 is indexed by an iterator to no linked node,
the state is not consistent, and a further `put(3, 9)` has no defined result.  With
entries 3:30, 2:20, 1:10, `remove(x == 20)` leaves three index entries and two list
entries. -/
theorem remove_by_pred_breaks_consistency :
    (∃ c1 c2 tr, (new 3 : lru_cache Nat Nat).run [.put 1 1, .put 2 2, .put 3 3] = some c1 ∧
      consistent c1 ∧ c1.size ≤ c1._max_size ∧
      remove_by_pred_traced id c1 (fun x => decide (x = 2)) = some (1, c2, tr) ∧
      ¬ consistent c2 ∧ c2.indexed = [3, 1] ∧ c2.keys = [2, 1] ∧
      map_find c2._map 3 = some 3 ∧ deref c2._list 3 = none ∧
      c2.put 3 9 = none) ∧
    (∃ c1 c2 tr, (new 3 : lru_cache Nat Nat).run [.put 1 10, .put 2 20, .put 3 30] = some c1 ∧
      consistent c1 ∧ c1.size ≤ c1._max_size ∧
      remove_by_pred_traced id c1 (fun x => decide (x = 20)) = some (1, c2, tr) ∧
      ¬ consistent c2 ∧ c2._map.length = 3 ∧ c2._list.length = 2) :=
  ⟨⟨_, _, _, rfl, by decide, by decide, rfl, by decide, by decide, by decide, by decide,
      by decide, by decide⟩,
   ⟨_, _, _, rfl, by decide, by decide, rfl, by decide, by decide, by decide⟩⟩

theorem remove_by_pred_loop_no_match (conv : Value → Key) (p : Value → Bool)
    (suf l : List (Node Key Value)) (m : List (Key × Nat)) (n : Nat)
    (hp : ∀ x ∈ suf, p x.second = false) :
    remove_by_pred_loop conv p suf l m n = some (l, m, n) := by
  induction suf with
  | nil => rfl
  | cons x suf1 ih =>
    have hx := hp x (List.mem_cons_self _ _)
    simp only [remove_by_pred_loop, hx, Bool.false_eq_true, if_false]
    exact ih (fun y hy => hp y (List.mem_cons_of_mem _ hy))

/-- Claim C23. On a consistent cache, for a predicate that no stored value satisfies,
`remove(p)` returns 0 and leaves the state as it was: entries, values, recency order,
index and `size()`.  Every stored value has been tried once. -/
theorem remove_by_pred_no_match (conv : Value → Key) {c : lru_cache Key Value}
    (h : consistent c) (p : Value → Bool) (hp : ∀ x ∈ c.entries, p x.2 = false) :
    remove_by_pred_traced conv c p
      = some (0, c, c.entries.map (fun x => Applied.remove_pred x.2)) := by
  have hs := remove_by_pred_steps_eq conv p c._list [] c._map 0 [] (c._list.length + 1)
    (by simpa using h.1) (Nat.lt_succ_self _)
  have hnode : ∀ x ∈ c._list, p x.second = false := by
    intro x hx
    exact hp (x.first, x.second) (mem_entries.2 ⟨x, hx, rfl, rfl⟩)
  simp only [List.nil_append] at hs
  unfold remove_by_pred_traced
  rw [hs, remove_by_pred_loop_no_match conv p c._list c._list c._map 0 hnode]
  simp [entries, List.map_map, Function.comp]

theorem remove_by_pred_no_match_witness :
    consistent (⟨[⟨3, 3, 3⟩, ⟨2, 2, 2⟩, ⟨1, 1, 1⟩], [(3, 3), (2, 2), (1, 1)], 3⟩ :
      lru_cache Nat Nat) ∧
    (∀ x ∈ (⟨[⟨3, 3, 3⟩, ⟨2, 2, 2⟩, ⟨1, 1, 1⟩], [(3, 3), (2, 2), (1, 1)], 3⟩ :
      lru_cache Nat Nat).entries, (fun v : Nat => decide (300 < v)) x.2 = false) ∧
    remove_by_pred_traced id
        (⟨[⟨3, 3, 3⟩, ⟨2, 2, 2⟩, ⟨1, 1, 1⟩], [(3, 3), (2, 2), (1, 1)], 3⟩ : lru_cache Nat Nat)
        (fun v => decide (300 < v))
      = some (0, (⟨[⟨3, 3, 3⟩, ⟨2, 2, 2⟩, ⟨1, 1, 1⟩], [(3, 3), (2, 2), (1, 1)], 3⟩ :
            lru_cache Nat Nat),
          (⟨[⟨3, 3, 3⟩, ⟨2, 2, 2⟩, ⟨1, 1, 1⟩], [(3, 3), (2, 2), (1, 1)], 3⟩ :
            lru_cache Nat Nat).entries.map (fun x => Applied.remove_pred x.2)) :=
  ⟨by decide, by decide,
    remove_by_pred_no_match id (by decide) (fun v => decide (300 < v)) (by decide)⟩

/-! ## Construction, and operations that cannot fail -/

/-- Claim C24 fails on the code: the constructor makes no check.  `lru_cache(0)` is
constructed like any other cache, and its first `put` takes the eviction branch and
reads the last element of an empty list. -/
theorem capacity_zero_accepted :
    (new 0 : lru_cache Nat Nat) = ⟨[], [], 0⟩ ∧
    (new 0 : lru_cache Nat Nat).size = 0 ∧
    (new 0 : lru_cache Nat Nat).put 1 1 = none := by
  refine ⟨rfl, rfl, rfl⟩

/-- Claim C24 as amended. The constructor accepts every capacity, 0 included, and
signals no failure: it yields a consistent empty cache of that capacity, with
`size() == 0` and no key present, on which `get` and `remove(key)` report absence. -/
theorem new_accepts_every_capacity (cap : Nat) (k : Key) (u : Value → Value)
    (e : Value → Bool) :
    consistent (new cap : lru_cache Key Value) ∧
    (new cap : lru_cache Key Value)._max_size = cap ∧
    (new cap : lru_cache Key Value).size = 0 ∧
    (new cap : lru_cache Key Value).entries = [] ∧
    (new cap : lru_cache Key Value).exists_key k = false ∧
    (new cap : lru_cache Key Value).get k u e = some ((default, false), new cap) ∧
    (new cap : lru_cache Key Value).remove k = some (false, new cap) :=
  ⟨consistent_new cap, rfl, rfl, rfl, rfl, rfl, rfl⟩

/-- Claim C25. In every state reached from a new cache of capacity `cap >= 1` by `put`,
`get`, `exists` and `remove(key)` calls: the recency list is not empty whenever `put`
takes its eviction branch, every iterator held by the index can be dereferenced and
spliced, the list spliced to the end can be popped, and so `put`, `get`, `exists` with
callbacks and `remove(key)` all return. -/
theorem put_always_succeeds (cap : Nat) (hcap : 1 ≤ cap) (calls : List (Call Key Value)) :
    ∃ c, (new cap : lru_cache Key Value).run calls = some c ∧
      (c._map.length + 1 > c._max_size → c._list ≠ [] ∧ (pop_back c._list).isSome) ∧
      (∀ k it, map_find c._map k = some it →
        ∃ n l, deref c._list it = some n ∧ (splice_begin c._list it).isSome ∧
          splice_end c._list it = some l ∧ (pop_back l).isSome) ∧
      (∀ k v, ∃ c1, c.put k v = some c1) ∧
      (∀ k u e, ∃ r, c.get k u e = some r) ∧
      (∀ k u e, ∃ r, c.exists_pred k u e = some r) ∧
      (∀ k, ∃ r, c.remove k = some r) := by
  obtain ⟨c, h1, h2, h3, h4⟩ :=
    run_consistent (consistent_new cap) (c := (new cap : lru_cache Key Value)) hcap
      (by simp [new, size]) calls
  have hcap1 : 1 ≤ c._max_size := by rw [h3]; exact hcap
  have hl := linked_of_consistent h2
  refine ⟨c, h1, ?_, ?_, ?_, ?_, ?_, ?_⟩
  · intro hover
    have hne : c._list ≠ [] := by
      intro e0
      have h0 : c._map.length = ([] : List (Node Key Value)).length := e0 ▸ hl.length_eq
      rw [List.length_nil] at h0
      omega
    refine ⟨hne, ?_⟩
    obtain ⟨a, t, hat⟩ := List.exists_cons_of_ne_nil hne
    rw [hat]
    rfl
  · intro k it hfind
    obtain ⟨n, hn, hid, -⟩ := hl.index_to_list _ (mem_of_map_find hfind)
    subst hid
    refine ⟨n, c._list.filter (fun m => decide (m.id ≠ n.id)) ++ [n],
      deref_of_mem hl.ids hn, ?_, ?_, ?_⟩
    · simp [splice_begin, unlink_of_mem hl.ids hn]
    · simp only [splice_end, unlink_of_mem hl.ids hn]
    · simp [pop_back_concat]
  · intro k v
    obtain ⟨c1, g1, -⟩ := step_consistent h2 hcap1 h4 (Call.put k v)
    exact ⟨c1, g1⟩
  · intro k u e
    obtain ⟨c1, g1, -⟩ := step_consistent h2 hcap1 h4 (Call.get k u e)
    cases hg : c.get k u e with
    | none => simp [step, hg] at g1
    | some r => exact ⟨r, rfl⟩
  · intro k u e
    obtain ⟨c1, g1, -⟩ := step_consistent h2 hcap1 h4 (Call.exists_pred k u e)
    cases hg : c.exists_pred k u e with
    | none => simp [step, hg] at g1
    | some r => exact ⟨r, rfl⟩
  · intro k
    obtain ⟨c1, g1, -⟩ := step_consistent h2 hcap1 h4 (Call.remove k)
    cases hg : c.remove k with
    | none => simp [step, hg] at g1
    | some r => exact ⟨r, rfl⟩

theorem put_always_succeeds_witness :
    1 ≤ 1 ∧ ∃ c, (new 1 : lru_cache Nat Nat).run
        [.put 1 10, .get 1 (fun v => v + 1) (fun _ => true), .put 2 20, .put 3 30,
         .remove 3, .exists_pred 3 (fun v => v) (fun _ => true), .put 4 40] = some c ∧
      (c._map.length + 1 > c._max_size → c._list ≠ [] ∧ (pop_back c._list).isSome) ∧
      (∀ k it, map_find c._map k = some it →
        ∃ n l, deref c._list it = some n ∧ (splice_begin c._list it).isSome ∧
          splice_end c._list it = some l ∧ (pop_back l).isSome) ∧
      (∀ k v, ∃ c1, c.put k v = some c1) ∧
      (∀ k u e, ∃ r, c.get k u e = some r) ∧
      (∀ k u e, ∃ r, c.exists_pred k u e = some r) ∧
      (∀ k, ∃ r, c.remove k = some r) :=
  ⟨by decide, put_always_succeeds 1 (by decide) _⟩

/-! ## Callbacks that throw -/

theorem assign_second_self {l : List (Node Key Value)} {it : Nat} {n : Node Key Value}
    (h : deref l it = some n) : assign_second l it n.second = some l := by
  induction l with
  | nil => simp [deref] at h
  | cons a t ih =>
    by_cases ha : a.id = it
    · have : a = n := by simpa [deref, List.find?_cons, ha] using h
      subst this
      subst ha
      simp [assign_second]
    · have h1 : deref t it = some n := by
        simpa [deref, List.find?_cons, ha] using h
      simp [assign_second, ha, ih h1]

theorem deref_assign_second {l l0 : List (Node Key Value)} {it : Nat} {n : Node Key Value}
    (w : Value) (h : deref l it = some n) (h0 : assign_second l it w = some l0) :
    deref l0 it = some { n with second := w } := by
  induction l generalizing l0 with
  | nil => simp [deref] at h
  | cons a t ih =>
    by_cases ha : a.id = it
    · have : a = n := by simpa [deref, List.find?_cons, ha] using h
      subst this
      simp only [assign_second, ha, if_true, Option.some.injEq] at h0
      subst h0
      simp [deref, List.find?_cons, ha]
    · have h1 : deref t it = some n := by
        simpa [deref, List.find?_cons, ha] using h
      simp only [assign_second, ha, if_false] at h0
      cases ht : assign_second t it w with
      | none => simp [ht] at h0
      | some r =>
        simp only [ht, Option.some.injEq] at h0
        subst h0
        simpa [deref, List.find?_cons, ha] using ih h1 ht

/-- With callbacks that do not throw, and an evict predicate that leaves the value as it
is, `get_throwing` is `get`. -/
theorem get_throwing_pure {X : Type} (c : lru_cache Key Value) (k : Key) (u : Value → Value)
    (e : Value → Bool) :
    c.get_throwing (X := X) k (fun v => (u v, .ok ())) (fun v => (v, .ok (e v)))
      = (c.get k u e).map (fun r => (.ok r.1, r.2)) := by
  unfold get_throwing get
  cases map_find c._map k with
  | none => rfl
  | some found =>
    simp only
    cases hd : deref c._list found with
    | none => rfl
    | some n =>
      simp only [assign_second_self hd]
      cases he : e n.second with
      | true =>
        simp only [if_true]
        cases erase_found c k found <;> rfl
      | false =>
        simp only [Bool.false_eq_true, if_false]
        cases assign_second c._list found (u n.second) with
        | none => rfl
        | some l =>
          simp only
          cases splice_begin l found <;> rfl

/-- With callbacks that do not throw, and an evict predicate that leaves the value as it
is, `exists_pred_throwing` is `exists_pred`. -/
theorem exists_pred_throwing_pure {X : Type} (c : lru_cache Key Value) (k : Key)
    (u : Value → Value) (e : Value → Bool) :
    c.exists_pred_throwing (X := X) k (fun v => (u v, .ok ())) (fun v => (v, .ok (e v)))
      = (c.exists_pred k u e).map (fun r => (.ok r.1, r.2)) := by
  unfold exists_pred_throwing exists_pred
  cases map_find c._map k with
  | none => rfl
  | some found =>
    simp only
    cases hd : deref c._list found with
    | none => rfl
    | some n =>
      simp only [assign_second_self hd]
      cases he : e n.second with
      | true =>
        simp only [if_true]
        cases erase_found c k found <;> rfl
      | false =>
        simp only [Bool.false_eq_true, if_false]
        cases assign_second c._list found (u n.second) <;> rfl

/-- Writing through the iterator of a linked node changes that node's value and nothing
else: addresses, keys and their order stay, and the index still describes the list. -/
theorem assign_linked {l : List (Node Key Value)} {m : List (Key × Nat)} (h : linked l m)
    {n : Node Key Value} (hn : n ∈ l) (w : Value) :
    ∃ l1, assign_second l n.id w = some l1 ∧ linked l1 m ∧
      l1.map Node.first = l.map Node.first ∧
      ({ n with second := w } : Node Key Value) ∈ l1 := by
  let g : Node Key Value → Node Key Value :=
    fun a => if a.id = n.id then { a with second := w } else a
  have hgid : ∀ a, (g a).id = a.id := by
    intro a; simp only [g]; split <;> rfl
  have hgfirst : ∀ a, (g a).first = a.first := by
    intro a; simp only [g]; split <;> rfl
  refine ⟨l.map g, assign_second_of_mem w h.ids hn, h.update g hgid hgfirst, ?_, ?_⟩
  · rw [List.map_map]
    exact List.map_congr_left (fun a _ => hgfirst a)
  · have hgn : g n = { n with second := w } := by simp [g]
    exact hgn ▸ List.mem_map_of_mem g hn

/-- Claim C26. Callback failure is atomic for the structure: on a consistent cache, `get`
and `exists` with callbacks return or propagate an exception.  When the evict
predicate throws on the stored value, or returns false and the update throws, that
exception reaches the caller; and whenever an exception reaches the caller, the keys of
the recency list in their order, the index, `size()` and the capacity are as before the
call and the cache is consistent. -/
theorem callback_failure_atomic {X : Type} {c : lru_cache Key Value} (h : consistent c)
    (k : Key) (u : Value → Value × Except X Unit) (e : Value → Value × Except X Bool) :
    ∃ r c1 r2 c2, c.get_throwing k u e = some (r, c1) ∧
      c.exists_pred_throwing k u e = some (r2, c2) ∧
      (∀ v ex, (k, v) ∈ c.entries → (e v).2 = .error ex → r = .error ex ∧ r2 = .error ex) ∧
      (∀ v ex, (k, v) ∈ c.entries → (e v).2 = .ok false → (u (e v).1).2 = .error ex →
        r = .error ex ∧ r2 = .error ex) ∧
      (∀ ex, r = .error ex → c1.keys = c.keys ∧ c1._map = c._map ∧ c1.size = c.size ∧
        c1._max_size = c._max_size ∧ consistent c1) ∧
      (∀ ex, r2 = .error ex → c2.keys = c.keys ∧ c2._map = c._map ∧ c2.size = c.size ∧
        c2._max_size = c._max_size ∧ consistent c2) := by
  have hl := linked_of_consistent h
  rcases absent_or_present h k with hk | ⟨v, hk⟩
  · have hfind : map_find c._map k = none := by simpa [exists_key] using hk
    refine ⟨.ok (default, false), c, .ok false, c, by simp only [get_throwing, hfind],
      by simp only [exists_pred_throwing, hfind], ?_, ?_, ?_, ?_⟩
    · intro w ex hw _
      have := present_of_mem_entries h hw
      rw [hk] at this
      exact absurd this (by decide)
    · intro w ex hw _ _
      have := present_of_mem_entries h hw
      rw [hk] at this
      exact absurd this (by decide)
    · intro ex hr
      cases hr
    · intro ex hr
      cases hr
  · obtain ⟨n, hn, hnk, hnv⟩ := mem_entries.1 hk
    subst hnk
    subst hnv
    have huniq : ∀ w, (n.first, w) ∈ c.entries → w = n.second :=
      fun w hw => entries_value_unique h hw hk
    obtain ⟨l0, ha0, hl0, hk0, hn0⟩ := assign_linked hl hn (e n.second).1
    have hstate : ∀ l1 : List (Node Key Value), linked l1 c._map →
        l1.map Node.first = c._list.map Node.first →
        ({ c with _list := l1 } : lru_cache Key Value).keys = c.keys ∧
        ({ c with _list := l1 } : lru_cache Key Value)._map = c._map ∧
        ({ c with _list := l1 } : lru_cache Key Value).size = c.size ∧
        ({ c with _list := l1 } : lru_cache Key Value)._max_size = c._max_size ∧
        consistent ({ c with _list := l1 } : lru_cache Key Value) :=
      fun l1 hlk hkeys => ⟨hkeys, rfl, rfl, rfl, consistent_of_linked hlk⟩
    cases hr : (e n.second).2 with
    | error ex0 =>
      refine ⟨.error ex0, { c with _list := l0 }, .error ex0, { c with _list := l0 },
        by simp only [get_throwing, map_find_node hl hn, deref_of_mem hl.ids hn, ha0, hr],
        by simp only [exists_pred_throwing, map_find_node hl hn, deref_of_mem hl.ids hn, ha0,
          hr], ?_, ?_, fun _ _ => hstate l0 hl0 hk0, fun _ _ => hstate l0 hl0 hk0⟩
      · intro w ex hw hew
        rw [huniq w hw, hr] at hew
        cases hew
        exact ⟨rfl, rfl⟩
      · intro w ex hw hew _
        rw [huniq w hw, hr] at hew
        cases hew
    | ok b =>
      cases b with
      | true =>
        have hlc : linked ({ c with _list := l0 } : lru_cache Key Value)._list
            ({ c with _list := l0 } : lru_cache Key Value)._map := hl0
        have her0 : ∃ c1, erase_found ({ c with _list := l0 } : lru_cache Key Value)
            n.first n.id = some c1 :=
          ⟨_, erase_found_of_mem hlc (n := { n with second := (e n.second).1 }) hn0 n.first⟩
        obtain ⟨c1, her⟩ := her0
        refine ⟨.ok (default, false), c1, .ok false, c1,
          by simp only [get_throwing, map_find_node hl hn, deref_of_mem hl.ids hn, ha0, hr,
            her],
          by simp only [exists_pred_throwing, map_find_node hl hn, deref_of_mem hl.ids hn,
            ha0, hr, her], ?_, ?_, ?_, ?_⟩
        · intro w ex hw hew
          rw [huniq w hw, hr] at hew
          cases hew
        · intro w ex hw hew _
          rw [huniq w hw, hr] at hew
          cases hew
        · intro ex hx
          cases hx
        · intro ex hx
          cases hx
      | false =>
        obtain ⟨l2, ha2, hl2, hk2, hn2⟩ :=
          assign_linked hl0 (n := { n with second := (e n.second).1 }) hn0
            (u (e n.second).1).1
        have ha2' : assign_second l0 n.id (u (e n.second).1).1 = some l2 := ha2
        cases hu : (u (e n.second).1).2 with
        | error ex0 =>
          refine ⟨.error ex0, { c with _list := l2 }, .error ex0, { c with _list := l2 },
            by simp only [get_throwing, map_find_node hl hn, deref_of_mem hl.ids hn, ha0, hr,
              ha2', hu],
            by simp only [exists_pred_throwing, map_find_node hl hn, deref_of_mem hl.ids hn,
              ha0, hr, ha2', hu], ?_, ?_,
            fun _ _ => hstate l2 hl2 (hk2.trans hk0),
            fun _ _ => hstate l2 hl2 (hk2.trans hk0)⟩
          · intro w ex hw hew
            rw [huniq w hw, hr] at hew
            cases hew
          · intro w ex hw _ huw
            rw [huniq w hw, hu] at huw
            cases huw
            exact ⟨rfl, rfl⟩
        | ok x =>
          have hsp := unlink_of_mem hl2.ids hn2
          have hsp' : splice_begin l2 n.id = some
              ({ n with second := (u (e n.second).1).1 } ::
                l2.filter (fun a => decide (a.id ≠ n.id))) := by
            simp only [splice_begin]
            rw [hsp]
          obtain ⟨l3, hsp3⟩ : ∃ l3, splice_begin l2 n.id = some l3 := ⟨_, hsp'⟩
          refine ⟨.ok ((u (e n.second).1).1, true), { c with _list := l3 }, .ok true,
            { c with _list := l2 },
            by simp only [get_throwing, map_find_node hl hn, deref_of_mem hl.ids hn, ha0, hr,
              ha2', hu, hsp3],
            by simp only [exists_pred_throwing, map_find_node hl hn, deref_of_mem hl.ids hn,
              ha0, hr, ha2', hu], ?_, ?_, ?_, ?_⟩
          · intro w ex hw hew
            rw [huniq w hw, hr] at hew
            cases hew
          · intro w ex hw _ huw
            rw [huniq w hw, hu] at huw
            cases huw
          · intro ex hx
            cases hx
          · intro ex hx
            cases hx

theorem callback_failure_atomic_witness :
    consistent (⟨[⟨2, 7, 70⟩, ⟨1, 5, 50⟩], [(7, 2), (5, 1)], 2⟩ : lru_cache Nat Nat) ∧
    ∃ r c1 r2 c2,
      (⟨[⟨2, 7, 70⟩, ⟨1, 5, 50⟩], [(7, 2), (5, 1)], 2⟩ : lru_cache Nat Nat).get_throwing 5
        (fun v => (v + 1, (Except.error 13 : Except Nat Unit)))
        (fun v => (v, (Except.ok false : Except Nat Bool))) = some (r, c1) ∧
      (⟨[⟨2, 7, 70⟩, ⟨1, 5, 50⟩], [(7, 2), (5, 1)], 2⟩ : lru_cache Nat Nat).exists_pred_throwing 5
        (fun v => (v + 1, (Except.error 13 : Except Nat Unit)))
        (fun v => (v, (Except.ok false : Except Nat Bool))) = some (r2, c2) ∧
      (∀ v ex, (5, v) ∈ (⟨[⟨2, 7, 70⟩, ⟨1, 5, 50⟩], [(7, 2), (5, 1)], 2⟩ :
          lru_cache Nat Nat).entries →
        ((fun v : Nat => (v, (Except.ok false : Except Nat Bool))) v).2 = .error ex →
        r = .error ex ∧ r2 = .error ex) ∧
      (∀ v ex, (5, v) ∈ (⟨[⟨2, 7, 70⟩, ⟨1, 5, 50⟩], [(7, 2), (5, 1)], 2⟩ :
          lru_cache Nat Nat).entries →
        ((fun v : Nat => (v, (Except.ok false : Except Nat Bool))) v).2 = .ok false →
        ((fun v : Nat => (v + 1, (Except.error 13 : Except Nat Unit)))
          ((fun v : Nat => (v, (Except.ok false : Except Nat Bool))) v).1).2 = .error ex →
        r = .error ex ∧ r2 = .error ex) ∧
      (∀ ex, r = .error ex →
        c1.keys = (⟨[⟨2, 7, 70⟩, ⟨1, 5, 50⟩], [(7, 2), (5, 1)], 2⟩ : lru_cache Nat Nat).keys ∧
        c1._map = (⟨[⟨2, 7, 70⟩, ⟨1, 5, 50⟩], [(7, 2), (5, 1)], 2⟩ : lru_cache Nat Nat)._map ∧
        c1.size = (⟨[⟨2, 7, 70⟩, ⟨1, 5, 50⟩], [(7, 2), (5, 1)], 2⟩ : lru_cache Nat Nat).size ∧
        c1._max_size = 2 ∧ consistent c1) ∧
      (∀ ex, r2 = .error ex →
        c2.keys = (⟨[⟨2, 7, 70⟩, ⟨1, 5, 50⟩], [(7, 2), (5, 1)], 2⟩ : lru_cache Nat Nat).keys ∧
        c2._map = (⟨[⟨2, 7, 70⟩, ⟨1, 5, 50⟩], [(7, 2), (5, 1)], 2⟩ : lru_cache Nat Nat)._map ∧
        c2.size = (⟨[⟨2, 7, 70⟩, ⟨1, 5, 50⟩], [(7, 2), (5, 1)], 2⟩ : lru_cache Nat Nat).size ∧
        c2._max_size = 2 ∧ consistent c2) :=
  ⟨by decide,
    callback_failure_atomic (by decide) 5
      (fun v => (v + 1, (Except.error 13 : Except Nat Unit)))
      (fun v => (v, (Except.ok false : Except Nat Bool)))⟩

end lru_cache

end ext.util

/-! ## merge_maps and count_occurrences -/

namespace ext.algorithm

variable {K V : Type} [DecidableEq K]

theorem find_assign (m : List (K × V)) (k : K) (v : V) (a : K) :
    find (assign m k v) a = if a = k then some v else find m a := by
  induction m with
  | nil =>
    by_cases e : a = k
    · simp [assign, find, e]
    · have e1 : ¬ k = a := fun x => e x.symm
      simp [assign, find, e, e1]
  | cons p rest ih =>
    obtain ⟨k1, v1⟩ := p
    by_cases h1 : k1 = k
    · subst h1
      by_cases e : a = k1
      · simp [assign, find, e]
      · have e1 : ¬ k1 = a := fun x => e x.symm
        simp [assign, find, e, e1]
    · by_cases e : a = k
      · subst e
        simp [assign, find, h1, ih]
      · by_cases e2 : k1 = a
        · subst e2
          simp [assign, find, h1]
        · simp [assign, find, h1, e2, ih, e]

theorem find_eq_none {m : List (K × V)} {a : K} : find m a = none ↔ a ∉ m.map Prod.fst := by
  induction m with
  | nil => simp [find]
  | cons p rest ih =>
    obtain ⟨k1, v1⟩ := p
    by_cases e : k1 = a
    · simp [find, e]
    · have e1 : ¬ a = k1 := fun x => e x.symm
      simp [find, e, e1, ih]

theorem find_isSome {m : List (K × V)} {a : K} :
    (find m a).isSome = true ↔ a ∈ m.map Prod.fst := by
  rw [Option.isSome_iff_ne_none, Ne, find_eq_none, not_not]

theorem keys_assign (m : List (K × V)) (k : K) (v : V) :
    (assign m k v).map Prod.fst
      = if k ∈ m.map Prod.fst then m.map Prod.fst else m.map Prod.fst ++ [k] := by
  induction m with
  | nil => simp [assign]
  | cons p rest ih =>
    obtain ⟨k1, v1⟩ := p
    by_cases h1 : k1 = k
    · simp [assign, h1]
    · have h2 : ¬ k = k1 := fun x => h1 x.symm
      simp only [assign, h1, if_false, List.map_cons, ih, List.mem_cons, h2, false_or]
      split <;> simp

theorem nodup_keys_assign {m : List (K × V)} (h : (m.map Prod.fst).Nodup) (k : K) (v : V) :
    ((assign m k v).map Prod.fst).Nodup := by
  rw [keys_assign]
  split
  · exact h
  · rename_i hk
    rw [List.nodup_append]
    refine ⟨h, by simp, ?_⟩
    intro a ha hb
    have : a = k := by simpa using hb
    exact hk (this ▸ ha)

theorem merge_maps_find (result input : List (K × V)) (predicate : V → V → Bool)
    (hin : (input.map Prod.fst).Nodup) :
    (∀ k, find (merge_maps result input predicate) k =
      match find input k with
      | none => find result k
      | some vin =>
        match find result k with
        | none => some vin
        | some vold => if predicate vold vin then some vin else some vold) ∧
    (∀ k, k ∈ (merge_maps result input predicate).map Prod.fst ↔
      k ∈ result.map Prod.fst ∨ k ∈ input.map Prod.fst) ∧
    ((result.map Prod.fst).Nodup → ((merge_maps result input predicate).map Prod.fst).Nodup) := by
  have main : ∀ (input result : List (K × V)), (input.map Prod.fst).Nodup →
      (∀ k, find (merge_maps result input predicate) k =
        match find input k with
        | none => find result k
        | some vin =>
          match find result k with
          | none => some vin
          | some vold => if predicate vold vin then some vin else some vold) ∧
      ((result.map Prod.fst).Nodup →
        ((merge_maps result input predicate).map Prod.fst).Nodup) := by
    intro input
    induction input with
    | nil =>
      intro result _
      exact ⟨fun k => by simp [merge_maps, find], fun h => by simpa [merge_maps] using h⟩
    | cons it rest ih =>
      intro result hnd
      obtain ⟨ki, vi⟩ := it
      rw [List.map_cons, List.nodup_cons] at hnd
      have hrest : find rest ki = none := find_eq_none.2 hnd.1
      have step : ∀ result1 : List (K × V),
          (∀ a, find result1 a = if a = ki then
              (match find result ki with
                | none => some vi
                | some vold => if predicate vold vi then some vi else some vold)
            else find result a) →
          ∀ k, find (merge_maps result1 rest predicate) k =
            match find ((ki, vi) :: rest) k with
            | none => find result k
            | some vin =>
              match find result k with
              | none => some vin
              | some vold => if predicate vold vin then some vin else some vold := by
        intro result1 h1 k
        rw [(ih result1 hnd.2).1 k]
        by_cases e : k = ki
        · subst e
          simp only [hrest, find, if_true, h1]
        · have e1 : ¬ ki = k := fun x => e x.symm
          simp only [find, e1, if_false, h1, e]
      cases hf : find result ki with
      | none =>
        have hm : merge_maps result ((ki, vi) :: rest) predicate
            = merge_maps (assign result ki vi) rest predicate := by
          simp only [merge_maps, hf]
        rw [hm]
        refine ⟨step _ (fun a => by rw [find_assign, hf]), fun h => ?_⟩
        exact (ih _ hnd.2).2 (nodup_keys_assign h ki vi)
      | some vold =>
        cases hp : predicate vold vi with
        | true =>
          have hm : merge_maps result ((ki, vi) :: rest) predicate
              = merge_maps (assign result ki vi) rest predicate := by
            simp only [merge_maps, hf, hp, if_true]
          rw [hm]
          refine ⟨step _ (fun a => by rw [find_assign, hf]; simp [hp]), fun h => ?_⟩
          exact (ih _ hnd.2).2 (nodup_keys_assign h ki vi)
        | false =>
          have hm : merge_maps result ((ki, vi) :: rest) predicate
              = merge_maps result rest predicate := by
            simp only [merge_maps, hf, hp, Bool.false_eq_true, if_false]
          rw [hm]
          refine ⟨step _ (fun a => ?_), fun h => (ih _ hnd.2).2 h⟩
          by_cases e : a = ki
          · subst e
            simp [hf, hp]
          · simp [e]
  obtain ⟨h1, h2⟩ := main input result hin
  refine ⟨h1, ?_, h2⟩
  intro k
  rw [← find_isSome, ← find_isSome, ← find_isSome, h1 k]
  cases find input k with
  | none => simp
  | some vin =>
    cases find result k with
    | none => simp
    | some vold =>
      simp only [Option.isSome_some, or_self, iff_true]
      split <;> rfl

/-- Claim C28. After `merge_maps(result, in, predicate)`, for maps with unique keys: a
key of `in` is mapped to the value of `in` when it was absent from `result` or when
`predicate(old value, value of in)` holds, and keeps its old value otherwise; a key
that is not in `in` keeps what it had; so the keys of `result` are the keys of both
maps, and they stay unique. -/
theorem merge_maps_spec (result input : List (K × V)) (predicate : V → V → Bool)
    (hin : (input.map Prod.fst).Nodup) :
    (∀ k vin, find input k = some vin → find result k = none →
      find (merge_maps result input predicate) k = some vin) ∧
    (∀ k vin vold, find input k = some vin → find result k = some vold →
      find (merge_maps result input predicate) k
        = some (if predicate vold vin then vin else vold)) ∧
    (∀ k, find input k = none →
      find (merge_maps result input predicate) k = find result k) ∧
    (∀ k, k ∈ (merge_maps result input predicate).map Prod.fst ↔
      k ∈ result.map Prod.fst ∨ k ∈ input.map Prod.fst) ∧
    ((result.map Prod.fst).Nodup → ((merge_maps result input predicate).map Prod.fst).Nodup) := by
  obtain ⟨h1, h2, h3⟩ := merge_maps_find result input predicate hin
  refine ⟨?_, ?_, ?_, h2, h3⟩
  · intro k vin hi hr
    rw [h1 k, hi, hr]
  · intro k vin vold hi hr
    rw [h1 k, hi, hr]
    simp only
    split <;> rfl
  · intro k hi
    rw [h1 k, hi]

theorem merge_maps_spec_witness :
    (([(2, 25), (3, 5), (4, 40)] : List (Nat × Nat)).map Prod.fst).Nodup ∧
    (∀ k vin, find ([(2, 25), (3, 5), (4, 40)] : List (Nat × Nat)) k = some vin →
      find ([(1, 10), (2, 20), (3, 30)] : List (Nat × Nat)) k = none →
      find (merge_maps [(1, 10), (2, 20), (3, 30)] [(2, 25), (3, 5), (4, 40)]
        (fun a b : Nat => decide (a < b))) k = some vin) ∧
    (∀ k vin vold, find ([(2, 25), (3, 5), (4, 40)] : List (Nat × Nat)) k = some vin →
      find ([(1, 10), (2, 20), (3, 30)] : List (Nat × Nat)) k = some vold →
      find (merge_maps [(1, 10), (2, 20), (3, 30)] [(2, 25), (3, 5), (4, 40)]
        (fun a b : Nat => decide (a < b))) k
        = some (if (fun a b : Nat => decide (a < b)) vold vin then vin else vold)) ∧
    (∀ k, find ([(2, 25), (3, 5), (4, 40)] : List (Nat × Nat)) k = none →
      find (merge_maps [(1, 10), (2, 20), (3, 30)] [(2, 25), (3, 5), (4, 40)]
        (fun a b : Nat => decide (a < b))) k
        = find ([(1, 10), (2, 20), (3, 30)] : List (Nat × Nat)) k) ∧
    (∀ k, k ∈ (merge_maps [(1, 10), (2, 20), (3, 30)] [(2, 25), (3, 5), (4, 40)]
        (fun a b : Nat => decide (a < b))).map Prod.fst ↔
      k ∈ ([(1, 10), (2, 20), (3, 30)] : List (Nat × Nat)).map Prod.fst ∨
        k ∈ ([(2, 25), (3, 5), (4, 40)] : List (Nat × Nat)).map Prod.fst) ∧
    ((([(1, 10), (2, 20), (3, 30)] : List (Nat × Nat)).map Prod.fst).Nodup →
      ((merge_maps [(1, 10), (2, 20), (3, 30)] [(2, 25), (3, 5), (4, 40)]
        (fun a b : Nat => decide (a < b))).map Prod.fst).Nodup) :=
  ⟨by decide,
    merge_maps_spec [(1, 10), (2, 20), (3, 30)] [(2, 25), (3, 5), (4, 40)]
      (fun a b : Nat => decide (a < b)) (by decide)⟩

theorem increment_of_lt (t : IntType) {x : Nat} (h : x < t.max_value) :
    t.increment x = some (x + 1) := by
  unfold IntType.max_value at h
  unfold IntType.increment
  cases hs : t.is_signed with
  | true =>
    simp only [hs, if_true] at h
    have h1 : x + 1 < 2 ^ (t.bits - 1) := by omega
    by_cases hw : int.bits ≤ t.bits
    · simp [hw, h1]
    · have h2 : 2 ^ (t.bits - 1) ≤ 2 ^ t.bits :=
        Nat.pow_le_pow_right (by norm_num) (Nat.sub_le _ _)
      have h3 : x + 1 < 2 ^ t.bits := by omega
      simp [hw, Nat.mod_eq_of_lt h3]
  | false =>
    simp only [hs, Bool.false_eq_true, if_false] at h
    have : x + 1 < 2 ^ t.bits := by omega
    simp [Nat.mod_eq_of_lt this]

theorem sum_assign (m : List (K × Nat)) (k : K) (v : Nat) :
    ((assign m k v).map Prod.snd).sum + (find m k).getD 0 = (m.map Prod.snd).sum + v := by
  induction m with
  | nil => simp [assign, find]
  | cons p rest ih =>
    obtain ⟨k1, v1⟩ := p
    by_cases h1 : k1 = k
    · simp [assign, find, h1]
      omega
    · simp only [assign, find, h1, if_false, List.map_cons, List.sum_cons]
      omega

/-- The loop of `count_occurrences` while no counter overflows: every element adds one
to its counter. -/
theorem count_loop_spec (t : IntType) (xs : List K) (acc : List (K × Nat))
    (hacc : (acc.map Prod.fst).Nodup)
    (hfit : ∀ x ∈ xs, (find acc x).getD 0 + xs.count x ≤ t.max_value) :
    ∃ m, count_loop t xs acc = some m ∧ (m.map Prod.fst).Nodup ∧
      (∀ x, find m x
        = if x ∈ xs then some ((find acc x).getD 0 + xs.count x) else find acc x) ∧
      (m.map Prod.snd).sum = (acc.map Prod.snd).sum + xs.length := by
  induction xs generalizing acc with
  | nil => exact ⟨acc, rfl, hacc, fun x => by simp, by simp⟩
  | cons a rest ih =>
    have ha := hfit a (List.mem_cons_self _ _)
    rw [List.count_cons_self] at ha
    have hinc : t.increment ((find acc a).getD 0) = some ((find acc a).getD 0 + 1) :=
      increment_of_lt t (by omega)
    have hfit1 : ∀ x ∈ rest, (find (assign acc a ((find acc a).getD 0 + 1)) x).getD 0
        + rest.count x ≤ t.max_value := by
      intro x hx
      rw [find_assign]
      by_cases e : x = a
      · subst e
        simp only [if_true, Option.getD_some]
        omega
      · have := hfit x (List.mem_cons_of_mem _ hx)
        rw [List.count_cons_of_ne e] at this
        simpa [e] using this
    obtain ⟨m, h1, h2, h3, h4⟩ := ih _ (nodup_keys_assign hacc a _) hfit1
    refine ⟨m, by simp only [count_loop, hinc, h1], h2, ?_, ?_⟩
    · intro x
      rw [h3 x, find_assign]
      by_cases e : x = a
      · subst e
        simp only [List.mem_cons, true_or, if_true, Option.getD_some, List.count_cons_self]
        by_cases hx : x ∈ rest
        · simp only [hx, if_true]
          congr 1
          omega
        · simp only [hx, if_false, List.count_eq_zero_of_not_mem hx]
      · simp only [e, if_false, List.mem_cons, false_or, List.count_cons_of_ne e]
    · have hs := sum_assign acc a ((find acc a).getD 0 + 1)
      rw [h4, List.length_cons]
      omega

theorem count_loop_replicate_signed (t : IntType) (hs : t.is_signed = true)
    (hw : int.bits ≤ t.bits) (a : K) (n c : Nat) (hc : c < 2 ^ (t.bits - 1)) :
    count_loop t (List.replicate n a) [(a, c)]
      = if c + n < 2 ^ (t.bits - 1) then some [(a, c + n)] else none := by
  induction n generalizing c with
  | zero => simp [count_loop, hc]
  | succ n ih =>
    by_cases h1 : c + 1 < 2 ^ (t.bits - 1)
    · have hi : t.increment c = some (c + 1) := by
        simp [IntType.increment, hs, hw, h1]
      simp only [List.replicate_succ, count_loop, find, if_true, Option.getD_some, hi,
        assign, ih (c + 1) h1]
      have e : c + 1 + n = c + (n + 1) := by omega
      rw [e]
    · have hi : t.increment c = none := by
        simp [IntType.increment, hs, hw, h1]
      have h2 : ¬ c + (n + 1) < 2 ^ (t.bits - 1) := by omega
      simp only [List.replicate_succ, count_loop, find, if_true, Option.getD_some, hi, h2,
        if_false]

theorem count_loop_replicate_unsigned (t : IntType) (hs : t.is_signed = false) (a : K)
    (n c : Nat) :
    count_loop t (List.replicate n a) [(a, c % 2 ^ t.bits)]
      = some [(a, (c + n) % 2 ^ t.bits)] := by
  induction n generalizing c with
  | zero => simp [count_loop]
  | succ n ih =>
    have hi : t.increment (c % 2 ^ t.bits) = some ((c + 1) % 2 ^ t.bits) := by
      simp [IntType.increment, hs, Nat.mod_add_mod]
    simp only [List.replicate_succ, count_loop, find, if_true, Option.getD_some, hi, assign,
      ih (c + 1)]
    have e : c + 1 + n = c + (n + 1) := by omega
    rw [e]

theorem count_occurrences_replicate_signed (t : IntType) (hs : t.is_signed = true)
    (hw : int.bits ≤ t.bits) (a : K) (n : Nat) :
    count_occurrences t (List.replicate (n + 1) a)
      = if n + 1 < 2 ^ (t.bits - 1) then some [(a, n + 1)] else none := by
  by_cases h1 : 0 + 1 < 2 ^ (t.bits - 1)
  · have hi : t.increment 0 = some 1 := by
      simp [IntType.increment, hs, hw, h1]
    have h1' : 1 < 2 ^ (t.bits - 1) := by simpa using h1
    simp only [count_occurrences, List.replicate_succ, count_loop, find, Option.getD_none, hi,
      assign, count_loop_replicate_signed t hs hw a n 1 h1', Nat.add_comm 1 n]
  · have hi : t.increment 0 = none := by
      simp [IntType.increment, hs, hw, h1]
    have h2 : ¬ n + 1 < 2 ^ (t.bits - 1) := by omega
    simp only [count_occurrences, List.replicate_succ, count_loop, find, Option.getD_none, hi,
      h2, if_false]

theorem count_occurrences_replicate_unsigned (t : IntType) (hs : t.is_signed = false)
    (a : K) (n : Nat) :
    count_occurrences t (List.replicate (n + 1) a) = some [(a, (n + 1) % 2 ^ t.bits)] := by
  have hi : t.increment 0 = some (1 % 2 ^ t.bits) := by
    simp [IntType.increment, hs]
  simp only [count_occurrences, List.replicate_succ, count_loop, find, Option.getD_none, hi,
    assign, count_loop_replicate_unsigned t hs a n 1, Nat.add_comm 1 n]

/-- Claim C29 fails on the code for sequences that overflow the counter type `Int`.
With `Int = std::uint8_t`, 256 equal elements leave the counter at 0; with the default
`int` of the container overload, the increment at the 2^31st equal element overflows a
signed integer, which is undefined behaviour. -/
theorem count_occurrences_overflows :
    count_occurrences { bits := 8, is_signed := false } (List.replicate (255 + 1) 7)
      = some [(7, (255 + 1) % 2 ^ 8)] ∧
    (255 + 1) % 2 ^ 8 = 0 ∧
    (List.replicate (255 + 1) 7).count 7 = 255 + 1 ∧
    count_occurrences_container int (List.replicate (2147483647 + 1) 7) = none ∧
    2147483647 + 1 = 2 ^ 31 := by
  refine ⟨count_occurrences_replicate_unsigned { bits := 8, is_signed := false } rfl 7 255,
    by norm_num, List.count_replicate_self _ _, ?_, by norm_num⟩
  have h := count_occurrences_replicate_signed int rfl (Nat.le_refl _) 7 2147483647
  have h2 : ¬ 2147483647 + 1 < 2 ^ (int.bits - 1) := by norm_num [int]
  rw [if_neg h2] at h
  exact h

/-- Claim C29 as amended. For a sequence in which no element occurs more often than the
greatest value of the counter type `Int`, `count_occurrences` returns a map whose keys
are exactly the distinct elements of the sequence, each mapped to the number of
positions at which it occurs, so that the values sum to the length of the sequence; the
container overload returns the same map. -/
theorem count_occurrences_spec (t : IntType) (xs : List K)
    (hfit : ∀ x ∈ xs, xs.count x ≤ t.max_value) :
    ∃ m, count_occurrences t xs = some m ∧ count_occurrences_container t xs = some m ∧
      (m.map Prod.fst).Nodup ∧ (∀ x, x ∈ m.map Prod.fst ↔ x ∈ xs) ∧
      (∀ x ∈ xs, find m x = some (xs.count x)) ∧
      (m.map Prod.snd).sum = xs.length := by
  obtain ⟨m, h1, h2, h3, h4⟩ := count_loop_spec t xs [] (by simp)
    (fun x hx => by simpa [find] using hfit x hx)
  refine ⟨m, h1, h1, h2, ?_, ?_, by simpa using h4⟩
  · intro x
    rw [← find_isSome, h3 x]
    by_cases hx : x ∈ xs
    · simp [hx]
    · simp [hx, find]
  · intro x hx
    rw [h3 x]
    simp [hx, find]

theorem count_occurrences_spec_witness :
    (∀ x ∈ ([3, 1, 3, 2, 3, 1] : List Nat),
      ([3, 1, 3, 2, 3, 1] : List Nat).count x ≤ size_t.max_value) ∧
    ∃ m, count_occurrences size_t ([3, 1, 3, 2, 3, 1] : List Nat) = some m ∧
      count_occurrences_container size_t ([3, 1, 3, 2, 3, 1] : List Nat) = some m ∧
      (m.map Prod.fst).Nodup ∧ (∀ x, x ∈ m.map Prod.fst ↔ x ∈ ([3, 1, 3, 2, 3, 1] : List Nat)) ∧
      (∀ x ∈ ([3, 1, 3, 2, 3, 1] : List Nat),
        find m x = some (([3, 1, 3, 2, 3, 1] : List Nat).count x)) ∧
      (m.map Prod.snd).sum = ([3, 1, 3, 2, 3, 1] : List Nat).length :=
  ⟨by decide, count_occurrences_spec size_t [3, 1, 3, 2, 3, 1] (by decide)⟩

end ext.algorithm

/-! ## min and max -/

namespace ext.algorithm

theorem max_default_le {T : Type} [LinearOrder T] (a b c : T) :
    max_default a b c ≤ a ∧ max_default a b c ≤ b ∧ max_default a b c ≤ c ∧
    (max_default a b c = a ∨ max_default a b c = b ∨ max_default a b c = c) := by
  unfold max_default max std_max std_greater
  by_cases h1 : a > b
  · by_cases h2 : b > c
    · simp [h1, h2]; exact ⟨le_of_lt (lt_trans h2 h1), le_of_lt h2⟩
    · simp [h1, h2]; exact ⟨le_of_lt h1, not_lt.mp h2⟩
  · by_cases h2 : a > c
    · simp [h1, h2]; exact ⟨le_of_lt h2, le_trans (le_of_lt h2) (not_lt.mp h1)⟩
    · simp [h1, h2]; exact ⟨not_lt.mp h1, not_lt.mp h2⟩

theorem max_less_ge {T : Type} [LinearOrder T] (a b c : T) :
    a ≤ max a b c std_less ∧ b ≤ max a b c std_less ∧ c ≤ max a b c std_less := by
  unfold max std_max std_less
  by_cases h1 : a < b
  · by_cases h2 : b < c
    · simp [h1, h2]; exact ⟨le_of_lt (lt_trans h1 h2), le_of_lt h2⟩
    · simp [h1, h2]; exact ⟨le_of_lt h1, not_lt.mp h2⟩
  · by_cases h2 : a < c
    · simp [h1, h2]; exact ⟨le_of_lt h2, le_trans (not_lt.mp h1) (le_of_lt h2)⟩
    · simp [h1, h2]; exact ⟨not_lt.mp h1, not_lt.mp h2⟩

/-- Claim C31. The call `max(a, b, c)` with its default comparator, `std::greater<>`,
returns the least of its three arguments and not the greatest: `max(1, 2, 3)`,
`max(3, 2, 1)` and `max(2, 3, 1)` are 1, as is `min(1, 2, 3)`.  For every totally
ordered type the result is one of the arguments and is `<=` each of them; with
`std::less<>` passed as the comparator the result is `>=` each argument. -/
theorem max_default_returns_least :
    max_default (1 : Int) 2 3 = 1 ∧ ¬ (3 : Int) ≤ max_default (1 : Int) 2 3 ∧
    max_default (3 : Int) 2 1 = 1 ∧ max_default (2 : Int) 3 1 = 1 ∧
    min_default (1 : Int) 2 3 = 1 ∧
    (∀ (T : Type) [LinearOrder T] (a b c : T),
      max_default a b c ≤ a ∧ max_default a b c ≤ b ∧ max_default a b c ≤ c ∧
      (max_default a b c = a ∨ max_default a b c = b ∨ max_default a b c = c)) ∧
    (∀ (T : Type) [LinearOrder T] (a b c : T),
      a ≤ max a b c std_less ∧ b ≤ max a b c std_less ∧ c ≤ max a b c std_less) := by
  refine ⟨by decide, by decide, by decide, by decide, by decide, ?_, ?_⟩
  · intro T _ a b c; exact max_default_le a b c
  · intro T _ a b c; exact max_less_ge a b c

end ext.algorithm

/-! ## add_function_cache -/

namespace obi.util

open ext.algorithm

variable {A R : Type} [DecidableEq A]

theorem add_function_cache_graph (f : A → R) (cache : List (A × R)) (x : A)
    (h : ∀ a r, find cache a = some r → r = f a) :
    (add_function_cache f cache x).1 = f x ∧
      ∀ a r, find (add_function_cache f cache x).2.1 a = some r → r = f a := by
  unfold add_function_cache
  cases hx : find cache x with
  | none =>
    refine ⟨rfl, ?_⟩
    intro a r hr
    simp only [find_assign] at hr
    by_cases e : a = x
    · subst e; simp at hr; exact hr.symm
    · simp only [e, if_false] at hr; exact h a r hr
  | some c => exact ⟨h x c hx, h⟩

theorem add_function_cache_calls_graph (f : A → R) (xs : List A) (cache : List (A × R))
    (h : ∀ a r, find cache a = some r → r = f a) :
    (add_function_cache_calls (xs.map (fun a => (f, a))) cache).1 = xs.map f := by
  induction xs generalizing cache with
  | nil => rfl
  | cons x rest ih =>
    obtain ⟨h1, h2⟩ := add_function_cache_graph f cache x h
    simp only [List.map_cons, add_function_cache_calls, h1, ih _ h2]

theorem call_old_graph (w : function_cache_old A R)
    (h : ∀ a r, find w.cache a = some r → r = w.fun_ a) (x : A) :
    (w.call x).1 = w.fun_ x ∧ (w.call x).2.1.fun_ = w.fun_ ∧
      ∀ a r, find (w.call x).2.1.cache a = some r → r = w.fun_ a := by
  unfold function_cache_old.call
  cases hx : find w.cache x with
  | none =>
    refine ⟨rfl, rfl, ?_⟩
    intro a r hr
    simp only [find_assign] at hr
    by_cases e : a = x
    · subst e; simp at hr; exact hr.symm
    · simp only [e, if_false] at hr; exact h a r hr
  | some c => exact ⟨h x c hx, rfl, h⟩

theorem calls_old_graph (w : function_cache_old A R)
    (h : ∀ a r, find w.cache a = some r → r = w.fun_ a) (xs : List A) :
    (w.calls xs).1 = xs.map w.fun_ := by
  induction xs generalizing w with
  | nil => rfl
  | cons x rest ih =>
    obtain ⟨h1, h2, h3⟩ := call_old_graph w h x
    simp only [function_cache_old.calls, List.map_cons, h1]
    rw [ih (w.call x).2.1 (by rw [h2]; exact h3), h2]

/-- Claim C34. Memoization by `add_function_cache` is not transparent when two functions
of one type are wrapped: the closures share the static `result_cache`, so after the
wrapper of `x + 1` was called with 3 the wrapper of `2 * x` called with 3 returns 4 and
not 6.  With one function wrapped every call returns the value of the function, and
every call of a wrapper returned by `add_function_cache_old`, which holds a cache of its
own, returns the value of its function. -/
theorem add_function_cache_shares_result_cache :
    (add_function_cache_calls
      [((fun x : Int => x + 1), (3 : Int)), ((fun x : Int => 2 * x), (3 : Int))] []).1
      = [4, 4] ∧
    [(fun x : Int => x + 1) 3, (fun x : Int => 2 * x) 3] = [4, 6] ∧
    (((add_function_cache_old (fun x : Int => x + 1)).call (3 : Int)).1 = 4 ∧
      ((add_function_cache_old (fun x : Int => 2 * x)).call (3 : Int)).1 = 6) ∧
    (∀ (A R : Type) [DecidableEq A] (f : A → R) (xs : List A),
      (add_function_cache_calls (xs.map (fun a => (f, a))) []).1 = xs.map f) ∧
    (∀ (A R : Type) [DecidableEq A] (f : A → R) (xs : List A),
      ((add_function_cache_old f).calls xs).1 = xs.map f) := by
  refine ⟨by decide, by decide, ⟨by decide, by decide⟩, ?_, ?_⟩
  · intro A R _ f xs
    exact add_function_cache_calls_graph f xs [] (by intro a r h; simp [find] at h)
  · intro A R _ f xs
    exact calls_old_graph (add_function_cache_old f)
      (by intro a r h; simp [add_function_cache_old, find] at h) xs

theorem add_function_cache_calls_count (f : A → R) (xs : List A) (cache : List (A × R))
    (x : A) :
    (add_function_cache_calls (xs.map (fun a => (f, a))) cache).2.2.count x
      = if (find cache x).isSome then 0 else if x ∈ xs then 2 else 0 := by
  induction xs generalizing cache with
  | nil => simp [add_function_cache_calls]
  | cons y rest ih =>
    simp only [List.map_cons, add_function_cache_calls, List.count_append, ih]
    unfold add_function_cache
    cases hy : find cache y with
    | none =>
      simp only [find_assign]
      by_cases e : x = y
      · subst e
        simp [hy]
      · have e1 : ¬ y = x := fun h => e h.symm
        simp [e, e1, List.count_cons]
    | some c =>
      by_cases e : x = y
      · subst e
        simp [hy]
      · simp [e]

theorem calls_old_count (w : function_cache_old A R) (xs : List A) (x : A) :
    (w.calls xs).2.2.count x
      = if (find w.cache x).isSome then 0 else if x ∈ xs then 1 else 0 := by
  induction xs generalizing w with
  | nil => simp [function_cache_old.calls]
  | cons y rest ih =>
    simp only [function_cache_old.calls, List.count_append, ih]
    unfold function_cache_old.call
    cases hy : find w.cache y with
    | none =>
      simp only [find_assign]
      by_cases e : x = y
      · subst e
        simp [hy]
      · have e1 : ¬ y = x := fun h => e h.symm
        simp [e, e1, List.count_cons]
    | some c =>
      by_cases e : x = y
      · subst e
        simp [hy]
      · simp [e]

theorem call_old_cached (w : function_cache_old A R) (y x : A)
    (h : (find w.cache x).isSome = true ∨ x = y) :
    (find (w.call y).2.1.cache x).isSome = true := by
  unfold function_cache_old.call
  cases hy : find w.cache y with
  | none =>
    simp only [find_assign]
    by_cases e : x = y
    · simp [e]
    · rcases h with h | h
      · simp [e, h]
      · exact absurd h e
  | some c =>
    rcases h with h | h
    · exact h
    · subst h; simp [hy]

theorem calls_old_cached (w : function_cache_old A R) (xs : List A) (x : A)
    (h : (find w.cache x).isSome = true ∨ x ∈ xs) :
    (find (w.calls xs).2.1.cache x).isSome = true := by
  induction xs generalizing w with
  | nil =>
    rcases h with h | h
    · exact h
    · simp at h
  | cons y rest ih =>
    simp only [function_cache_old.calls]
    apply ih
    rcases h with h | h
    · exact Or.inl (call_old_cached w y x (Or.inl h))
    · rcases List.mem_cons.mp h with e | e
      · exact Or.inl (call_old_cached w y x (Or.inr e))
      · exact Or.inr e

theorem call_old_hit (w : function_cache_old A R) (x : A)
    (h : (find w.cache x).isSome = true) : (w.call x).2.2 = [] := by
  unfold function_cache_old.call
  cases hx : find w.cache x with
  | none => simp [hx] at h
  | some c => rfl

theorem add_function_cache_cached (f : A → R) (cache : List (A × R)) (y x : A)
    (h : (find cache x).isSome = true ∨ x = y) :
    (find (add_function_cache f cache y).2.1 x).isSome = true := by
  unfold add_function_cache
  cases hy : find cache y with
  | none =>
    simp only [find_assign]
    by_cases e : x = y
    · simp [e]
    · rcases h with h | h
      · simp [e, h]
      · exact absurd h e
  | some c =>
    rcases h with h | h
    · exact h
    · subst h; simp [hy]

theorem add_function_cache_calls_cached (f : A → R) (xs : List A) (cache : List (A × R))
    (x : A) (h : (find cache x).isSome = true ∨ x ∈ xs) :
    (find (add_function_cache_calls (xs.map (fun a => (f, a))) cache).2.1 x).isSome
      = true := by
  induction xs generalizing cache with
  | nil =>
    rcases h with h | h
    · exact h
    · simp at h
  | cons y rest ih =>
    simp only [List.map_cons, add_function_cache_calls]
    apply ih
    rcases h with h | h
    · exact Or.inl (add_function_cache_cached f cache y x (Or.inl h))
    · rcases List.mem_cons.mp h with e | e
      · exact Or.inl (add_function_cache_cached f cache y x (Or.inr e))
      · exact Or.inr e

theorem add_function_cache_hit (f : A → R) (cache : List (A × R)) (x : A)
    (h : (find cache x).isSome = true) : (add_function_cache f cache x).2.2 = [] := by
  unfold add_function_cache
  cases hx : find cache x with
  | none => simp [hx] at h
  | some c => rfl

/-- Claim C35. A wrapper of `add_function_cache` evaluates the function twice on a cache
miss (the first call with 3 evaluates it on 3 twice) and not at all on a later call with
the same arguments: over calls of the wrappers of one function, from an empty cache, the
function is evaluated exactly twice on every argument tuple that occurs.  A wrapper of
`add_function_cache_old` evaluates it exactly once on every tuple that occurs, and a
call after one with the same arguments evaluates nothing. -/
theorem add_function_cache_evaluates_twice :
    (add_function_cache (fun x : Int => x + 1) [] (3 : Int)).2.2 = [3, 3] ∧
    (add_function_cache (fun x : Int => x + 1)
      (add_function_cache (fun x : Int => x + 1) [] (3 : Int)).2.1 (3 : Int)).2.2 = [] ∧
    (∀ (A R : Type) [DecidableEq A] (f : A → R) (x : A),
      (add_function_cache f [] x).2.2 = [x, x]) ∧
    (∀ (A R : Type) [DecidableEq A] (f : A → R) (xs : List A) (x : A),
      (add_function_cache_calls (xs.map (fun a => (f, a))) []).2.2.count x
        = if x ∈ xs then 2 else 0) ∧
    (∀ (A R : Type) [DecidableEq A] (f : A → R) (xs : List A) (x : A),
      ((add_function_cache_old f).calls xs).2.2.count x = if x ∈ xs then 1 else 0) ∧
    (∀ (A R : Type) [DecidableEq A] (f : A → R) (xs : List A) (x : A),
      (add_function_cache f
        (add_function_cache_calls ((xs ++ [x]).map (fun a => (f, a))) []).2.1 x).2.2
        = []) ∧
    (∀ (A R : Type) [DecidableEq A] (f : A → R) (xs : List A) (x : A),
      (((add_function_cache_old f).calls (xs ++ [x])).2.1.call x).2.2 = []) := by
  refine ⟨by decide, by decide, ?_, ?_, ?_, ?_, ?_⟩
  · intro A R _ f x
    rfl
  · intro A R _ f xs x
    rw [add_function_cache_calls_count]
    simp [find]
  · intro A R _ f xs x
    rw [calls_old_count]
    simp [add_function_cache_old, find]
  · intro A R _ f xs x
    exact add_function_cache_hit f _ x
      (add_function_cache_calls_cached f (xs ++ [x]) [] x (Or.inr (by simp)))
  · intro A R _ f xs x
    exact call_old_hit _ x (calls_old_cached _ (xs ++ [x]) x (Or.inr (by simp)))

end obi.util

/-! ## hierarchical_mutex -/

namespace obi.concurrent

namespace hierarchical_mutex

/-- Claim C36. The members `lock()` and `try_lock()` throw `std::logic_error` exactly
when the hierarchy value `t` of the calling thread is `<=` the `hierarchy_value` of the
mutex, and then leave the thread's value and the mutex as they were.  When `t` is
greater and the internal mutex is acquired, the thread's value becomes `hierarchy_value`
and `previous_hierarchy_value` becomes `t`; a `try_lock()` that does not acquire returns
false and changes nothing, and `lock()` on an owned internal mutex waits. -/
theorem lock_checks_hierarchy (t : Nat) (m : hierarchical_mutex) (spurious : Bool) :
    ((∃ what, (lock t m).1 = Outcome.logic_error what) ↔ t ≤ m.hierarchy_value) ∧
    ((∃ what, (try_lock t m spurious).1 = Outcome.logic_error what)
      ↔ t ≤ m.hierarchy_value) ∧
    (t ≤ m.hierarchy_value →
      lock t m = (Outcome.logic_error "mutex hierarchy violated", t, m) ∧
      try_lock t m spurious = (Outcome.logic_error "mutex hierarchy violated", t, m)) ∧
    (m.hierarchy_value < t → m.internal_mutex = false →
      lock t m = (Outcome.returned (), m.hierarchy_value,
        { internal_mutex := true, hierarchy_value := m.hierarchy_value,
          previous_hierarchy_value := t })) ∧
    (m.hierarchy_value < t → m.internal_mutex = false → spurious = false →
      try_lock t m spurious = (Outcome.returned true, m.hierarchy_value,
        { internal_mutex := true, hierarchy_value := m.hierarchy_value,
          previous_hierarchy_value := t })) ∧
    (m.hierarchy_value < t → (m.internal_mutex = true ∨ spurious = true) →
      try_lock t m spurious = (Outcome.returned false, t, m)) ∧
    (m.hierarchy_value < t → m.internal_mutex = true →
      lock t m = (Outcome.blocked, t, m)) := by
  by_cases hle : t ≤ m.hierarchy_value
  · have hn : ¬ m.hierarchy_value < t := by omega
    refine ⟨?_, ?_, ?_, ?_, ?_, ?_, ?_⟩
    · simp [lock, check_for_hierarchy_violation, hle]
    · simp [try_lock, check_for_hierarchy_violation, hle]
    · intro _
      simp [lock, try_lock, check_for_hierarchy_violation, hle]
    · intro h; exact absurd h hn
    · intro h; exact absurd h hn
    · intro h; exact absurd h hn
    · intro h; exact absurd h hn
  · have hlt : m.hierarchy_value < t := by omega
    refine ⟨?_, ?_, ?_, ?_, ?_, ?_, ?_⟩
    · constructor
      · rintro ⟨what, h⟩
        cases hb : m.internal_mutex <;>
          simp [lock, check_for_hierarchy_violation, hle, hb,
            update_hierarchy_value] at h
      · intro h; exact absurd h hle
    · constructor
      · rintro ⟨what, h⟩
        cases hb : m.internal_mutex <;> cases spurious <;>
          simp [try_lock, check_for_hierarchy_violation, hle, hb,
            update_hierarchy_value] at h
      · intro h; exact absurd h hle
    · intro h; exact absurd h hle
    · intro _ hb
      simp [lock, check_for_hierarchy_violation, hle, hb, update_hierarchy_value]
    · intro _ hb hs
      simp [try_lock, check_for_hierarchy_violation, hle, hb, hs, update_hierarchy_value]
    · intro _ hb
      rcases hb with hb | hb <;>
        simp [try_lock, check_for_hierarchy_violation, hle, hb]
    · intro _ hb
      simp [lock, check_for_hierarchy_violation, hle, hb]

theorem lock_checks_hierarchy_witness :
    (new 5).hierarchy_value < 10 ∧ (new 5).internal_mutex = false ∧
    lock 10 (new 5) = (Outcome.returned (), 5,
      { internal_mutex := true, hierarchy_value := 5, previous_hierarchy_value := 10 }) ∧
    5 ≤ (new 5).hierarchy_value ∧
    lock 5 (new 5) = (Outcome.logic_error "mutex hierarchy violated", 5, new 5) ∧
    try_lock 5 (new 5) false = (Outcome.logic_error "mutex hierarchy violated", 5, new 5) :=
  ⟨by decide, rfl,
    (lock_checks_hierarchy 10 (new 5) false).2.2.2.1 (by decide) rfl,
    by decide,
    ((lock_checks_hierarchy 5 (new 5) false).2.2.1 (by decide)).1,
    ((lock_checks_hierarchy 5 (new 5) false).2.2.1 (by decide)).2⟩

end hierarchical_mutex

theorem chained_ge {ms : List hierarchical_mutex} {st : List Nat} {t : Nat}
    (h : chained ms st t) : ∀ j ∈ st, ∃ m, ms[j]? = some m ∧ t ≤ m.hierarchy_value := by
  induction st generalizing t with
  | nil => intro j hj; simp at hj
  | cons i below ih =>
    obtain ⟨m, hm, ht, hlt, hc⟩ := h
    intro j hj
    rcases List.mem_cons.mp hj with e | e
    · subst e; exact ⟨m, hm, le_of_eq ht⟩
    · obtain ⟨m2, hm2, hle⟩ := ih hc j e
      exact ⟨m2, hm2, by omega⟩

theorem chained_set {ms : List hierarchical_mutex} {st : List Nat} {t : Nat}
    (h : chained ms st t) (i : Nat) (m1 : hierarchical_mutex) (hi : ∀ j ∈ st, j ≠ i) :
    chained (ms.set i m1) st t := by
  induction st generalizing t with
  | nil => exact h
  | cons k below ih =>
    obtain ⟨m, hm, ht, hlt, hc⟩ := h
    have hk : k ≠ i := hi k (List.mem_cons_self _ _)
    refine ⟨m, ?_, ht, hlt, ih hc (fun j hj => hi j (List.mem_cons_of_mem _ hj))⟩
    rw [List.getElem?_set_ne (Ne.symm hk)]
    exact hm

theorem chained_pairwise {s : Thread} {st : List Nat} {t : Nat}
    (h : chained s.mutexes st t) :
    (st.map s.hierarchy_value_of).Pairwise (· < ·) ∧
      ∀ j ∈ st, t ≤ s.hierarchy_value_of j := by
  induction st generalizing t with
  | nil => simp
  | cons i below ih =>
    obtain ⟨m, hm, ht, hlt, hc⟩ := h
    obtain ⟨hp, hge⟩ := ih hc
    have hi : s.hierarchy_value_of i = m.hierarchy_value := by
      simp [Thread.hierarchy_value_of, hm]
    constructor
    · rw [List.map_cons, List.pairwise_cons]
      refine ⟨?_, hp⟩
      intro b hb
      obtain ⟨j, hj, rfl⟩ := List.mem_map.mp hb
      have := hge j hj
      omega
    · intro j hj
      rcases List.mem_cons.mp hj with e | e
      · subst e; omega
      · have := hge j e; omega

theorem lock_returned {t : Nat} {m m1 : hierarchical_mutex} {t1 : Nat}
    (h : hierarchical_mutex.lock t m = (.returned (), t1, m1)) :
    m.hierarchy_value < t ∧ t1 = m.hierarchy_value ∧
      m1.hierarchy_value = m.hierarchy_value ∧ m1.previous_hierarchy_value = t := by
  unfold hierarchical_mutex.lock hierarchical_mutex.check_for_hierarchy_violation at h
  by_cases hle : t ≤ m.hierarchy_value
  · simp [hle] at h
  · by_cases hb : m.internal_mutex = true
    · simp [hle, hb] at h
    · simp [hle, hb, hierarchical_mutex.update_hierarchy_value] at h
      obtain ⟨h1, h2⟩ := h
      subst h2
      exact ⟨by omega, h1.symm, rfl, rfl⟩

theorem step_chained {s s1 : Thread} {c : Call} {st st1 : List Nat}
    (hc : chained s.mutexes st s.this_thread_hierarchy_value)
    (hs : s.step c = some s1)
    (hh : held [c] st = some st1) :
    chained s1.mutexes st1 s1.this_thread_hierarchy_value := by
  cases c with
  | lock i =>
    simp only [held, Option.some.injEq] at hh
    subst hh
    unfold Thread.step at hs
    cases hm : s.mutexes[i]? with
    | none => simp [hm] at hs
    | some m =>
      simp only [hm] at hs
      cases hl : hierarchical_mutex.lock s.this_thread_hierarchy_value m with
      | mk o r =>
        obtain ⟨t1, m1⟩ := r
        cases o with
        | returned u =>
          cases u
          simp only [hl, Option.some.injEq] at hs
          subst hs
          obtain ⟨hlt, ht1, hv1, hp1⟩ := lock_returned hl
          have hlen : i < s.mutexes.length := by
            by_contra hcon
            rw [List.getElem?_eq_none (by omega)] at hm
            cases hm
          refine ⟨m1, ?_, ?_, ?_, ?_⟩
          · simp [hlen]
          · simp [ht1, hv1]
          · simp [hv1, hp1]; exact hlt
          · simp only [hp1]
            apply chained_set hc
            intro j hj e
            subst e
            obtain ⟨m2, hm2, hle⟩ := chained_ge hc j hj
            rw [hm] at hm2
            cases hm2
            omega
        | logic_error w => simp [hl] at hs
        | blocked => simp [hl] at hs
  | unlock i =>
    cases st with
    | nil => simp [held] at hh
    | cons j below =>
      simp only [held] at hh
      by_cases e : i = j
      · subst e
        simp only [if_true, Option.some.injEq] at hh
        subst hh
        obtain ⟨m, hm, ht, hlt, hcb⟩ := hc
        unfold Thread.step at hs
        simp only [hm, hierarchical_mutex.unlock] at hs
        by_cases hb : m.internal_mutex = true
        · simp only [hb, if_true, Option.some.injEq] at hs
          subst hs
          apply chained_set hcb
          intro k hk e
          subst e
          obtain ⟨m2, hm2, hle⟩ := chained_ge hcb k hk
          rw [hm] at hm2
          cases hm2
          omega
        · simp [hb] at hs
      · simp [e] at hh

theorem held_cons (c : Call) (rest : List Call) (st : List Nat) :
    held (c :: rest) st = (held [c] st).bind (held rest) := by
  cases c with
  | lock i => simp [held]
  | unlock i =>
    cases st with
    | nil => simp [held]
    | cons j below =>
      by_cases e : i = j
      · simp [held, e]
      · simp [held, e]

theorem run_chained {ops : List Call} {s s1 : Thread} {st st1 : List Nat}
    (hc : chained s.mutexes st s.this_thread_hierarchy_value)
    (hr : s.run ops = some s1) (hh : held ops st = some st1) :
    chained s1.mutexes st1 s1.this_thread_hierarchy_value := by
  induction ops generalizing s st with
  | nil =>
    simp only [Thread.run, Option.some.injEq] at hr
    simp only [held, Option.some.injEq] at hh
    subst hr; subst hh; exact hc
  | cons c rest ih =>
    rw [held_cons] at hh
    cases h1 : held [c] st with
    | none => simp [h1] at hh
    | some st2 =>
      simp only [h1, Option.some_bind] at hh
      simp only [Thread.run] at hr
      cases h2 : s.step c with
      | none => simp [h2] at hr
      | some s2 =>
        simp only [h2] at hr
        exact ih (step_chained hc h2 h1) hr hh

theorem held_append (a b : List Call) (st : List Nat) :
    held (a ++ b) st = (held a st).bind (held b) := by
  induction a generalizing st with
  | nil => simp [held]
  | cons c rest ih =>
    rw [List.cons_append, held_cons, held_cons c rest]
    cases h1 : held [c] st with
    | none => simp
    | some st2 => simp [ih]

theorem thread_run_append (a b : List Call) (s : Thread) :
    s.run (a ++ b) = (s.run a).bind (fun s1 => s1.run b) := by
  induction a generalizing s with
  | nil => simp [Thread.run]
  | cons c rest ih =>
    simp only [List.cons_append, Thread.run]
    cases h : s.step c with
    | none => simp
    | some s2 => simp [ih]

/-- Claim C37. Let one thread start with mutexes of the hierarchy values `values` and
make a properly nested sequence `pre ++ suf` of `lock()` and `unlock()` calls that all
succeed.  After the calls `pre` the hierarchy values of the mutexes held are strictly
decreasing in the order of acquisition, the thread's hierarchy value is that of the
mutex acquired last among those held, and it is the greatest `unsigned long` when no
mutex is held. -/
theorem nested_locks_keep_hierarchy (values : List Nat) (pre suf : List Call)
    (hnested : (held (pre ++ suf) []).isSome = true)
    (hrun : ((Thread.start values).run (pre ++ suf)).isSome = true) :
    ∃ stack s, held pre [] = some stack ∧ (Thread.start values).run pre = some s ∧
      (stack.reverse.map s.hierarchy_value_of).Pairwise (· > ·) ∧
      s.this_thread_hierarchy_value
        = ((stack.head?).map s.hierarchy_value_of).getD unsigned_long_max ∧
      (stack = [] → s.this_thread_hierarchy_value = unsigned_long_max) := by
  rw [held_append] at hnested
  rw [thread_run_append] at hrun
  cases h1 : held pre [] with
  | none => simp [h1] at hnested
  | some stack =>
    cases h2 : (Thread.start values).run pre with
    | none => simp [h2] at hrun
    | some s =>
      have h0 : chained (Thread.start values).mutexes []
          (Thread.start values).this_thread_hierarchy_value := rfl
      have hc : chained s.mutexes stack s.this_thread_hierarchy_value :=
        run_chained h0 h2 h1
      refine ⟨stack, s, rfl, rfl, ?_, ?_, ?_⟩
      · rw [List.map_reverse, List.pairwise_reverse]
        exact (chained_pairwise hc).1
      · cases stack with
        | nil => exact hc
        | cons i below =>
          obtain ⟨m, hm, ht, _, _⟩ := hc
          simp [Thread.hierarchy_value_of, hm, ht]
      · intro e
        subst e
        exact hc

theorem nested_locks_keep_hierarchy_witness :
    (held ([Call.lock 0, Call.lock 1, Call.unlock 1] ++ [Call.unlock 0]) []).isSome = true ∧
    ((Thread.start [100, 50]).run
      ([Call.lock 0, Call.lock 1, Call.unlock 1] ++ [Call.unlock 0])).isSome = true ∧
    ∃ stack s, held [Call.lock 0, Call.lock 1, Call.unlock 1] [] = some stack ∧
      (Thread.start [100, 50]).run [Call.lock 0, Call.lock 1, Call.unlock 1] = some s ∧
      (stack.reverse.map s.hierarchy_value_of).Pairwise (· > ·) ∧
      s.this_thread_hierarchy_value
        = ((stack.head?).map s.hierarchy_value_of).getD unsigned_long_max ∧
      (stack = [] → s.this_thread_hierarchy_value = unsigned_long_max) :=
  ⟨by decide, by decide,
    nested_locks_keep_hierarchy [100, 50] [Call.lock 0, Call.lock 1, Call.unlock 1]
      [Call.unlock 0] (by decide) (by decide)⟩

end obi.concurrent
